import Mathlib

/-!
url-regex-safe-go: the pattern assembler `New` and the patterns it builds

A shallow embedding of `ursgo.go`.  Go strings are Lean strings (sequences of
code points), `[]string` is `List String`.  The pattern string is assembled
exactly as `New` does it; what the pattern matches is given by a model of the
part of Go's `regexp` syntax that the assembled patterns use.
-/

namespace ursgo

/-! ## Library functions of Go used by `New` -/

/-- Go's `len([]rune(s))`: the number of code points of `s`. -/
def runeCount (s : String) : Nat := s.length

/-- Insertion step of the stable sort: `a` moves right past every element
that `less` puts before it and stops at the first one that it does not. -/
def insertStable {α : Type} (less : α → α → Bool) (a : α) : List α → List α
  | [] => [a]
  | b :: l => if less b a then b :: insertStable less a l else a :: b :: l

/-- Go's `sort.SliceStable(x, less)`: the stable sort of `x` by the strict
order `less`; elements that `less` does not separate keep their order. -/
def SliceStable {α : Type} (less : α → α → Bool) : List α → List α
  | [] => []
  | a :: l => insertStable less a (SliceStable less l)

/-- Go's `strings.Join(elems, sep)`. -/
def Join : List String → String → String
  | [], _ => ""
  | [a], _ => a
  | a :: b :: l, sep => a ++ sep ++ Join (b :: l) sep

/-- Scanning loop of `strings.ReplaceAll` for a non-empty `old`: `skip` counts
the characters of a just replaced occurrence that are still to be dropped. -/
def replaceGo (old new : List Char) : Nat → List Char → List Char
  | _, [] => []
  | k + 1, _ :: cs => replaceGo old new k cs
  | 0, c :: cs =>
    if old.isPrefixOf (c :: cs) then new ++ replaceGo old new (old.length - 1) cs
    else c :: replaceGo old new 0 cs

/-- Go's `strings.ReplaceAll(s, old, new)` for a non-empty `old`: every
non-overlapping occurrence of `old`, found left to right, becomes `new`. -/
def ReplaceAll (s old new : String) : String :=
  ⟨replaceGo old.data new.data 0 s.data⟩

/-! ## The configuration -/

/-- The `option` struct of `ursgo.go`. -/
structure option where
  exact : Bool
  strict : Bool
  auth : Bool
  localhost : Bool
  parens : Bool
  apostrophes : Bool
  trailingPeriod : Bool
  ipv4 : Bool
  ipv6 : Bool
  tlds : List String
deriving Repr, DecidableEq

/-- Go's `type Option func(*option)`: an update of the configuration. -/
abbrev OptionFn := option → option

def Exact (v : Bool) : OptionFn := fun u => { u with exact := v }
def Strict (v : Bool) : OptionFn := fun u => { u with strict := v }
def Auth (v : Bool) : OptionFn := fun u => { u with auth := v }
def Localhost (v : Bool) : OptionFn := fun u => { u with localhost := v }
def Parens (v : Bool) : OptionFn := fun u => { u with parens := v }
def Apostrophes (v : Bool) : OptionFn := fun u => { u with apostrophes := v }
def TrailingPeriod (v : Bool) : OptionFn := fun u => { u with trailingPeriod := v }
def IPv4 (v : Bool) : OptionFn := fun u => { u with ipv4 := v }
def IPv6 (v : Bool) : OptionFn := fun u => { u with ipv6 := v }
def Tlds (v : List String) : OptionFn := fun u => { u with tlds := v }

/-- The configuration `New` starts from; `tlds` is the package-level default
list (a generated file that is not part of the sources at hand). -/
def defaults (tlds : List String) : option :=
  { exact := false, strict := false, auth := false, localhost := true,
    parens := false, apostrophes := false, trailingPeriod := false,
    ipv4 := true, ipv6 := true, tlds := tlds }

/-- The loop `for _, f := range opts { f(opt) }` of `New`. -/
def applyOptions (tlds : List String) (opts : List OptionFn) : option :=
  opts.foldl (fun o f => f o) (defaults tlds)

/-! ## Pattern assembly -/

def v4 : String :=
  "(?:25[0-5]|2[0-4]\\d|1\\d\\d|[1-9]\\d|\\d)(?:\\.(?:25[0-5]|2[0-4]\\d|1\\d\\d|[1-9]\\d|\\d))\x7b3\x7d"

def v6seg : String := "[a-fA-F\\d]\x7b1,4\x7d"

/-- The local `protocol` of `New`. -/
def protocol (opt : option) : String :=
  "(?:(?:[a-z]+:)?//)" ++ (if !opt.strict then "?" else "")

/-- The local `auth` of `New`. -/
def auth (opt : option) : String :=
  if opt.auth then "(?:\\S+(?::\\S*)?@)?" else ""

/-- The local `host` of `New`. -/
def host : String := "(?:(?:[a-z\\u00a1-\\uffff0-9][-_]*)*[a-z\\u00a1-\\uffff0-9]+)"

/-- The local `domain` of `New`. -/
def domain : String := "(?:\\.(?:[a-z\\u00a1-\\uffff0-9]-*)*[a-z\\u00a1-\\uffff0-9]+)*"

/-- The comparison handed to `sort.SliceStable` in `New`: with
`a, b := len([]rune(tlds[i])), len([]rune(tlds[j]))` it returns `b < a`. -/
def tldLess (x y : String) : Bool := decide (runeCount y < runeCount x)

/-- The TLD sequence as `New` joins it: `opt.tlds` after
`sort.SliceStable`. -/
def sortedTlds (opt : option) : List String := SliceStable tldLess opt.tlds

/-- The local `tld` of `New`. -/
def tld (opt : option) : String :=
  "(?:\\." ++
    (if opt.strict then "(?:[a-z\\u00a1-\\uffff]\x7b2,\x7d)"
     else "(?:" ++ Join (sortedTlds opt) "|" ++ ")") ++
    ")" ++ (if opt.trailingPeriod then "\\.?" else "")

/-- The local `port` of `New`. -/
def port : String := "(?::\\d\x7b2,5\x7d)?"

/-- The local `path` of `New`. -/
def path (opt : option) : String :=
  if opt.parens then
    if opt.apostrophes then "(?:[/?#][^\\s\"]*)?" else "(?:[/?#][^\\s\"\x27]*)?"
  else
    if opt.apostrophes then "(?:[/?#][^\\s\"\\)]*)?" else "(?:[/?#][^\\s\"\\)\x27]*)?"

/-- The IPv6 alternative `reg` of `New`, placeholders still in place. -/
def v6reg : String :=
  Join [
    "(?:",
    "(?:$\x7bv6seg\x7d:)\x7b7\x7d(?:$\x7bv6seg\x7d|:)|",
    "(?:$\x7bv6seg\x7d:)\x7b6\x7d(?:$\x7bv4\x7d|:$\x7bv6seg\x7d|:)|",
    "(?:$\x7bv6seg\x7d:)\x7b5\x7d(?::$\x7bv4\x7d|(?::$\x7bv6seg\x7d)\x7b1,2\x7d|:)|",
    "(?:$\x7bv6seg\x7d:)\x7b4\x7d(?:(?::$\x7bv6seg\x7d)\x7b0,1\x7d:$\x7bv4\x7d|(?::$\x7bv6seg\x7d)\x7b1,3\x7d|:)|",
    "(?:$\x7bv6seg\x7d:)\x7b3\x7d(?:(?::$\x7bv6seg\x7d)\x7b0,2\x7d:$\x7bv4\x7d|(?::$\x7bv6seg\x7d)\x7b1,4\x7d|:)|",
    "(?:$\x7bv6seg\x7d:)\x7b2\x7d(?:(?::$\x7bv6seg\x7d)\x7b0,3\x7d:$\x7bv4\x7d|(?::$\x7bv6seg\x7d)\x7b1,5\x7d|:)|",
    "(?:$\x7bv6seg\x7d:)\x7b1\x7d(?:(?::$\x7bv6seg\x7d)\x7b0,4\x7d:$\x7bv4\x7d|(?::$\x7bv6seg\x7d)\x7b1,6\x7d|:)|",
    "(?::(?:(?::$\x7bv6seg\x7d)\x7b0,5\x7d:$\x7bv4\x7d|(?::$\x7bv6seg\x7d)\x7b1,7\x7d|:))",
    ")(?:%[0-9a-zA-Z]\x7b1,\x7d)?"
  ] ""

/-- The part of the local `regex` of `New` up to and including the optional
`localhost`, IPv4 and IPv6 alternatives. -/
def regexHead (opt : option) : String :=
  "(?:" ++ protocol opt ++ "|www\\.)" ++ auth opt ++ "(?:" ++
    (if opt.localhost then "localhost|" else "") ++
    (if opt.ipv4 then v4 ++ "|" else "") ++
    (if opt.ipv6 then v6reg ++ "|" else "")

/-- The local `regex` of `New` before the anchors and the `(?i)` marker. -/
def regexBody (opt : option) : String :=
  regexHead opt ++ (host ++ domain ++ tld opt ++ ")" ++ port ++ path opt)

/-- The local `regex` of `New` before the four `strings.ReplaceAll` calls. -/
def regexRaw (opt : option) : String :=
  if opt.exact then "(?i)(?:^" ++ regexBody opt ++ "$)" else "(?i)" ++ regexBody opt

/-- The pattern string that `New` hands to `regexp.Compile`. -/
def pattern (opt : option) : String :=
  ReplaceAll
    (ReplaceAll
      (ReplaceAll
        (ReplaceAll (regexRaw opt) "\\u00a1" "\\x\x7b00a1\x7d")
        "\\uffff" "\\x\x7bffff\x7d")
      "$\x7bv4\x7d" v4)
    "$\x7bv6seg\x7d" v6seg

/-! ## Model of Go's `regexp`: syntax trees

`regexp.Compile` and `(*Regexp).MatchString` belong to Go's standard library.
They are modelled for the fragment of the syntax that the assembled patterns
use: literals, character classes with ranges and the Perl classes `\d`, `\s`,
`\S`, `\D`, escaped punctuation, `\x` with braces, the dot, groups, the flag
group `(?i)`, alternation, the repetition operators with their lazy forms,
counted repetition, `^` and `$`.  Outside this fragment `Compile` answers
`none`. -/

/-- A character class: closed ranges of code points, possibly negated;
`fold` records that the class was read under the `i` flag. -/
structure CharClass where
  neg : Bool
  ranges : List (Char × Char)
  fold : Bool
deriving DecidableEq, Repr

/-- Syntax trees after the simplifications that Go applies before compiling
(`x+` is `xx*`, `x?` is `x|()`, counted repetition is unrolled). -/
inductive Regex where
  | fail : Regex
  | empty : Regex
  | chr : CharClass → Regex
  | bol : Regex
  | eol : Regex
  | cat : Regex → Regex → Regex
  | alt : Regex → Regex → Regex
  | star : Regex → Regex
deriving DecidableEq, Repr

namespace Regex

/-- The literal `c`, read with or without the `i` flag. -/
def lit (c : Char) (fold : Bool) : Regex := chr ⟨false, [(c, c)], fold⟩

/-- The simplified form of `x?`. -/
def opt (r : Regex) : Regex := alt r empty

/-- The simplified form of `x+`. -/
def plus (r : Regex) : Regex := cat r (star r)

/-- The sequence of `n` copies of `r`. -/
def rpow (r : Regex) : Nat → Regex
  | 0 => empty
  | n + 1 => cat r (rpow r n)

/-- The simplified form of the counted repetitions: `some m` is an upper
bound, `none` is the open form with a comma and no upper bound. -/
def counted (r : Regex) (n : Nat) : Option Nat → Regex
  | some m => cat (rpow r n) (rpow (opt r) (m - n))
  | none => cat (rpow r n) (star r)

end Regex

/-- Does some range of the class contain `d`? -/
def CharClass.hit (cls : CharClass) (d : Char) : Bool :=
  cls.ranges.any fun r => decide (r.1 ≤ d) && decide (d ≤ r.2)

/-- Does the class accept `c`?  `orbit c` lists the code points that are
equal to `c` under simple case folding (Go's `unicode.SimpleFold`, a table of
the Unicode standard that is taken as a parameter): a class read under the
`i` flag is closed under folding before it is negated. -/
def CharClass.test (orbit : Char → List Char) (cls : CharClass) (c : Char) : Bool :=
  xor (if cls.fold then (orbit c).any cls.hit else cls.hit c) cls.neg

/-- The semantics of a syntax tree: `Matches orbit r pre s post` says that `r`
matches the piece `s` of the text `pre ++ s ++ post`. -/
inductive Matches (orbit : Char → List Char) : Regex → List Char → List Char → List Char → Prop
  | empty (pre post : List Char) : Matches orbit .empty pre [] post
  | chr (cls : CharClass) (pre post : List Char) (c : Char) :
      cls.test orbit c = true → Matches orbit (.chr cls) pre [c] post
  | bol (post : List Char) : Matches orbit .bol [] [] post
  | eol (pre : List Char) : Matches orbit .eol pre [] []
  | cat (a b : Regex) (pre s t post : List Char) :
      Matches orbit a pre s (t ++ post) → Matches orbit b (pre ++ s) t post →
      Matches orbit (.cat a b) pre (s ++ t) post
  | altL (a b : Regex) (pre s post : List Char) :
      Matches orbit a pre s post → Matches orbit (.alt a b) pre s post
  | altR (a b : Regex) (pre s post : List Char) :
      Matches orbit b pre s post → Matches orbit (.alt a b) pre s post
  | starNil (a : Regex) (pre post : List Char) : Matches orbit (.star a) pre [] post
  | starCons (a : Regex) (pre s t post : List Char) :
      Matches orbit a pre s (t ++ post) → Matches orbit (.star a) (pre ++ s) t post →
      Matches orbit (.star a) pre (s ++ t) post

/-! ## Model of Go's `regexp`: the parser

The parser of `regexp/syntax` reads the pattern from left to right and keeps a
stack of finished pieces and of markers for open groups and for `|`.  The
model does the same, one character at a time. -/

/-- Entries of the parse stack. -/
inductive Item where
  | node : Regex → Item
  | lparen : Bool → Item
  | vbar : Item
deriving DecidableEq, Repr

/-- Where a character read by an escape sequence goes: into the pattern, or
into a class as the lower or the upper end of a range. -/
inductive Ctx where
  | top : Ctx
  | lo : Bool → List (Char × Char) → Ctx
  | hi : Bool → List (Char × Char) → Char → Ctx
deriving DecidableEq, Repr

/-- What the parser is in the middle of. -/
inductive Mode where
  | normal : Mode
  | paren : Mode
  | parenQ : Mode
  | parenFlag : Mode
  | repMin : Nat → Bool → Mode
  | repMax : Nat → Nat → Bool → Mode
  | esc : Ctx → Mode
  | escX : Ctx → Mode
  | hex : Ctx → Nat → Bool → Mode
  | clsStart : Mode
  | clsItem : Bool → List (Char × Char) → Bool → Mode
  | clsLo : Bool → List (Char × Char) → Char → Mode
  | clsDash : Bool → List (Char × Char) → Char → Mode
deriving DecidableEq, Repr

/-- Whether a repetition operator was just read: none, the operator itself
(a following `?` makes it lazy), or the operator with its `?`. -/
inductive RepSt where
  | no : RepSt
  | fresh : RepSt
  | done : RepSt
deriving DecidableEq, Repr

/-- The state of the parser. -/
structure PState where
  mode : Mode
  stack : List Item
  fold : Bool
  rep : RepSt
deriving DecidableEq, Repr

def backslash : Char := Char.ofNat 92
def lbrace : Char := Char.ofNat 123
def rbrace : Char := Char.ofNat 125

/-- The ranges of `\s`: tab, newline, form feed, carriage return, space. -/
def spaceRanges : List (Char × Char) :=
  [(Char.ofNat 9, Char.ofNat 10), (Char.ofNat 12, Char.ofNat 13), (' ', ' ')]

/-- The ranges of `\S`, the complement of `spaceRanges`. -/
def nonSpaceRanges : List (Char × Char) :=
  [(Char.ofNat 0, Char.ofNat 8), (Char.ofNat 11, Char.ofNat 11), (Char.ofNat 14, Char.ofNat 31),
   (Char.ofNat 33, Char.ofNat 1114111)]

/-- The ranges of `\d`. -/
def digitRanges : List (Char × Char) := [('0', '9')]

/-- The ranges of `\D`, the complement of `digitRanges`. -/
def nonDigitRanges : List (Char × Char) :=
  [(Char.ofNat 0, '/'), (':', Char.ofNat 1114111)]

/-- The ranges of the dot without the `s` flag: everything but newline. -/
def dotRanges : List (Char × Char) :=
  [(Char.ofNat 0, Char.ofNat 9), (Char.ofNat 11, Char.ofNat 1114111)]

/-- The value of a hexadecimal digit. -/
def hexVal (c : Char) : Option Nat :=
  if '0' ≤ c ∧ c ≤ '9' then some (c.toNat - 48)
  else if 'a' ≤ c ∧ c ≤ 'f' then some (c.toNat - 87)
  else if 'A' ≤ c ∧ c ≤ 'F' then some (c.toNat - 55)
  else none

/-- The piece `r` in front of the concatenation in progress. -/
def catOpt (r : Regex) : Option Regex → Regex
  | none => r
  | some c => .cat r c

/-- The concatenation in progress, closed as an alternative in front of the
alternatives to its right. -/
def altOpt (cur : Option Regex) : Option Regex → Regex
  | none => cur.getD .empty
  | some a => .alt (cur.getD .empty) a

/-- The closing step for a group: the pieces above the nearest open group are
concatenated, the concatenations between the `|` markers are the
alternatives.  `cur` is the concatenation in progress, `alts` the
alternatives to its right.  At an open group the answer is the tree, the `i`
flag saved there, and the rest of the stack. -/
def collapse : List Item → Option Regex → Option Regex → Option (Regex × Bool × List Item)
  | [], _, _ => none
  | .node r :: st, cur, alts => collapse st (some (catOpt r cur)) alts
  | .vbar :: st, cur, alts => collapse st none (some (altOpt cur alts))
  | .lparen f :: st, cur, alts => some (altOpt cur alts, f, st)

/-- The closing step at the end of the pattern: as `collapse`, but the stack
must hold no open group. -/
def collapseTop : List Item → Option Regex → Option Regex → Option Regex
  | [], cur, alts => some (altOpt cur alts)
  | .node r :: st, cur, alts => collapseTop st (some (catOpt r cur)) alts
  | .vbar :: st, cur, alts => collapseTop st none (some (altOpt cur alts))
  | .lparen _ :: _, _, _ => none

/-- What a step of the parser does to its state.  Which action a step takes
depends on the character read, on the mode and on the `i` flag, never on the
stack. -/
inductive Action where
  | setMode : Mode → Action
  | push : Regex → Action
  | bar : Action
  | openGroup : Bool → Action
  | setFold : Action
  | close : Action
  | rep : (Regex → Regex) → Action
  | question : Action
  | beginRep : Action

/-- A finished piece goes onto the stack. -/
def PState.push (st : PState) (r : Regex) : PState :=
  { st with mode := .normal, stack := .node r :: st.stack, rep := .no }

/-- A repetition operator applies to the piece on top of the stack; it must
not follow another repetition operator. -/
def PState.repeatTop (st : PState) (f : Regex → Regex) : Option PState :=
  match st.rep, st.stack with
  | .no, .node r :: rest =>
    some { st with mode := .normal, stack := .node (f r) :: rest, rep := .fresh }
  | _, _ => none

/-- The effect of an action. -/
def Action.apply (st : PState) : Action → Option PState
  | .setMode m => some { st with mode := m }
  | .push r => some (st.push r)
  | .bar => some { st with mode := .normal, stack := .vbar :: st.stack, rep := .no }
  | .openGroup f =>
    some { mode := .normal, stack := .lparen st.fold :: st.stack, fold := f, rep := .no }
  | .setFold => some { st with mode := .normal, fold := true, rep := .no }
  | .close =>
    match collapse st.stack none none with
    | some (r, f, rest) => some { mode := .normal, stack := .node r :: rest, fold := f, rep := .no }
    | none => none
  | .rep f => st.repeatTop f
  | .question =>
    match st.rep with
    | .fresh => some { st with rep := .done }
    | _ => st.repeatTop .opt
  | .beginRep =>
    match st.rep, st.stack with
    | .no, .node _ :: _ => some { st with mode := .repMin 0 false }
    | _, _ => none

/-- A character read by an escape sequence or read plainly inside a class
is delivered to its context. -/
def deliver (fold : Bool) (ctx : Ctx) (c : Char) : Option Action :=
  match ctx with
  | .top => some (.push (.lit c fold))
  | .lo neg rs => some (.setMode (.clsLo neg rs c))
  | .hi neg rs lo =>
    if lo ≤ c then some (.setMode (.clsItem neg (rs ++ [(lo, c)]) false)) else none

/-- The ranges of a Perl class (`\d`, `\s`, ...) are delivered to their
context; such a class cannot be the upper end of a range. -/
def deliverClass (fold : Bool) (ctx : Ctx) (ranges : List (Char × Char)) : Option Action :=
  match ctx with
  | .top => some (.push (.chr ⟨false, ranges, fold⟩))
  | .lo neg rs => some (.setMode (.clsItem neg (rs ++ ranges) false))
  | .hi _ _ _ => none

/-- The step after a backslash. -/
def actEsc (fold : Bool) (ctx : Ctx) (c : Char) : Option Action :=
  if c = 'd' then deliverClass fold ctx digitRanges
  else if c = 'D' then deliverClass fold ctx nonDigitRanges
  else if c = 's' then deliverClass fold ctx spaceRanges
  else if c = 'S' then deliverClass fold ctx nonSpaceRanges
  else if c = 'x' then some (.setMode (.escX ctx))
  else if c = 'n' then deliver fold ctx (Char.ofNat 10)
  else if c = 't' then deliver fold ctx (Char.ofNat 9)
  else if c = 'r' then deliver fold ctx (Char.ofNat 13)
  else if c = 'f' then deliver fold ctx (Char.ofNat 12)
  else if c = 'v' then deliver fold ctx (Char.ofNat 11)
  else if c = 'a' then deliver fold ctx (Char.ofNat 7)
  else if c.toNat < 128 ∧ ¬ c.isAlphanum then deliver fold ctx c
  else none

/-- The step in the ordinary mode. -/
def actNormal (fold : Bool) (c : Char) : Option Action :=
  if c = '(' then some (.setMode .paren)
  else if c = ')' then some .close
  else if c = '|' then some .bar
  else if c = '*' then some (.rep .star)
  else if c = '+' then some (.rep .plus)
  else if c = '?' then some .question
  else if c = lbrace then some .beginRep
  else if c = rbrace then none
  else if c = '[' then some (.setMode .clsStart)
  else if c = ']' then none
  else if c = backslash then some (.setMode (.esc .top))
  else if c = '^' then some (.push .bol)
  else if c = '$' then some (.push .eol)
  else if c = '.' then some (.push (.chr ⟨false, dotRanges, fold⟩))
  else some (.push (.lit c fold))

/-- The step at the start of an item of a class; `first` says that no item
was read yet, where a closing bracket is an ordinary character. -/
def actClsItem (fold neg : Bool) (rs : List (Char × Char)) (first : Bool) (c : Char) :
    Option Action :=
  if c = ']' ∧ first = false then some (.push (.chr ⟨neg, rs, fold⟩))
  else if c = backslash then some (.setMode (.esc (.lo neg rs)))
  else if c = '[' then none
  else some (.setMode (.clsLo neg rs c))

/-- The actions of one step of the parser. -/
def act (mode : Mode) (fold : Bool) (c : Char) : Option (List Action) :=
  match mode with
  | .normal => (actNormal fold c).map fun a => [a]
  | .paren =>
    if c = '?' then some [.setMode .parenQ]
    else (actNormal fold c).map fun a => [.openGroup fold, a]
  | .parenQ =>
    if c = ':' then some [.openGroup fold]
    else if c = 'i' then some [.setMode .parenFlag]
    else none
  | .parenFlag =>
    if c = ')' then some [.setFold]
    else if c = ':' then some [.openGroup true]
    else if c = 'i' then some []
    else none
  | .repMin n seen =>
    if c.isDigit then
      if seen = true ∧ n = 0 then none else some [.setMode (.repMin (10 * n + (c.toNat - 48)) true)]
    else if seen = false ∨ 1000 < n then none
    else if c = ',' then some [.setMode (.repMax n 0 false)]
    else if c = rbrace then some [.rep fun r => .counted r n (some n)]
    else none
  | .repMax n m seen =>
    if c.isDigit then
      if seen = true ∧ m = 0 then none else some [.setMode (.repMax n (10 * m + (c.toNat - 48)) true)]
    else if c = rbrace then
      if seen = false then some [.rep fun r => .counted r n none]
      else if m < n ∨ 1000 < m then none
      else some [.rep fun r => .counted r n (some m)]
    else none
  | .esc ctx => (actEsc fold ctx c).map fun a => [a]
  | .escX ctx => if c = lbrace then some [.setMode (.hex ctx 0 false)] else none
  | .hex ctx n seen =>
    if c = rbrace then
      if seen = true ∧ n.isValidChar then (deliver fold ctx (Char.ofNat n)).map fun a => [a]
      else none
    else
      match hexVal c with
      | some d =>
        if 16 * n + d < 1114112 then some [.setMode (.hex ctx (16 * n + d) true)] else none
      | none => none
  | .clsStart =>
    if c = '^' then some [.setMode (.clsItem true [] true)]
    else (actClsItem fold false [] true c).map fun a => [a]
  | .clsItem neg rs first => (actClsItem fold neg rs first c).map fun a => [a]
  | .clsLo neg rs lo =>
    if c = '-' then some [.setMode (.clsDash neg rs lo)]
    else (actClsItem fold neg (rs ++ [(lo, lo)]) false c).map fun a => [a]
  | .clsDash neg rs lo =>
    if c = ']' then some [.push (.chr ⟨neg, rs ++ [(lo, lo), ('-', '-')], fold⟩)]
    else if c = backslash then some [.setMode (.esc (.hi neg rs lo))]
    else (deliver fold (.hi neg rs lo) c).map fun a => [a]

/-- The actions of a step are applied one after the other. -/
def applyAll (st : PState) : List Action → Option PState
  | [] => some st
  | a :: as =>
    match a.apply st with
    | some st' => applyAll st' as
    | none => none

/-- One step of the parser. -/
def step (st : PState) (c : Char) : Option PState :=
  match act st.mode st.fold c with
  | some as => applyAll st as
  | none => none

/-- The parser run over a sequence of characters. -/
def run (st : PState) (cs : List Char) : Option PState := cs.foldlM step st

/-- The state the parser starts in. -/
def PState.init : PState := { mode := .normal, stack := [], fold := false, rep := .no }

/-- The end of a parse: the parser is in the ordinary mode and the stack
closes. -/
def finish (st : PState) : Option Regex :=
  if st.mode = .normal then collapseTop st.stack none none else none

/-- Go's `regexp.Compile`, for the fragment described above. -/
def Compile (pattern : String) : Option Regex :=
  (run .init pattern.data).bind finish

/-! ## Model of Go's `regexp`: matching

`MatchString` is computed with derivatives; `Matches` above is the
specification it is proved against. -/

/-- Does `r` match the empty piece?  `atStart` and `atEnd` say whether the
piece lies at the start and at the end of the text. -/
def nullable (atStart atEnd : Bool) : Regex → Bool
  | .fail => false
  | .empty => true
  | .chr _ => false
  | .bol => atStart
  | .eol => atEnd
  | .cat a b => nullable atStart atEnd a && nullable atStart atEnd b
  | .alt a b => nullable atStart atEnd a || nullable atStart atEnd b
  | .star _ => true

/-- Concatenation that drops what cannot match. -/
def mkCat : Regex → Regex → Regex
  | .fail, _ => .fail
  | .empty, b => b
  | a, b => .cat a b

/-- Alternation that drops what cannot match. -/
def mkAlt : Regex → Regex → Regex
  | .fail, b => b
  | a, .fail => a
  | a, b => .alt a b

/-- The derivative: what is left of `r` once `c` is read as the first
character of the piece; `atStart` says whether `c` is the first character of
the text. -/
def deriv (orbit : Char → List Char) (atStart : Bool) (c : Char) : Regex → Regex
  | .fail => .fail
  | .empty => .fail
  | .chr cls => if cls.test orbit c then .empty else .fail
  | .bol => .fail
  | .eol => .fail
  | .cat a b =>
    mkAlt (mkCat (deriv orbit atStart c a) b)
      (if nullable atStart false a then deriv orbit atStart c b else .fail)
  | .alt a b => mkAlt (deriv orbit atStart c a) (deriv orbit atStart c b)
  | .star a => mkCat (deriv orbit atStart c a) (.star a)

/-- Does `r` match the whole of `s`, a piece that runs to the end of the
text? -/
def matchWhole (orbit : Char → List Char) : Regex → Bool → List Char → Bool
  | r, atStart, [] => nullable atStart true r
  | r, atStart, c :: s => matchWhole orbit (deriv orbit atStart c r) false s

/-- Does `r` match a piece that starts where `s` starts? -/
def matchPrefix (orbit : Char → List Char) : Regex → Bool → List Char → Bool
  | r, atStart, [] => nullable atStart true r
  | r, atStart, c :: s =>
    nullable atStart false r || matchPrefix orbit (deriv orbit atStart c r) false s

/-- Does `r` match a piece of `s` that starts anywhere? -/
def search (orbit : Char → List Char) (r : Regex) : Bool → List Char → Bool
  | atStart, [] => nullable atStart true r
  | atStart, c :: s => matchPrefix orbit r atStart (c :: s) || search orbit r false s

/-- Go's `re.MatchString(s)`: the text contains a piece that `re` matches. -/
def MatchString (orbit : Char → List Char) (re : Regex) (s : String) : Bool :=
  search orbit re true s.data

/-- Does the pattern compile, and does its regular expression find a match in
the text?  This is `err == nil && re.MatchString(s)` for the result of
`regexp.Compile(pattern)`. -/
def PatternMatches (orbit : Char → List Char) (pattern s : String) : Bool :=
  match Compile pattern with
  | some re => MatchString orbit re s
  | none => false

/-! ## Case folding -/

def kelvin : Char := Char.ofNat 0x212A
def longS : Char := Char.ofNat 0x17F

/-- The orbits of `unicode.SimpleFold` that meet ASCII: a letter and its
other case, with the Kelvin sign in the orbit of `k` and the long s in the
orbit of `s`.  Every other code point is left alone here. -/
def asciiFold (c : Char) : List Char :=
  if c = 'k' ∨ c = 'K' ∨ c = kelvin then ['k', 'K', kelvin]
  else if c = 's' ∨ c = 'S' ∨ c = longS then ['s', 'S', longS]
  else if c.isLower then [c, c.toUpper]
  else if c.isUpper then [c, c.toLower]
  else [c]

/-- What is assumed of the table of `unicode.SimpleFold`: the orbits contain
their code point, being in one orbit is symmetric, and the orbits of the
ASCII code points are the ones listed in `asciiFold`. -/
structure FoldOK (orbit : Char → List Char) : Prop where
  self : ∀ c, c ∈ orbit c
  symm : ∀ c d, d ∈ orbit c → c ∈ orbit d
  ascii : ∀ c, c.toNat < 128 → ∀ d, d ∈ orbit c ↔ d ∈ asciiFold c

/-! ## The syntax tree of the assembled pattern

The trees below are what the parser makes of the parts of the pattern; the
theorems of the last section prove it. -/

/-- The concatenation that the parser builds from the pieces of one
alternative. -/
def catList : List Regex → Regex
  | [] => .empty
  | [r] => r
  | r :: rs => .cat r (catList rs)

/-- The alternation that the parser builds from the alternatives of a
group. -/
def altList : List Regex → Regex
  | [] => .empty
  | [r] => r
  | r :: rs => .alt r (altList rs)

/-- The tree of a word of ordinary characters read under the `i` flag. -/
def wordRe (w : List Char) : Regex := catList (w.map fun c => .lit c true)

/-- The tree of the TLD alternation `(?:t1|t2|...)`. -/
def tldAltRe (ts : List String) : Regex := altList (ts.map fun t => wordRe t.data)

def hostCls : CharClass :=
  ⟨false, [('a', 'z'), (Char.ofNat 0xa1, Char.ofNat 0xffff), ('0', '9')], true⟩

def digitCls : CharClass := ⟨false, digitRanges, true⟩

/-- The tree of the part `host`. -/
def hostRe : Regex :=
  .cat (.star (.cat (.chr hostCls) (.star (.chr ⟨false, [('-', '-'), ('_', '_')], true⟩))))
    (.plus (.chr hostCls))

/-- The tree of the part `domain`. -/
def domainRe : Regex :=
  .star (.cat (.lit '.' true)
    (.cat (.star (.cat (.chr hostCls) (.star (.lit '-' true)))) (.plus (.chr hostCls))))

/-- The tree of the TLD class of the strict mode. -/
def strictTldRe : Regex :=
  .counted (.chr ⟨false, [('a', 'z'), (Char.ofNat 0xa1, Char.ofNat 0xffff)], true⟩) 2 none

/-- The tree of `(?:(?:[a-z]+:)?//)`. -/
def schemeRe : Regex :=
  .cat (.opt (.cat (.plus (.chr ⟨false, [('a', 'z')], true⟩)) (.lit ':' true)))
    (.cat (.lit '/' true) (.lit '/' true))

/-- The tree of the protocol group, with the `www.` alternative. -/
def protoRe (strict : Bool) : Regex :=
  .alt (if strict then schemeRe else .opt schemeRe) (wordRe ['w', 'w', 'w', '.'])

/-- The tree of the part `auth`. -/
def authRe : Regex :=
  .opt (.cat (.plus (.chr ⟨false, nonSpaceRanges, true⟩))
    (.cat (.opt (.cat (.lit ':' true) (.star (.chr ⟨false, nonSpaceRanges, true⟩))))
      (.lit '@' true)))

/-- The tree of the part `port`. -/
def portRe : Regex := .opt (.cat (.lit ':' true) (.counted (.chr digitCls) 2 (some 5)))

/-- The class of the characters that continue a path. -/
def pathCls (parens apostrophes : Bool) : CharClass :=
  ⟨true, spaceRanges ++ [('"', '"')] ++ (if parens then [] else [(')', ')')]) ++
    (if apostrophes then [] else [(Char.ofNat 39, Char.ofNat 39)]), true⟩

/-- The tree of the part `path`. -/
def pathRe (parens apostrophes : Bool) : Regex :=
  .opt (.cat (.chr ⟨false, [('/', '/'), ('?', '?'), ('#', '#')], true⟩)
    (.star (.chr (pathCls parens apostrophes))))

/-- The tree of one octet of the part `v4`. -/
def octetRe : Regex :=
  altList [
    catList [.lit '2' true, .lit '5' true, .chr ⟨false, [('0', '5')], true⟩],
    catList [.lit '2' true, .chr ⟨false, [('0', '4')], true⟩, .chr digitCls],
    catList [.lit '1' true, .chr digitCls, .chr digitCls],
    catList [.chr ⟨false, [('1', '9')], true⟩, .chr digitCls],
    .chr digitCls]

/-- The tree of the three further octets of the part `v4`. -/
def v4TailRe : Regex := .counted (.cat (.lit '.' true) octetRe) 3 (some 3)

/-- The tree of the part `v4`. -/
def v4Re : Regex := .cat octetRe v4TailRe

/-- The tree of the part `v6seg`. -/
def segRe : Regex :=
  .counted (.chr ⟨false, [('a', 'f'), ('A', 'F'), ('0', '9')], true⟩) 1 (some 4)

/-- The tree of an alternative of the IPv6 part that starts with `k`
segments: up to `i` further segments before an IPv4 tail, or up to `j`
further segments. -/
def v6AltRe (k i j : Nat) : Regex :=
  .cat (.counted (.cat segRe (.lit ':' true)) k (some k))
    (altList [
      catList [.counted (.cat (.lit ':' true) segRe) 0 (some i), .lit ':' true, octetRe, v4TailRe],
      .counted (.cat (.lit ':' true) segRe) 1 (some j),
      .lit ':' true])

/-- The tree of the eight alternatives of the IPv6 part `reg`. -/
def v6MainRe : Regex :=
  altList [
    .cat (.counted (.cat segRe (.lit ':' true)) 7 (some 7)) (.alt segRe (.lit ':' true)),
    .cat (.counted (.cat segRe (.lit ':' true)) 6 (some 6))
      (altList [v4Re, .cat (.lit ':' true) segRe, .lit ':' true]),
    .cat (.counted (.cat segRe (.lit ':' true)) 5 (some 5))
      (altList [catList [.lit ':' true, octetRe, v4TailRe],
        .counted (.cat (.lit ':' true) segRe) 1 (some 2), .lit ':' true]),
    v6AltRe 4 1 3, v6AltRe 3 2 4, v6AltRe 2 3 5, v6AltRe 1 4 6,
    .cat (.lit ':' true)
      (altList [
        catList [.counted (.cat (.lit ':' true) segRe) 0 (some 5), .lit ':' true, octetRe, v4TailRe],
        .counted (.cat (.lit ':' true) segRe) 1 (some 7),
        .lit ':' true])]

/-- The tree of the optional zone suffix of the IPv6 part `reg`. -/
def v6ZoneRe : Regex :=
  .opt (.cat (.lit '%' true)
    (.counted (.chr ⟨false, [('0', '9'), ('a', 'z'), ('A', 'Z')], true⟩) 1 none))

/-- The tree of the IPv6 part `reg`. -/
def v6Re : Regex := .cat v6MainRe v6ZoneRe

/-- The tree of the generic alternative: host, domain, the TLD group around
the tree `t`, and the optional trailing period. -/
def genericRe (t : Regex) (trailingPeriod : Bool) : Regex :=
  catList ([hostRe, domainRe, .cat (.lit '.' true) t] ++
    (if trailingPeriod then [.opt (.lit '.' true)] else []))

/-- The tree of the host group. -/
def hostGroupRe (t : Regex) (localhost ipv4 ipv6 trailingPeriod : Bool) : Regex :=
  altList ((if localhost then [wordRe "localhost".data] else []) ++
    (if ipv4 then [v4Re] else []) ++ (if ipv6 then [v6Re] else []) ++
    [genericRe t trailingPeriod])

/-- The pieces between the anchors. -/
def bodyRes (t : Regex) (strict auth localhost parens apostrophes trailingPeriod ipv4 ipv6 : Bool) :
    List Regex :=
  [protoRe strict] ++ (if auth then [authRe] else []) ++
    [hostGroupRe t localhost ipv4 ipv6 trailingPeriod, portRe, pathRe parens apostrophes]

/-- The tree of the whole pattern, around the tree `t` of the TLD
alternation. -/
def patternTree (t : Regex)
    (exact strict auth localhost parens apostrophes trailingPeriod ipv4 ipv6 : Bool) : Regex :=
  if exact then
    catList ([.bol] ++
      bodyRes t strict auth localhost parens apostrophes trailingPeriod ipv4 ipv6 ++ [.eol])
  else catList (bodyRes t strict auth localhost parens apostrophes trailingPeriod ipv4 ipv6)

/-- The tree of the pattern of a configuration. -/
def patternRe (opt : option) : Regex :=
  patternTree (if opt.strict then strictTldRe else tldAltRe (sortedTlds opt))
    opt.exact opt.strict opt.auth opt.localhost opt.parens opt.apostrophes opt.trailingPeriod
    opt.ipv4 opt.ipv6

/-! ## Auxiliary notions for the proofs -/

/-- The four replacements of `New`, on sequences of characters. -/
def sub4 (cs : List Char) : List Char :=
  replaceGo "$\x7bv6seg\x7d".data v6seg.data 0
    (replaceGo "$\x7bv4\x7d".data v4.data 0
      (replaceGo "\\uffff".data "\\x\x7bffff\x7d".data 0
        (replaceGo "\\u00a1".data "\\x\x7b00a1\x7d".data 0 cs)))

/-- No end piece of `xs` is the beginning of an occurrence of `old` that would
run past the end of `xs`. -/
def noStraddle (old : List Char) : List Char → Bool
  | [] => true
  | c :: cs =>
    !((c :: cs).isPrefixOf old && decide ((c :: cs).length < old.length)) && noStraddle old cs

/-- The four replacements treat what follows `xs` as if it stood alone. -/
def clean4 (xs : List Char) : Bool :=
  noStraddle "\\u00a1".data xs &&
  noStraddle "\\uffff".data (replaceGo "\\u00a1".data "\\x\x7b00a1\x7d".data 0 xs) &&
  noStraddle "$\x7bv4\x7d".data
    (replaceGo "\\uffff".data "\\x\x7bffff\x7d".data 0
      (replaceGo "\\u00a1".data "\\x\x7b00a1\x7d".data 0 xs)) &&
  noStraddle "$\x7bv6seg\x7d".data
    (replaceGo "$\x7bv4\x7d".data v4.data 0
      (replaceGo "\\uffff".data "\\x\x7bffff\x7d".data 0
        (replaceGo "\\u00a1".data "\\x\x7b00a1\x7d".data 0 xs)))

/-- Characters that the parser reads as themselves wherever they stand. -/
def plainChar (c : Char) : Bool :=
  !(c = '(' ∨ c = ')' ∨ c = '|' ∨ c = '*' ∨ c = '+' ∨ c = '?' ∨ c = lbrace ∨ c = rbrace ∨
    c = '[' ∨ c = ']' ∨ c = backslash ∨ c = '^' ∨ c = '$' ∨ c = '.')

/-- The assembled pattern up to the start of the TLD alternation, as a
function of the flags. -/
def headRaw (exact strict auth localhost ipv4 ipv6 : Bool) : String :=
  (if exact then "(?i)(?:^" else "(?i)") ++
    ("(?:" ++ ("(?:(?:[a-z]+:)?//)" ++ (if !strict then "?" else "")) ++ "|www\\.)" ++
      (if auth then "(?:\\S+(?::\\S*)?@)?" else "") ++ "(?:" ++
      (if localhost then "localhost|" else "") ++
      (if ipv4 then v4 ++ "|" else "") ++
      (if ipv6 then v6reg ++ "|" else "")) ++
    host ++ domain ++ "(?:\\.(?:"

/-- The assembled pattern after the TLD alternation, from the closing
parenthesis of its group on. -/
def tailRaw (exact parens apostrophes trailingPeriod : Bool) : String :=
  ")" ++ (if trailingPeriod then "\\.?" else "") ++ ")" ++ port ++
    (if parens then
      if apostrophes then "(?:[/?#][^\\s\"]*)?" else "(?:[/?#][^\\s\"\x27]*)?"
    else
      if apostrophes then "(?:[/?#][^\\s\"\\)]*)?" else "(?:[/?#][^\\s\"\\)\x27]*)?") ++
    (if exact then "$)" else "")

/-- The state with further entries below its stack. -/
def PState.frame (below : List Item) (st : PState) : PState :=
  { st with stack := st.stack ++ below }

/-- The stack entries of a word of ordinary characters, the last character
on top. -/
def wordItems (w : List Char) : List Item :=
  (w.map fun c => Item.node (.lit c true)).reverse

/-- The stack after the words `w1|w2|...` were read above `stack`. -/
def wordsStack : List (List Char) → List Item → List Item
  | [], stack => stack
  | [w], stack => wordItems w ++ stack
  | w :: w' :: ws, stack => wordsStack (w' :: ws) (.vbar :: (wordItems w ++ stack))

/-- The concatenation in progress after the pieces `rs` were taken from the
stack, `cur` being what was taken before. -/
def prepend : List Regex → Option Regex → Option Regex
  | [], cur => cur
  | r :: rs, cur => some (catOpt r (prepend rs cur))

/-! ### The assembled pattern in pieces -/

/-- The pattern from its start to the `localhost` alternative. -/
def chunkHead (exact strict auth localhost : Bool) : List Char :=
  ((if exact then "(?i)(?:^" else "(?i)") ++ "(?:" ++
    ("(?:(?:[a-z]+:)?//)" ++ (if !strict then "?" else "")) ++ "|www\\.)" ++
    (if auth then "(?:\\S+(?::\\S*)?@)?" else "") ++ "(?:" ++
    (if localhost then "localhost|" else "")).data

/-- The IPv4 alternative. -/
def chunkV4 (ipv4 : Bool) : List Char := (if ipv4 then v4 ++ "|" else "").data

/-- The IPv6 alternative. -/
def chunkV6 (ipv6 : Bool) : List Char := (if ipv6 then v6reg ++ "|" else "").data

/-- Host, domain and the start of the TLD group. -/
def chunkHost : List Char := (host ++ domain ++ "(?:\\.").data

/-- The TLD class of the strict mode. -/
def chunkStrictTld : List Char := "(?:[a-z\\u00a1-\\uffff]\x7b2,\x7d)".data

/-- The optional trailing period. -/
def chunkPeriod (trailingPeriod : Bool) : List Char :=
  (if trailingPeriod then "\\.?" else "").data

/-- Port and path. -/
def chunkPortPath (parens apostrophes : Bool) : List Char :=
  (port ++
    (if parens then
      if apostrophes then "(?:[/?#][^\\s\"]*)?" else "(?:[/?#][^\\s\"\x27]*)?"
    else
      if apostrophes then "(?:[/?#][^\\s\"\\)]*)?" else "(?:[/?#][^\\s\"\\)\x27]*)?")).data

/-- The end anchor and the end of the outer group. -/
def chunkEnd (exact : Bool) : List Char := (if exact then "$)" else "").data

/-- The pieces of the pattern around the TLD part `mid`. -/
def rawPieces (mid : List Char)
    (exact strict auth localhost parens apostrophes trailingPeriod ipv4 ipv6 : Bool) : List Char :=
  chunkHead exact strict auth localhost ++ (chunkV4 ipv4 ++ (chunkV6 ipv6 ++ (chunkHost ++
    (mid ++ (")".data ++ (chunkPeriod trailingPeriod ++ (")".data ++
      (chunkPortPath parens apostrophes ++ chunkEnd exact))))))))

/-- The stack after `chunkHead`. -/
def headItems (exact strict auth localhost : Bool) : List Item :=
  (if localhost then .vbar :: wordItems "localhost".data else []) ++
    (.lparen true :: ((if auth then [.node authRe] else []) ++
      (.node (protoRe strict) :: (if exact then [.node .bol, .lparen true] else []))))

/-- The stack entries of the IPv4 alternative. -/
def v4Items (ipv4 : Bool) : List Item :=
  if ipv4 then [.vbar, .node v4TailRe, .node octetRe] else []

/-- The stack entries of the IPv6 alternative. -/
def v6Items (ipv6 : Bool) : List Item :=
  if ipv6 then [.vbar, .node v6ZoneRe, .node v6MainRe] else []

/-! ## Properties of syntax trees that the proofs compute -/

/-- The tree has no anchor: what it matches does not depend on the text
around the piece. -/
def anchorFree : Regex → Bool
  | .fail => true
  | .empty => true
  | .chr _ => true
  | .bol => false
  | .eol => false
  | .cat a b => anchorFree a && anchorFree b
  | .alt a b => anchorFree a && anchorFree b
  | .star a => anchorFree a

/-- No character class of the tree accepts the ASCII character `c`. -/
def avoids (c : Char) : Regex → Bool
  | .fail => true
  | .empty => true
  | .chr cls => !cls.test asciiFold c
  | .bol => true
  | .eol => true
  | .cat a b => avoids c a && avoids c b
  | .alt a b => avoids c a && avoids c b
  | .star a => avoids c a

/-- The class is a list of single ASCII characters, and whatever it accepts
under case folding is in `cs`. -/
def CharClass.within (cs : List Char) (cls : CharClass) : Bool :=
  !cls.neg && cls.ranges.all fun r =>
    r.1 == r.2 && decide (r.1.toNat < 128) && (asciiFold r.1).all fun d => cs.contains d

/-- Every piece that the tree matches contains a character of `cs`. -/
def mustHave (cs : List Char) : Regex → Bool
  | .fail => true
  | .empty => false
  | .chr cls => cls.within cs
  | .bol => false
  | .eol => false
  | .cat a b => mustHave cs a || mustHave cs b
  | .alt a b => mustHave cs a && mustHave cs b
  | .star _ => false

/-! ## The inputs of the claims -/

/-- ASCII letters and digits and every code point from U+0080 on: a set that
contains the letters and digits of Unicode (its category tables are not at
hand, and no code point from U+0080 on is special in a pattern). -/
def letterOrDigit (c : Char) : Bool := c.isAlphanum || decide (128 ≤ c.toNat)

/-- ASCII letters and every code point from U+0080 on: a set that contains the
letters of Unicode. -/
def letter (c : Char) : Bool := c.isAlpha || decide (128 ≤ c.toNat)

/-- The ASCII white space of the class `\s`: space, tab, newline, form feed,
carriage return. -/
def asciiSpace (c : Char) : Bool :=
  c = ' ' ∨ c = Char.ofNat 9 ∨ c = Char.ofNat 10 ∨ c = Char.ofNat 12 ∨ c = Char.ofNat 13

/-- The decimal numeral of `n`, without leading zeros. -/
def decimal (n : Nat) : List Char := Nat.toDigits 10 n

/-- The dotted quad `a.b.c.d`. -/
def dottedQuad (a b c d : Nat) : String :=
  ⟨decimal a ++ '.' :: decimal b ++ '.' :: decimal c ++ '.' :: decimal d⟩

/-- ASCII characters that are not letters: case folding leaves them alone. -/
def nonLetterAscii (c : Char) : Bool := decide (c.toNat < 128) && !c.isAlpha

/-- The configuration of the repository's test of an explicit TLD list. -/
def testConfig : option :=
  { defaults ["com", "ws", "de", "net", "mp", "bar"] with exact := true }

/-- The parts of the host group other than the TLD alternation accept no
`c`. -/
def hostPartsAvoid (c : Char) : Bool :=
  avoids c (wordRe "localhost".data) && avoids c v4Re && avoids c v6Re && avoids c hostRe &&
    avoids c domainRe && avoids c (.lit '.' true)

/-- The protocol group, the closed alternatives of the host group and the
port, in sequence. -/
def prefixRe (strict : Bool) : Regex :=
  .cat (protoRe strict) (.cat (altList [wordRe "localhost".data, v4Re, v6Re]) portRe)

/-- The parts of the pattern around the host group accept no `c`. -/
def outerPartsAvoid (c : Char) : Bool :=
  avoids c (protoRe true) && avoids c (protoRe false) && avoids c authRe && avoids c portRe &&
    avoids c (pathRe true true) && avoids c (pathRe true false) &&
    avoids c (pathRe false true) && avoids c (pathRe false false)

/-- A configuration with no TLD at all and `ipv4` switched off. -/
def emptyTldConfig : option := { defaults [] with ipv4 := false }

/-- The configuration of the tests with the IPv4 alternative switched off. -/
def ipv4OffConfig : option := { testConfig with ipv4 := false }


/-! ## The options as values, and what `New` leaves behind -/

/-- One call of an option constructor of the package, with its argument.  The
type `option` is not exported, so the values of `Option` that a caller can
hand to `New` are the results of these ten constructors. -/
inductive OptionCall where
  | Exact (v : Bool)
  | Strict (v : Bool)
  | Auth (v : Bool)
  | Localhost (v : Bool)
  | Parens (v : Bool)
  | Apostrophes (v : Bool)
  | TrailingPeriod (v : Bool)
  | IPv4 (v : Bool)
  | IPv6 (v : Bool)
  | Tlds (v : List String)
deriving Repr, DecidableEq

/-- The `Option` that a call of a constructor returns. -/
def OptionCall.toOption : OptionCall → OptionFn
  | .Exact v => ursgo.Exact v
  | .Strict v => ursgo.Strict v
  | .Auth v => ursgo.Auth v
  | .Localhost v => ursgo.Localhost v
  | .Parens v => ursgo.Parens v
  | .Apostrophes v => ursgo.Apostrophes v
  | .TrailingPeriod v => ursgo.TrailingPeriod v
  | .IPv4 v => ursgo.IPv4 v
  | .IPv6 v => ursgo.IPv6 v
  | .Tlds v => ursgo.Tlds v

/-- The value that a call gives to the field `exact`, if it names it. -/
def OptionCall.getExact : OptionCall → Option Bool
  | .Exact v => some v
  | _ => none

def OptionCall.getStrict : OptionCall → Option Bool
  | .Strict v => some v
  | _ => none

def OptionCall.getAuth : OptionCall → Option Bool
  | .Auth v => some v
  | _ => none

def OptionCall.getLocalhost : OptionCall → Option Bool
  | .Localhost v => some v
  | _ => none

def OptionCall.getParens : OptionCall → Option Bool
  | .Parens v => some v
  | _ => none

def OptionCall.getApostrophes : OptionCall → Option Bool
  | .Apostrophes v => some v
  | _ => none

def OptionCall.getTrailingPeriod : OptionCall → Option Bool
  | .TrailingPeriod v => some v
  | _ => none

def OptionCall.getIPv4 : OptionCall → Option Bool
  | .IPv4 v => some v
  | _ => none

def OptionCall.getIPv6 : OptionCall → Option Bool
  | .IPv6 v => some v
  | _ => none

def OptionCall.getTlds : OptionCall → Option (List String)
  | .Tlds v => some v
  | _ => none

/-- The value given by the last call of the list that names the field read by
`sel`, if there is one. -/
def lastSet {α : Type} (sel : OptionCall → Option α) (calls : List OptionCall) : Option α :=
  calls.reverse.findSome? sel

/-- The elements of the slice `opt.tlds` when `New` returns.  With `strict`
unset, `sort.SliceStable` reorders the slice in place; the slice shares its
array with the argument of `Tlds`, or with the package-level list when no
`Tlds` option was given, so this is also what the sequence of the caller
holds after the call. -/
def tldsAfterNew (opt : option) : List String :=
  if opt.strict then opt.tlds else SliceStable tldLess opt.tlds

/-- The exact configuration with an empty TLD list and the three closed
alternatives of the host group switched off. -/
def noHostConfig : option :=
  { defaults [] with exact := true, localhost := false, ipv4 := false, ipv6 := false }

/-- The configuration of the tests with `parens` set. -/
def parensConfig : option := { testConfig with parens := true }

/-! ## Further computed properties of classes and trees -/

/-- The ranges of the class lie in ASCII and contain no letter: case folding
changes nothing for such a class. -/
def CharClass.plainAscii (cls : CharClass) : Bool :=
  cls.ranges.all (fun r => decide (r.2.toNat < 128)) &&
    (List.range 128).all fun n => !(cls.hit (Char.ofNat n) && (Char.ofNat n).isAlpha)

/-- Every class of the tree is a positive class of ASCII characters that are
no letters, all of them in `cs`. -/
def onlyIn (cs : List Char) : Regex → Bool
  | .fail => true
  | .empty => true
  | .chr cls =>
    !cls.neg && cls.plainAscii &&
      (List.range 128).all fun n => !cls.hit (Char.ofNat n) || cs.contains (Char.ofNat n)
  | .bol => true
  | .eol => true
  | .cat a b => onlyIn cs a && onlyIn cs b
  | .alt a b => onlyIn cs a && onlyIn cs b
  | .star a => onlyIn cs a

/-- An upper bound of the length of the pieces that the tree matches, when
the tree has no star. -/
def bounded : Regex → Option Nat
  | .fail => some 0
  | .empty => some 0
  | .chr _ => some 1
  | .bol => some 0
  | .eol => some 0
  | .cat a b => (bounded a).bind fun m => (bounded b).map fun n => m + n
  | .alt a b => (bounded a).bind fun m => (bounded b).map fun n => max m n
  | .star _ => none

/-- The ten ASCII digits. -/
def asciiDigits : List Char := ['0', '1', '2', '3', '4', '5', '6', '7', '8', '9']

/-- The digit of value `k`. -/
def digitChar (k : Nat) : Char := Char.ofNat (48 + k)

/-! ## The matcher against the specification -/

section Semantics

variable {orbit : Char → List Char}

theorem matches_fail_iff {pre s post : List Char} :
    Matches orbit .fail pre s post ↔ False :=
  Iff.intro (fun h => by cases h) False.elim

theorem matches_empty_iff {pre s post : List Char} :
    Matches orbit .empty pre s post ↔ s = [] :=
  ⟨fun h => by cases h; rfl, fun h => h ▸ Matches.empty pre post⟩

theorem matches_chr_iff {cls : CharClass} {pre s post : List Char} :
    Matches orbit (.chr cls) pre s post ↔ ∃ c, s = [c] ∧ cls.test orbit c = true := by
  constructor
  · intro h
    cases h with
    | chr _ _ _ c hc => exact ⟨c, rfl, hc⟩
  · rintro ⟨c, rfl, hc⟩
    exact Matches.chr cls pre post c hc

theorem matches_bol_iff {pre s post : List Char} :
    Matches orbit .bol pre s post ↔ pre = [] ∧ s = [] := by
  constructor
  · intro h
    cases h
    exact ⟨rfl, rfl⟩
  · rintro ⟨rfl, rfl⟩
    exact Matches.bol post

theorem matches_eol_iff {pre s post : List Char} :
    Matches orbit .eol pre s post ↔ s = [] ∧ post = [] := by
  constructor
  · intro h
    cases h
    exact ⟨rfl, rfl⟩
  · rintro ⟨rfl, rfl⟩
    exact Matches.eol pre

theorem matches_cat_iff {a b : Regex} {pre s post : List Char} :
    Matches orbit (.cat a b) pre s post ↔
      ∃ s1 s2, s = s1 ++ s2 ∧ Matches orbit a pre s1 (s2 ++ post) ∧
        Matches orbit b (pre ++ s1) s2 post := by
  constructor
  · intro h
    cases h with
    | cat _ _ _ s1 s2 _ h1 h2 => exact ⟨s1, s2, rfl, h1, h2⟩
  · rintro ⟨s1, s2, rfl, h1, h2⟩
    exact Matches.cat a b pre s1 s2 post h1 h2

theorem matches_alt_iff {a b : Regex} {pre s post : List Char} :
    Matches orbit (.alt a b) pre s post ↔
      Matches orbit a pre s post ∨ Matches orbit b pre s post := by
  constructor
  · intro h
    cases h with
    | altL _ _ _ _ _ h1 => exact Or.inl h1
    | altR _ _ _ _ _ h1 => exact Or.inr h1
  · rintro (h | h)
    · exact Matches.altL a b pre s post h
    · exact Matches.altR a b pre s post h

theorem matches_opt_iff {a : Regex} {pre s post : List Char} :
    Matches orbit (.opt a) pre s post ↔ Matches orbit a pre s post ∨ s = [] := by
  simp [Regex.opt, matches_alt_iff, matches_empty_iff]

/-- A non-empty match of a star starts with a non-empty match of its body. -/
theorem matches_star_cons_aux {r : Regex} {pre t post : List Char}
    (h : Matches orbit r pre t post) :
    ∀ a c s, r = .star a → t = c :: s →
      ∃ s1 s2, s = s1 ++ s2 ∧ Matches orbit a pre (c :: s1) (s2 ++ post) ∧
        Matches orbit (.star a) (pre ++ c :: s1) s2 post := by
  induction h with
  | empty => intro a c s hr; cases hr
  | chr => intro a c s hr; cases hr
  | bol => intro a c s hr; cases hr
  | eol => intro a c s hr; cases hr
  | cat => intro a c s hr; cases hr
  | altL => intro a c s hr; cases hr
  | altR => intro a c s hr; cases hr
  | starNil => intro a c s _ ht; cases ht
  | starCons a0 pre s0 t0 post h1 h2 _ ih2 =>
    intro a c s hr ht
    cases hr
    cases s0 with
    | nil =>
      simp only [List.nil_append, List.append_nil] at ht h2
      simpa using ih2 a0 c s rfl ht
    | cons d s0 =>
      simp only [List.cons_append, List.cons.injEq] at ht
      obtain ⟨rfl, rfl⟩ := ht
      exact ⟨s0, t0, rfl, h1, h2⟩

theorem matches_star_cons_iff {a : Regex} {pre s post : List Char} {c : Char} :
    Matches orbit (.star a) pre (c :: s) post ↔
      ∃ s1 s2, s = s1 ++ s2 ∧ Matches orbit a pre (c :: s1) (s2 ++ post) ∧
        Matches orbit (.star a) (pre ++ c :: s1) s2 post := by
  constructor
  · intro h
    exact matches_star_cons_aux h a c s rfl rfl
  · rintro ⟨s1, s2, rfl, h1, h2⟩
    exact Matches.starCons a pre (c :: s1) s2 post h1 h2

theorem matches_mkCat_iff {a b : Regex} {pre s post : List Char} :
    Matches orbit (mkCat a b) pre s post ↔ Matches orbit (.cat a b) pre s post := by
  cases a with
  | fail => simp [mkCat, matches_cat_iff, matches_fail_iff]
  | empty =>
    simp only [mkCat, matches_cat_iff, matches_empty_iff]
    constructor
    · intro h
      exact ⟨[], s, rfl, rfl, by simpa using h⟩
    · rintro ⟨s1, s2, rfl, rfl, h⟩
      simpa using h
  | chr _ => simp [mkCat]
  | bol => simp [mkCat]
  | eol => simp [mkCat]
  | cat _ _ => simp [mkCat]
  | alt _ _ => simp [mkCat]
  | star _ => simp [mkCat]

theorem matches_mkAlt_iff {a b : Regex} {pre s post : List Char} :
    Matches orbit (mkAlt a b) pre s post ↔ Matches orbit (.alt a b) pre s post := by
  cases a <;> cases b <;> simp [mkAlt, matches_alt_iff, matches_fail_iff]

theorem nullable_iff {atStart atEnd : Bool} {pre post : List Char}
    (ha : atStart = true ↔ pre = []) (he : atEnd = true ↔ post = []) (r : Regex) :
    nullable atStart atEnd r = true ↔ Matches orbit r pre [] post := by
  induction r with
  | fail => simp [nullable, matches_fail_iff]
  | empty => simp [nullable, matches_empty_iff]
  | chr cls => simp [nullable, matches_chr_iff]
  | bol => simp [nullable, matches_bol_iff, ha]
  | eol => simp [nullable, matches_eol_iff, he]
  | cat a b iha ihb =>
    simp only [nullable, Bool.and_eq_true, matches_cat_iff, iha, ihb]
    constructor
    · rintro ⟨h1, h2⟩
      exact ⟨[], [], rfl, by simpa using h1, by simpa using h2⟩
    · rintro ⟨s1, s2, hs, h1, h2⟩
      have h := List.nil_eq_append_iff.1 hs
      obtain ⟨rfl, rfl⟩ := h
      exact ⟨by simpa using h1, by simpa using h2⟩
  | alt a b iha ihb => simp [nullable, matches_alt_iff, iha, ihb]
  | star a _ => simp [nullable]; exact Matches.starNil a pre post

theorem deriv_iff {atStart : Bool} {pre : List Char} (ha : atStart = true ↔ pre = [])
    (c : Char) (r : Regex) :
    ∀ s post, Matches orbit (deriv orbit atStart c r) (pre ++ [c]) s post ↔
      Matches orbit r pre (c :: s) post := by
  induction r with
  | fail => intro s post; simp [deriv, matches_fail_iff]
  | empty => intro s post; simp [deriv, matches_fail_iff, matches_empty_iff]
  | chr cls =>
    intro s post
    by_cases hc : cls.test orbit c = true
    · simp only [deriv, hc, if_true, matches_empty_iff, matches_chr_iff]
      constructor
      · rintro rfl
        exact ⟨c, rfl, hc⟩
      · rintro ⟨d, hd, _⟩
        simp only [List.cons.injEq] at hd
        exact hd.2
    · simp only [deriv, hc, Bool.false_eq_true, if_false, matches_fail_iff, matches_chr_iff,
        false_iff, not_exists, not_and]
      rintro d hd
      simp only [List.cons.injEq] at hd
      rw [← hd.1]
      exact hc
  | bol => intro s post; simp [deriv, matches_fail_iff, matches_bol_iff]
  | eol => intro s post; simp [deriv, matches_fail_iff, matches_eol_iff]
  | cat a b iha ihb =>
    intro s post
    have hn : nullable atStart false a = true ↔ Matches orbit a pre [] (c :: (s ++ post)) :=
      nullable_iff ha (by simp) a
    simp only [deriv, matches_mkAlt_iff, matches_alt_iff, matches_mkCat_iff, matches_cat_iff]
    constructor
    · rintro (⟨s1, s2, rfl, h1, h2⟩ | h)
      · refine ⟨c :: s1, s2, rfl, (iha _ _).1 h1, ?_⟩
        simpa using h2
      · by_cases hna : nullable atStart false a = true
        · rw [if_pos hna] at h
          exact ⟨[], c :: s, rfl, by simpa using hn.1 hna, by simpa using (ihb _ _).1 h⟩
        · rw [if_neg hna] at h
          exact absurd h (by simp [matches_fail_iff])
    · rintro ⟨s1, s2, hs, h1, h2⟩
      cases s1 with
      | nil =>
        right
        simp only [List.nil_append] at hs
        subst hs
        have hna : nullable atStart false a = true := hn.2 (by simpa using h1)
        rw [if_pos hna]
        exact (ihb _ _).2 (by simpa using h2)
      | cons d s1 =>
        left
        simp only [List.cons_append, List.cons.injEq] at hs
        obtain ⟨rfl, rfl⟩ := hs
        exact ⟨s1, s2, rfl, (iha _ _).2 h1, by simpa using h2⟩
  | alt a b iha ihb =>
    intro s post
    simp [deriv, matches_mkAlt_iff, matches_alt_iff, iha, ihb]
  | star a iha =>
    intro s post
    simp only [deriv, matches_mkCat_iff, matches_cat_iff, matches_star_cons_iff]
    constructor
    · rintro ⟨s1, s2, rfl, h1, h2⟩
      exact ⟨s1, s2, rfl, (iha _ _).1 h1, by simpa using h2⟩
    · rintro ⟨s1, s2, rfl, h1, h2⟩
      exact ⟨s1, s2, rfl, (iha _ _).2 h1, by simpa using h2⟩

theorem matchWhole_iff (s : List Char) :
    ∀ (r : Regex) (atStart : Bool) (pre : List Char), (atStart = true ↔ pre = []) →
      (matchWhole orbit r atStart s = true ↔ Matches orbit r pre s []) := by
  induction s with
  | nil =>
    intro r atStart pre ha
    simpa [matchWhole] using nullable_iff ha (by simp) r
  | cons c s ih =>
    intro r atStart pre ha
    rw [matchWhole, ih (deriv orbit atStart c r) false (pre ++ [c]) (by simp), deriv_iff ha]

theorem matchPrefix_iff (s : List Char) :
    ∀ (r : Regex) (atStart : Bool) (pre : List Char), (atStart = true ↔ pre = []) →
      (matchPrefix orbit r atStart s = true ↔
        ∃ m post, s = m ++ post ∧ Matches orbit r pre m post) := by
  induction s with
  | nil =>
    intro r atStart pre ha
    rw [matchPrefix, @nullable_iff orbit atStart true pre [] ha (by simp) r]
    constructor
    · intro h
      exact ⟨[], [], rfl, h⟩
    · rintro ⟨m, post, hs, h⟩
      obtain ⟨rfl, rfl⟩ := List.nil_eq_append_iff.1 hs
      exact h
  | cons c s ih =>
    intro r atStart pre ha
    rw [matchPrefix, Bool.or_eq_true, ih (deriv orbit atStart c r) false (pre ++ [c]) (by simp),
      @nullable_iff orbit atStart false pre (c :: s) ha (by simp) r]
    constructor
    · rintro (h | ⟨m, post, rfl, h⟩)
      · exact ⟨[], c :: s, rfl, h⟩
      · exact ⟨c :: m, post, rfl, (deriv_iff ha c r _ _).1 h⟩
    · rintro ⟨m, post, hs, h⟩
      cases m with
      | nil =>
        simp only [List.nil_append] at hs
        subst hs
        exact Or.inl h
      | cons d m =>
        simp only [List.cons_append, List.cons.injEq] at hs
        obtain ⟨rfl, rfl⟩ := hs
        exact Or.inr ⟨m, post, rfl, (deriv_iff ha c r _ _).2 h⟩

theorem search_iff (r : Regex) (s : List Char) :
    ∀ (atStart : Bool) (pre : List Char), (atStart = true ↔ pre = []) →
      (search orbit r atStart s = true ↔
        ∃ p m post, s = p ++ m ++ post ∧ Matches orbit r (pre ++ p) m post) := by
  induction s with
  | nil =>
    intro atStart pre ha
    rw [search, @nullable_iff orbit atStart true pre [] ha (by simp) r]
    constructor
    · intro h
      exact ⟨[], [], [], rfl, by simpa using h⟩
    · rintro ⟨p, m, post, hs, h⟩
      obtain ⟨h1, rfl⟩ := List.nil_eq_append_iff.1 hs
      obtain ⟨rfl, rfl⟩ := List.append_eq_nil.1 h1
      simpa using h
  | cons c s ih =>
    intro atStart pre ha
    rw [search, Bool.or_eq_true, matchPrefix_iff (c :: s) r atStart pre ha,
      ih false (pre ++ [c]) (by simp)]
    constructor
    · rintro (⟨m, post, hs, h⟩ | ⟨p, m, post, rfl, h⟩)
      · exact ⟨[], m, post, by simpa using hs, by simpa using h⟩
      · exact ⟨c :: p, m, post, by simp, by simpa using h⟩
    · rintro ⟨p, m, post, hs, h⟩
      cases p with
      | nil => exact Or.inl ⟨m, post, by simpa using hs, by simpa using h⟩
      | cons d p =>
        simp only [List.cons_append, List.cons.injEq] at hs
        obtain ⟨rfl, rfl⟩ := hs
        exact Or.inr ⟨p, m, post, rfl, by simpa using h⟩

/-- `MatchString` is true exactly when the text has a piece that the
expression matches in the sense of `Matches`. -/
theorem MatchString_iff (re : Regex) (s : String) :
    MatchString orbit re s = true ↔
      ∃ pre m post, s.data = pre ++ m ++ post ∧ Matches orbit re pre m post := by
  simpa using @search_iff orbit re s.data true [] (by simp)

end Semantics
/-! ## The parser does not look below what it has pushed -/

section Frame

variable (below : List Item)

theorem collapse_frame :
    ∀ (stack : List Item) (cur alts : Option Regex) (r : Regex) (f : Bool) (rest : List Item),
      collapse stack cur alts = some (r, f, rest) →
      collapse (stack ++ below) cur alts = some (r, f, rest ++ below) := by
  intro stack
  induction stack with
  | nil => intro cur alts r f rest h; simp [collapse] at h
  | cons it stack ih =>
    intro cur alts r f rest h
    cases it with
    | node x =>
      simp only [List.cons_append, collapse] at h ⊢
      exact ih _ _ r f rest h
    | vbar =>
      simp only [List.cons_append, collapse] at h ⊢
      exact ih _ _ r f rest h
    | lparen g =>
      simp only [List.cons_append, collapse, Option.some.injEq, Prod.mk.injEq] at h ⊢
      obtain ⟨h1, h2, h3⟩ := h
      subst h3
      exact ⟨h1, h2, rfl⟩

theorem repeatTop_frame (st st' : PState) (g : Regex → Regex)
    (h : st.repeatTop g = some st') :
    (st.frame below).repeatTop g = some (st'.frame below) := by
  obtain ⟨mode, stack, fold, rep⟩ := st
  cases rep <;> cases stack with
  | nil => simp [PState.repeatTop] at h
  | cons it stack =>
    cases it <;> simp [PState.repeatTop] at h <;>
      simp [PState.repeatTop, PState.frame, ← h]

theorem apply_frame (a : Action) (st st' : PState) (h : a.apply st = some st') :
    a.apply (st.frame below) = some (st'.frame below) := by
  cases a with
  | setMode m => cases h; rfl
  | push r => cases h; rfl
  | bar => cases h; rfl
  | openGroup f => cases h; rfl
  | setFold => cases h; rfl
  | close =>
    simp only [Action.apply] at h ⊢
    cases hc : collapse st.stack none none with
    | none => simp [hc] at h
    | some res =>
      obtain ⟨r, f, rest⟩ := res
      have hf := collapse_frame below st.stack none none r f rest hc
      simp only [hc, Option.some.injEq] at h
      simp only [PState.frame, hf, Option.some.injEq]
      rw [← h]
      rfl
  | rep g => exact repeatTop_frame below _ _ _ h
  | question =>
    obtain ⟨mode, stack, fold, rep⟩ := st
    cases rep
    · exact repeatTop_frame below _ _ _ h
    · cases h; rfl
    · have h' : PState.repeatTop ⟨mode, stack, fold, .done⟩ Regex.opt = some st' := h
      exact repeatTop_frame below _ _ _ h'
  | beginRep =>
    obtain ⟨mode, stack, fold, rep⟩ := st
    cases rep <;> cases stack with
    | nil => simp [Action.apply] at h
    | cons it stack =>
      cases it <;> simp [Action.apply] at h <;> simp [Action.apply, PState.frame, ← h]

theorem applyAll_frame (as : List Action) :
    ∀ (st st' : PState), applyAll st as = some st' →
      applyAll (st.frame below) as = some (st'.frame below) := by
  induction as with
  | nil => intro st st' h; cases h; rfl
  | cons a as ih =>
    intro st st' h
    simp only [applyAll] at h ⊢
    cases ha : a.apply st with
    | none => simp [ha] at h
    | some st1 =>
      rw [ha] at h
      rw [apply_frame below a st st1 ha]
      exact ih st1 st' h

theorem step_frame (st st' : PState) (c : Char) (h : step st c = some st') :
    step (st.frame below) c = some (st'.frame below) := by
  simp only [step] at h ⊢
  have h1 : (st.frame below).mode = st.mode := rfl
  have h2 : (st.frame below).fold = st.fold := rfl
  rw [h1, h2]
  cases ha : act st.mode st.fold c with
  | none => simp [ha] at h
  | some as =>
    rw [ha] at h
    exact applyAll_frame below as st st' h

theorem run_frame (cs : List Char) :
    ∀ (st st' : PState), run st cs = some st' →
      run (st.frame below) cs = some (st'.frame below) := by
  induction cs with
  | nil =>
    intro st st' h
    simp only [run, List.foldlM, pure, Option.some.injEq] at h ⊢
    rw [h]
  | cons c cs ih =>
    intro st st' h
    simp only [run, List.foldlM, bind, Option.bind] at h ⊢
    cases hs : step st c with
    | none => simp [hs] at h
    | some st1 =>
      rw [hs] at h
      rw [step_frame below st st1 c hs]
      exact ih st1 st' h

theorem run_append (st : PState) (a b : List Char) :
    run st (a ++ b) = (run st a).bind fun st' => run st' b := by
  simp [run, List.foldlM_append]

end Frame
/-! ## The stable sort -/

section Sorting

variable {α : Type}

theorem insertStable_perm (less : α → α → Bool) (a : α) (l : List α) :
    (insertStable less a l).Perm (a :: l) := by
  induction l with
  | nil => exact List.Perm.refl _
  | cons b l ih =>
    simp only [insertStable]
    split
    · exact (List.Perm.cons b ih).trans (List.Perm.swap a b l)
    · exact List.Perm.refl _

theorem SliceStable_perm (less : α → α → Bool) (l : List α) :
    (SliceStable less l).Perm l := by
  induction l with
  | nil => exact List.Perm.refl _
  | cons a l ih =>
    simp only [SliceStable]
    exact (insertStable_perm less a _).trans (List.Perm.cons a ih)

theorem insertStable_pairwise (key : α → Nat) (a : α) (l : List α)
    (h : l.Pairwise fun x y => key y ≤ key x) :
    (insertStable (fun x y => decide (key y < key x)) a l).Pairwise
      fun x y => key y ≤ key x := by
  induction l with
  | nil => simp [insertStable]
  | cons b l ih =>
    rw [List.pairwise_cons] at h
    simp only [insertStable]
    split
    · rename_i hlt
      have hlt' : key a < key b := by simpa using hlt
      rw [List.pairwise_cons]
      refine ⟨?_, ih h.2⟩
      intro y hy
      have hy2 : y ∈ a :: l := (List.Perm.mem_iff (insertStable_perm _ a l)).1 hy
      rcases List.mem_cons.1 hy2 with h1 | h1
      · subst h1; omega
      · exact h.1 y h1
    · rename_i hlt
      have hge : key b ≤ key a := by simpa using hlt
      rw [List.pairwise_cons]
      refine ⟨?_, List.pairwise_cons.2 h⟩
      intro y hy
      rcases List.mem_cons.1 hy with h1 | h1
      · subst h1; exact hge
      · exact (h.1 y h1).trans hge

theorem SliceStable_pairwise (key : α → Nat) (l : List α) :
    (SliceStable (fun x y => decide (key y < key x)) l).Pairwise fun x y => key y ≤ key x := by
  induction l with
  | nil => simp [SliceStable]
  | cons a l ih =>
    simp only [SliceStable]
    exact insertStable_pairwise key a _ ih

theorem mem_sortedTlds (opt : option) (t : String) : t ∈ sortedTlds opt ↔ t ∈ opt.tlds :=
  List.Perm.mem_iff (SliceStable_perm tldLess opt.tlds)

end Sorting
/-! ## `strings.ReplaceAll` on the assembled pattern -/

section Replace

theorem isPrefixOf_append_eq (old a ys : List Char)
    (h : ¬ (a.isPrefixOf old = true ∧ a.length < old.length)) :
    old.isPrefixOf (a ++ ys) = old.isPrefixOf a := by
  rw [Bool.eq_iff_iff, List.isPrefixOf_iff_prefix, List.isPrefixOf_iff_prefix]
  constructor
  · intro hp
    by_cases hl : old.length ≤ a.length
    · exact List.prefix_of_prefix_length_le hp (List.prefix_append a ys) hl
    · exfalso
      apply h
      refine ⟨?_, by omega⟩
      rw [List.isPrefixOf_iff_prefix]
      exact List.prefix_of_prefix_length_le (List.prefix_append a ys) hp (by omega)
  · intro hp
    exact hp.trans (List.prefix_append a ys)

theorem replaceGo_append (old new ys : List Char) :
    ∀ (xs : List Char) (k : Nat), k ≤ xs.length → noStraddle old xs = true →
      replaceGo old new k (xs ++ ys) = replaceGo old new k xs ++ replaceGo old new 0 ys := by
  intro xs
  induction xs with
  | nil =>
    intro k hk _
    have : k = 0 := by simpa using hk
    subst this
    simp [replaceGo]
  | cons c cs ih =>
    intro k hk hn
    simp only [noStraddle, Bool.and_eq_true, Bool.not_eq_true', Bool.and_eq_false_iff,
      decide_eq_false_iff_not] at hn
    obtain ⟨hn1, hn2⟩ := hn
    cases k with
    | succ k =>
      simp only [List.cons_append, replaceGo]
      exact ih k (by simpa using hk) hn2
    | zero =>
      have hp : old.isPrefixOf (c :: cs ++ ys) = old.isPrefixOf (c :: cs) := by
        apply isPrefixOf_append_eq
        rintro ⟨h1, h2⟩
        rcases hn1 with h | h
        · rw [h1] at h; cases h
        · exact h h2
      have hp' : old.isPrefixOf (c :: (cs ++ ys)) = old.isPrefixOf (c :: cs) := hp
      show replaceGo old new 0 (c :: (cs ++ ys)) = _
      simp only [replaceGo]
      rw [hp']
      by_cases hm : old.isPrefixOf (c :: cs) = true
      · simp only [hm, if_true]
        have hlen : old.length ≤ cs.length + 1 := by
          have := (List.isPrefixOf_iff_prefix.1 hm).length_le
          simpa using this
        rw [ih (old.length - 1) (by omega) hn2, List.append_assoc]
      · simp only [hm, Bool.false_eq_true, if_false, List.cons_append]
        rw [ih 0 (by omega) hn2]

theorem replaceGo_of_not_mem (h : Char) (t new : List Char) :
    ∀ xs : List Char, h ∉ xs → replaceGo (h :: t) new 0 xs = xs := by
  intro xs
  induction xs with
  | nil => intro _; rfl
  | cons c cs ih =>
    intro hx
    simp only [List.mem_cons, not_or] at hx
    have hc : (h == c) = false := by simpa using hx.1
    simp only [replaceGo, List.isPrefixOf, hc, Bool.false_and, Bool.false_eq_true, if_false]
    rw [ih hx.2]

theorem noStraddle_of_not_mem (h : Char) (t : List Char) :
    ∀ xs : List Char, h ∉ xs → noStraddle (h :: t) xs = true := by
  intro xs
  induction xs with
  | nil => intro _; rfl
  | cons c cs ih =>
    intro hx
    simp only [List.mem_cons, not_or] at hx
    have hc : (c == h) = false := by
      simpa using fun e => hx.1 e.symm
    simp only [noStraddle, List.isPrefixOf, hc, Bool.false_and, Bool.not_false, Bool.true_and]
    exact ih hx.2

theorem sub4_append (xs ys : List Char) (h : clean4 xs = true) :
    sub4 (xs ++ ys) = sub4 xs ++ sub4 ys := by
  simp only [clean4, Bool.and_eq_true] at h
  obtain ⟨⟨⟨h1, h2⟩, h3⟩, h4⟩ := h
  simp only [sub4]
  rw [replaceGo_append _ _ _ _ 0 (Nat.zero_le _) h1, replaceGo_append _ _ _ _ 0 (Nat.zero_le _) h2,
    replaceGo_append _ _ _ _ 0 (Nat.zero_le _) h3, replaceGo_append _ _ _ _ 0 (Nat.zero_le _) h4]

theorem sub4_plain (xs : List Char) (h1 : backslash ∉ xs) (h2 : '$' ∉ xs) :
    sub4 xs = xs ∧ clean4 xs = true := by
  have e1 : replaceGo "\\u00a1".data "\\x\x7b00a1\x7d".data 0 xs = xs :=
    replaceGo_of_not_mem backslash _ _ xs h1
  have e2 : replaceGo "\\uffff".data "\\x\x7bffff\x7d".data 0 xs = xs :=
    replaceGo_of_not_mem backslash _ _ xs h1
  have e3 : replaceGo "$\x7bv4\x7d".data v4.data 0 xs = xs :=
    replaceGo_of_not_mem '$' _ _ xs h2
  have e4 : replaceGo "$\x7bv6seg\x7d".data v6seg.data 0 xs = xs :=
    replaceGo_of_not_mem '$' _ _ xs h2
  have n1 : noStraddle "\\u00a1".data xs = true := noStraddle_of_not_mem backslash _ xs h1
  have n2 : noStraddle "\\uffff".data xs = true := noStraddle_of_not_mem backslash _ xs h1
  have n3 : noStraddle "$\x7bv4\x7d".data xs = true := noStraddle_of_not_mem '$' _ xs h2
  have n4 : noStraddle "$\x7bv6seg\x7d".data xs = true := noStraddle_of_not_mem '$' _ xs h2
  constructor
  · simp only [sub4, e1, e2, e3, e4]
  · simp only [clean4, e1, e2, e3, n1, n2, n3, n4, Bool.and_self]

theorem pattern_data (opt : option) : (pattern opt).data = sub4 (regexRaw opt).data := rfl

end Replace
/-! ## The parser on the assembled pattern -/

section Parse

set_option maxRecDepth 100000

theorem run_of_closed {cs : List Char} {items : List Item} {r0 r1 : RepSt}
    (h : run ⟨.normal, [], true, r0⟩ cs = some ⟨.normal, items, true, r1⟩)
    (stack : List Item) (rest : List Char) :
    run ⟨.normal, stack, true, r0⟩ (cs ++ rest) = run ⟨.normal, items ++ stack, true, r1⟩ rest := by
  have hf := run_frame stack cs _ _ h
  have e1 : PState.frame stack ⟨.normal, [], true, r0⟩ = ⟨.normal, stack, true, r0⟩ := rfl
  have e2 : PState.frame stack ⟨.normal, items, true, r1⟩ = ⟨.normal, items ++ stack, true, r1⟩ := rfl
  rw [e1, e2] at hf
  rw [run_append, hf]
  rfl

/-! ### The closed pieces -/

theorem clean_head : ∀ e s a l : Bool, clean4 (chunkHead e s a l) = true := by decide!

theorem clean_v4 : ∀ b : Bool, clean4 (chunkV4 b) = true := by decide!

theorem clean_v6 : ∀ b : Bool, clean4 (chunkV6 b) = true := by decide!

theorem clean_host : clean4 chunkHost = true := by decide!

theorem clean_open : clean4 "(?:".data = true := by decide!

theorem clean_strictTld : clean4 chunkStrictTld = true := by decide!

theorem clean_close : clean4 ")".data = true := by decide!

theorem clean_period : ∀ b : Bool, clean4 (chunkPeriod b) = true := by decide!

theorem clean_portPath : ∀ p a : Bool, clean4 (chunkPortPath p a) = true := by decide!

theorem sub4_open : sub4 "(?:".data = "(?:".data := by decide!

theorem sub4_close : sub4 ")".data = [')'] := by decide!

theorem sub4_end : ∀ e : Bool, sub4 (chunkEnd e) = if e then ['$', ')'] else [] := by decide!

theorem parse_head : ∀ e s a l : Bool,
    run .init (sub4 (chunkHead e s a l)) = some ⟨.normal, headItems e s a l, true, .no⟩ := by
  decide!

theorem parse_v4 : ∀ b : Bool,
    run ⟨.normal, [], true, .no⟩ (sub4 (chunkV4 b)) = some ⟨.normal, v4Items b, true, .no⟩ := by
  decide!

theorem parse_v6 : ∀ b : Bool,
    run ⟨.normal, [], true, .no⟩ (sub4 (chunkV6 b)) = some ⟨.normal, v6Items b, true, .no⟩ := by
  decide!

theorem parse_host :
    run ⟨.normal, [], true, .no⟩ (sub4 chunkHost) =
      some ⟨.normal, [.node (.lit '.' true), .lparen true, .node domainRe, .node hostRe],
        true, .no⟩ := by
  decide!

theorem parse_open :
    run ⟨.normal, [], true, .no⟩ "(?:".data = some ⟨.normal, [.lparen true], true, .no⟩ := by
  decide!

theorem parse_strictTld :
    run ⟨.normal, [], true, .no⟩ (sub4 chunkStrictTld) =
      some ⟨.normal, [.node strictTldRe], true, .no⟩ := by
  decide!

theorem parse_period : ∀ b : Bool,
    run ⟨.normal, [], true, .no⟩ (sub4 (chunkPeriod b)) =
      some ⟨.normal, if b then [.node (.opt (.lit '.' true))] else [], true,
        if b then .fresh else .no⟩ := by
  decide!

theorem parse_portPath : ∀ p a : Bool,
    run ⟨.normal, [], true, .no⟩ (sub4 (chunkPortPath p a)) =
      some ⟨.normal, [.node (pathRe p a), .node portRe], true, .fresh⟩ := by
  decide!

/-! ### The symbolic pieces -/

theorem run_cons (st : PState) (c : Char) (cs : List Char) :
    run st (c :: cs) = (step st c).bind fun st' => run st' cs := by
  simp only [run, List.foldlM]
  rfl

theorem run_nil (st : PState) : run st [] = some st := rfl

theorem run_close (stack : List Item) (f : Bool) (rep : RepSt) (rest : List Char)
    (r : Regex) (g : Bool) (below : List Item)
    (h : collapse stack none none = some (r, g, below)) :
    run ⟨.normal, stack, f, rep⟩ (')' :: rest) = run ⟨.normal, .node r :: below, g, .no⟩ rest := by
  rw [run_cons]
  have : step ⟨.normal, stack, f, rep⟩ ')' = some ⟨.normal, .node r :: below, g, .no⟩ := by
    simp [step, act, actNormal, applyAll, Action.apply, h]
  rw [this]
  rfl

theorem step_plain (stack : List Item) (f : Bool) (rep : RepSt) (c : Char)
    (hc : plainChar c = true) :
    step ⟨.normal, stack, f, rep⟩ c = some ⟨.normal, .node (.lit c f) :: stack, f, .no⟩ := by
  simp only [plainChar, Bool.not_eq_true', decide_eq_false_iff_not, not_or] at hc
  obtain ⟨h1, h2, h3, h4, h5, h6, h7, h8, h9, h10, h11, h12, h13, h14⟩ := hc
  simp [step, act, actNormal, applyAll, Action.apply, PState.push, h1, h2, h3, h4, h5, h6, h7,
    h8, h9, h10, h11, h12, h13, h14]

theorem run_word (w : List Char) :
    ∀ (stack : List Item) (rest : List Char), (∀ c ∈ w, plainChar c = true) →
      run ⟨.normal, stack, true, .no⟩ (w ++ rest) =
        run ⟨.normal, wordItems w ++ stack, true, .no⟩ rest := by
  induction w with
  | nil => intro stack rest _; rfl
  | cons c w ih =>
    intro stack rest hw
    rw [List.cons_append, run_cons, step_plain _ _ _ _ (hw c (List.mem_cons_self _ _))]
    show run _ (w ++ rest) = _
    rw [ih _ _ (fun d hd => hw d (List.mem_cons_of_mem _ hd))]
    simp [wordItems]

theorem run_bar (stack : List Item) (rest : List Char) :
    run ⟨.normal, stack, true, .no⟩ ('|' :: rest) =
      run ⟨.normal, .vbar :: stack, true, .no⟩ rest := by
  rw [run_cons]
  rfl

theorem Join_data_cons (a b : String) (l : List String) :
    (Join (a :: b :: l) "|").data = a.data ++ '|' :: (Join (b :: l) "|").data := by
  simp [Join, String.data_append]

theorem run_join (ts : List String) :
    ∀ (stack : List Item) (rest : List Char),
      (∀ t ∈ ts, ∀ c ∈ t.data, plainChar c = true) →
      run ⟨.normal, stack, true, .no⟩ ((Join ts "|").data ++ rest) =
        run ⟨.normal, wordsStack (ts.map String.data) stack, true, .no⟩ rest := by
  induction ts with
  | nil => intro stack rest _; rfl
  | cons a l ih =>
    intro stack rest h
    cases l with
    | nil =>
      simp only [Join, List.map, wordsStack]
      exact run_word a.data stack rest (h a (List.mem_cons_self _ _))
    | cons b l =>
      rw [Join_data_cons, List.append_assoc, run_word a.data _ _ (h a (List.mem_cons_self _ _)),
        List.cons_append, run_bar, ih _ _ (fun t ht => h t (List.mem_cons_of_mem _ ht))]
      rfl

theorem collapse_vbar (stack : List Item) (cur alts : Option Regex) :
    collapse (.vbar :: stack) cur alts = collapse stack none (some (altOpt cur alts)) := rfl

theorem collapse_lparen (f : Bool) (stack : List Item) (cur alts : Option Regex) :
    collapse (.lparen f :: stack) cur alts = some (altOpt cur alts, f, stack) := rfl

theorem collapse_node (r : Regex) (stack : List Item) (cur alts : Option Regex) :
    collapse (.node r :: stack) cur alts = collapse stack (some (catOpt r cur)) alts := rfl

theorem collapse_nodes (rs : List Regex) :
    ∀ (rest : List Item) (cur alts : Option Regex),
      collapse ((rs.map Item.node).reverse ++ rest) cur alts =
        collapse rest (prepend rs cur) alts := by
  induction rs with
  | nil => intro rest cur alts; rfl
  | cons r rs ih =>
    intro rest cur alts
    simp only [List.map, List.reverse_cons, List.append_assoc, List.singleton_append]
    rw [ih]
    rfl

theorem prepend_none (rs : List Regex) :
    prepend rs none = if rs = [] then none else some (catList rs) := by
  induction rs with
  | nil => rfl
  | cons r rs ih =>
    cases rs with
    | nil => rfl
    | cons r' rs' =>
      show some (catOpt r (prepend (r' :: rs') none)) = _
      rw [ih]
      simp [catList, catOpt]

theorem prepend_getD (rs : List Regex) : (prepend rs none).getD .empty = catList rs := by
  rw [prepend_none]
  cases rs <;> simp [catList]

theorem wordItems_eq (w : List Char) :
    wordItems w = ((w.map fun c => Regex.lit c true).map Item.node).reverse := by
  simp [wordItems]

theorem collapse_words (ws : List (List Char)) :
    ∀ (w : List Char) (stack : List Item),
      collapse (wordsStack (w :: ws) stack) none none =
        collapse stack (prepend (w.map fun c => Regex.lit c true) none)
          (match ws with
           | [] => none
           | w' :: ws' => some (altList ((w' :: ws').map wordRe))) := by
  induction ws with
  | nil =>
    intro w stack
    simp only [wordsStack]
    rw [wordItems_eq, collapse_nodes]
  | cons w' ws ih =>
    intro w stack
    simp only [wordsStack]
    rw [ih w' (.vbar :: (wordItems w ++ stack))]
    rw [collapse_vbar, wordItems_eq, collapse_nodes]
    cases ws with
    | nil => simp only [altOpt, prepend_getD, altList, List.map, wordRe]
    | cons w'' ws => simp only [altOpt, prepend_getD, altList, List.map, wordRe]

theorem collapse_tldAlt (ts : List String) (f : Bool) (stack : List Item) :
    collapse (wordsStack (ts.map String.data) (.lparen f :: stack)) none none =
      some (tldAltRe ts, f, stack) := by
  cases ts with
  | nil => rfl
  | cons t ts =>
    rw [List.map_cons, collapse_words, collapse_lparen]
    cases ts with
    | nil => simp only [List.map, altOpt, prepend_getD, tldAltRe, altList, wordRe]
    | cons t' ts =>
      simp only [List.map_cons, List.map_map, tldAltRe, altList, wordRe, altOpt, prepend_getD,
        Function.comp_def]

/-! ### The whole pattern -/

/-- The TLD part of the raw pattern. -/
theorem regexRaw_data (opt : option) :
    (regexRaw opt).data =
      rawPieces
        (if opt.strict then chunkStrictTld
         else "(?:".data ++ ((Join (sortedTlds opt) "|").data ++ ")".data))
        opt.exact opt.strict opt.auth opt.localhost opt.parens opt.apostrophes
        opt.trailingPeriod opt.ipv4 opt.ipv6 := by
  cases he : opt.exact <;> cases hs : opt.strict <;>
    simp only [regexRaw, regexBody, regexHead, tld, protocol, auth, path, rawPieces, chunkHead,
      chunkV4, chunkV6, chunkHost, chunkStrictTld, chunkPeriod, chunkPortPath, chunkEnd, he, hs,
      String.data_append, apply_ite String.data, List.append_assoc, ↓reduceIte, Bool.not_true,
      Bool.not_false, Bool.false_eq_true, List.append_nil, List.nil_append]

theorem join_plain (ts : List String) (h : ∀ t ∈ ts, ∀ c ∈ t.data, plainChar c = true) :
    ∀ c ∈ (Join ts "|").data, c ≠ backslash ∧ c ≠ '$' := by
  induction ts with
  | nil => intro c hc; simp [Join] at hc
  | cons a l ih =>
    have ha : ∀ c ∈ a.data, c ≠ backslash ∧ c ≠ '$' := by
      intro c hc
      have := h a (List.mem_cons_self _ _) c hc
      simp only [plainChar, Bool.not_eq_true', decide_eq_false_iff_not, not_or] at this
      exact ⟨this.2.2.2.2.2.2.2.2.2.2.1, this.2.2.2.2.2.2.2.2.2.2.2.2.1⟩
    cases l with
    | nil => simpa [Join] using ha
    | cons b l =>
      intro c hc
      rw [Join_data_cons, List.mem_append, List.mem_cons] at hc
      rcases hc with hc | hc | hc
      · exact ha c hc
      · subst hc; constructor <;> decide
      · exact ih (fun t ht => h t (List.mem_cons_of_mem _ ht)) c hc

/-- The pattern after the four replacements, in pieces. -/
theorem pattern_pieces (opt : option)
    (h : opt.strict = false → ∀ t ∈ opt.tlds, ∀ c ∈ t.data, plainChar c = true) :
    (pattern opt).data =
      sub4 (chunkHead opt.exact opt.strict opt.auth opt.localhost) ++
        (sub4 (chunkV4 opt.ipv4) ++ (sub4 (chunkV6 opt.ipv6) ++ (sub4 chunkHost ++
          ((if opt.strict then sub4 chunkStrictTld
            else "(?:".data ++ ((Join (sortedTlds opt) "|").data ++ [')'])) ++
           ([')'] ++ (sub4 (chunkPeriod opt.trailingPeriod) ++ ([')'] ++
            (sub4 (chunkPortPath opt.parens opt.apostrophes) ++
              sub4 (chunkEnd opt.exact))))))))) := by
  rw [pattern_data, regexRaw_data, rawPieces]
  rw [sub4_append _ _ (clean_head _ _ _ _), sub4_append _ _ (clean_v4 _),
    sub4_append _ _ (clean_v6 _), sub4_append _ _ clean_host]
  have hmid : ∀ rest : List Char,
      sub4 ((if opt.strict then chunkStrictTld
        else "(?:".data ++ ((Join (sortedTlds opt) "|").data ++ ")".data)) ++ rest) =
      (if opt.strict then sub4 chunkStrictTld
        else "(?:".data ++ ((Join (sortedTlds opt) "|").data ++ [')'])) ++ sub4 rest := by
    intro rest
    cases hs : opt.strict with
    | true =>
      simp only [↓reduceIte]
      exact sub4_append _ _ clean_strictTld
    | false =>
      simp only [Bool.false_eq_true, ↓reduceIte]
      have hj := join_plain (sortedTlds opt)
        (fun t ht => h hs t ((mem_sortedTlds opt t).1 ht))
      have hp := sub4_plain (Join (sortedTlds opt) "|").data
        (fun hm => (hj _ hm).1 rfl) (fun hm => (hj _ hm).2 rfl)
      rw [List.append_assoc, List.append_assoc, sub4_append _ _ clean_open,
        sub4_append _ _ hp.2, sub4_append _ _ clean_close, sub4_open, hp.1, sub4_close]
      simp only [List.append_assoc]
  rw [hmid, sub4_append _ _ clean_close, sub4_append _ _ (clean_period _),
    sub4_append _ _ clean_close, sub4_append _ _ (clean_portPath _ _), sub4_close]

theorem collapse_tldGroup (t : Regex) (f : Bool) (stack : List Item) :
    collapse (.node t :: .node (.lit '.' true) :: .lparen f :: stack) none none =
      some (.cat (.lit '.' true) t, f, stack) := rfl

theorem collapse_hostGroup (t : Regex) (e s a l i4 i6 tp : Bool) :
    collapse
      ((if tp then [Item.node (.opt (.lit '.' true))] else []) ++
        (.node (.cat (.lit '.' true) t) :: .node domainRe :: .node hostRe ::
          (v6Items i6 ++ (v4Items i4 ++ headItems e s a l)))) none none =
      some (hostGroupRe t l i4 i6 tp, true,
        (if a then [.node authRe] else []) ++
          (.node (protoRe s) :: (if e then [.node .bol, .lparen true] else []))) := by
  cases tp <;> cases i6 <;> cases i4 <;> cases l <;> rfl

theorem finish_pattern (t : Regex) (e s a l p ap tp i4 i6 : Bool) :
    (run ⟨.normal,
        [.node (pathRe p ap), .node portRe] ++
          (.node (hostGroupRe t l i4 i6 tp) ::
            ((if a then [.node authRe] else []) ++
              (.node (protoRe s) :: (if e then [.node .bol, .lparen true] else [])))),
        true, .fresh⟩ (if e then ['$', ')'] else [])).bind finish =
      some (patternTree t e s a l p ap tp i4 i6) := by
  cases e <;> cases a <;> rfl

/-- What `regexp.Compile` makes of the pattern of a configuration whose TLD
entries, when they are used, consist of ordinary characters. -/
theorem Compile_pattern (opt : option)
    (h : opt.strict = false → ∀ t ∈ opt.tlds, ∀ c ∈ t.data, plainChar c = true) :
    Compile (pattern opt) = some (patternRe opt) := by
  rw [Compile, pattern_pieces opt h, run_append, parse_head]
  simp only [Option.some_bind]
  rw [run_of_closed (parse_v4 _), run_of_closed (parse_v6 _), run_of_closed parse_host]
  have hmid : ∀ (stack : List Item) (rest : List Char),
      run ⟨.normal, stack, true, .no⟩
        ((if opt.strict then sub4 chunkStrictTld
          else "(?:".data ++ ((Join (sortedTlds opt) "|").data ++ [')'])) ++ rest) =
      run ⟨.normal,
        .node (if opt.strict then strictTldRe else tldAltRe (sortedTlds opt)) :: stack,
        true, .no⟩ rest := by
    intro stack rest
    cases hs : opt.strict with
    | true =>
      simp only [↓reduceIte]
      exact run_of_closed parse_strictTld stack rest
    | false =>
      simp only [Bool.false_eq_true, ↓reduceIte]
      rw [List.append_assoc, run_of_closed parse_open, List.append_assoc,
        run_join _ _ _ (fun t ht => h hs t ((mem_sortedTlds opt t).1 ht))]
      exact run_close _ _ _ _ _ _ _ (collapse_tldAlt _ _ _)
  rw [hmid]
  rw [show ([')'] ++ (sub4 (chunkPeriod opt.trailingPeriod) ++ ([')'] ++
      (sub4 (chunkPortPath opt.parens opt.apostrophes) ++ sub4 (chunkEnd opt.exact))))) =
      ')' :: (sub4 (chunkPeriod opt.trailingPeriod) ++ (')' ::
      (sub4 (chunkPortPath opt.parens opt.apostrophes) ++ sub4 (chunkEnd opt.exact)))) from rfl]
  simp only [List.cons_append, List.nil_append]
  rw [run_close _ _ _ _ _ _ _ (collapse_tldGroup _ _ _), run_of_closed (parse_period _)]
  rw [run_close _ _ _ _ _ _ _ (collapse_hostGroup _ _ _ _ _ _ _ _)]
  rw [run_of_closed (parse_portPath _ _), sub4_end]
  exact finish_pattern _ _ _ _ _ _ _ _ _ _

end Parse
/-! ## Tools for reasoning about matches -/

section Tools

variable {orbit : Char → List Char}

theorem matches_context {r : Regex} {pre s post : List Char}
    (h : Matches orbit r pre s post) :
    anchorFree r = true → ∀ pre' post', Matches orbit r pre' s post' := by
  induction h with
  | empty pre post => intro _ pre' post'; exact Matches.empty _ _
  | chr cls pre post c hc => intro _ pre' post'; exact Matches.chr _ _ _ _ hc
  | bol post => intro ha; cases ha
  | eol pre => intro ha; cases ha
  | cat a b pre s t post _ _ iha ihb =>
    intro ha pre' post'
    simp only [anchorFree, Bool.and_eq_true] at ha
    exact Matches.cat _ _ _ _ _ _ (iha ha.1 _ _) (ihb ha.2 _ _)
  | altL a b pre s post _ ih =>
    intro ha pre' post'
    simp only [anchorFree, Bool.and_eq_true] at ha
    exact Matches.altL _ _ _ _ _ (ih ha.1 _ _)
  | altR a b pre s post _ ih =>
    intro ha pre' post'
    simp only [anchorFree, Bool.and_eq_true] at ha
    exact Matches.altR _ _ _ _ _ (ih ha.2 _ _)
  | starNil a pre post => intro _ pre' post'; exact Matches.starNil _ _ _
  | starCons a pre s t post _ _ iha ihs =>
    intro ha pre' post'
    have ha' : anchorFree a = true := ha
    exact Matches.starCons _ _ _ _ _ (iha ha' _ _) (ihs ha _ _)

/-- On an ASCII character a class decides as it does with the ASCII orbits. -/
theorem test_ascii (hf : FoldOK orbit) (cls : CharClass) (c : Char) (hc : c.toNat < 128) :
    cls.test orbit c = cls.test asciiFold c := by
  have h : (orbit c).any cls.hit = (asciiFold c).any cls.hit := by
    rw [Bool.eq_iff_iff, List.any_eq_true, List.any_eq_true]
    constructor
    · rintro ⟨d, hd, hh⟩
      exact ⟨d, (hf.ascii c hc d).1 hd, hh⟩
    · rintro ⟨d, hd, hh⟩
      exact ⟨d, (hf.ascii c hc d).2 hd, hh⟩
  simp only [CharClass.test, h]

theorem avoids_sound (hf : FoldOK orbit) (c : Char) (hc : c.toNat < 128)
    {r : Regex} {pre s post : List Char} (h : Matches orbit r pre s post) :
    avoids c r = true → c ∉ s := by
  induction h with
  | empty pre post => intro _; simp
  | chr cls pre post d hd =>
    intro ha hm
    simp only [List.mem_singleton] at hm
    subst hm
    rw [test_ascii hf cls c hc] at hd
    simp [avoids, hd] at ha
  | bol post => intro _; simp
  | eol pre => intro _; simp
  | cat a b pre s t post _ _ iha ihb =>
    intro ha
    simp only [avoids, Bool.and_eq_true] at ha
    simp only [List.mem_append, not_or]
    exact ⟨iha ha.1, ihb ha.2⟩
  | altL a b pre s post _ ih =>
    intro ha
    simp only [avoids, Bool.and_eq_true] at ha
    exact ih ha.1
  | altR a b pre s post _ ih =>
    intro ha
    simp only [avoids, Bool.and_eq_true] at ha
    exact ih ha.2
  | starNil a pre post => intro _; simp
  | starCons a pre s t post _ _ iha ihs =>
    intro ha
    have ha' : avoids c a = true := ha
    simp only [List.mem_append, not_or]
    exact ⟨iha ha', ihs ha⟩

theorem within_sound (hf : FoldOK orbit) (cs : List Char) (cls : CharClass) (c : Char)
    (hw : cls.within cs = true) (ht : cls.test orbit c = true) : c ∈ cs := by
  simp only [CharClass.within, Bool.and_eq_true, Bool.not_eq_true', List.all_eq_true,
    beq_iff_eq, decide_eq_true_eq, List.contains_eq_any_beq, List.any_eq_true] at hw
  obtain ⟨hneg, hr⟩ := hw
  have hself := hf.self c
  simp only [CharClass.test, hneg, Bool.xor_false] at ht
  have key : ∀ d, d ∈ orbit c → cls.hit d = true → c ∈ cs := by
    intro d hd hh
    simp only [CharClass.hit, List.any_eq_true, Bool.and_eq_true, decide_eq_true_eq] at hh
    obtain ⟨r, hrm, h1, h2⟩ := hh
    obtain ⟨⟨he, hlt⟩, hall⟩ := hr r hrm
    have hdr : d = r.1 := by
      rw [← he] at h2
      exact Char.le_antisymm h2 h1
    rw [hdr] at hd
    have hc' : c ∈ orbit r.1 := hf.symm c r.1 hd
    have hc'' : c ∈ asciiFold r.1 := (hf.ascii r.1 hlt c).1 hc'
    obtain ⟨x, hx, hxe⟩ := hall c hc''
    rw [hxe]
    exact hx
  split at ht
  · rw [List.any_eq_true] at ht
    obtain ⟨d, hd, hh⟩ := ht
    exact key d hd hh
  · exact key c hself ht

theorem mustHave_sound (hf : FoldOK orbit) (cs : List Char)
    {r : Regex} {pre s post : List Char} (h : Matches orbit r pre s post) :
    mustHave cs r = true → ∃ c ∈ s, c ∈ cs := by
  induction h with
  | empty pre post => intro hm; cases hm
  | chr cls pre post d hd =>
    intro hm
    exact ⟨d, List.mem_singleton_self d, within_sound hf cs cls d hm hd⟩
  | bol post => intro hm; cases hm
  | eol pre => intro hm; cases hm
  | cat a b pre s t post _ _ iha ihb =>
    intro hm
    simp only [mustHave, Bool.or_eq_true] at hm
    rcases hm with hm | hm
    · obtain ⟨c, hc, hcs⟩ := iha hm
      exact ⟨c, List.mem_append_left _ hc, hcs⟩
    · obtain ⟨c, hc, hcs⟩ := ihb hm
      exact ⟨c, List.mem_append_right _ hc, hcs⟩
  | altL a b pre s post _ ih =>
    intro hm
    simp only [mustHave, Bool.and_eq_true] at hm
    exact ih hm.1
  | altR a b pre s post _ ih =>
    intro hm
    simp only [mustHave, Bool.and_eq_true] at hm
    exact ih hm.2
  | starNil a pre post => intro hm; cases hm
  | starCons a pre s t post _ _ _ _ => intro hm; cases hm

/-- On an ASCII piece the orbits beyond ASCII do not matter. -/
theorem matches_transfer {o1 o2 : Char → List Char} (hf1 : FoldOK o1) (hf2 : FoldOK o2)
    {r : Regex} {pre s post : List Char} (h : Matches o1 r pre s post) :
    (∀ c ∈ s, c.toNat < 128) → Matches o2 r pre s post := by
  induction h with
  | empty pre post => intro _; exact Matches.empty _ _
  | chr cls pre post c hc =>
    intro ha
    have hc128 := ha c (List.mem_singleton_self c)
    exact Matches.chr _ _ _ _ (by rw [test_ascii hf2 cls c hc128, ← test_ascii hf1 cls c hc128]; exact hc)
  | bol post => intro _; exact Matches.bol _
  | eol pre => intro _; exact Matches.eol _
  | cat a b pre s t post _ _ iha ihb =>
    intro ha
    exact Matches.cat _ _ _ _ _ _ (iha fun c hc => ha c (List.mem_append_left _ hc))
      (ihb fun c hc => ha c (List.mem_append_right _ hc))
  | altL a b pre s post _ ih => intro ha; exact Matches.altL _ _ _ _ _ (ih ha)
  | altR a b pre s post _ ih => intro ha; exact Matches.altR _ _ _ _ _ (ih ha)
  | starNil a pre post => intro _; exact Matches.starNil _ _ _
  | starCons a pre s t post _ _ iha ihs =>
    intro ha
    exact Matches.starCons _ _ _ _ _ (iha fun c hc => ha c (List.mem_append_left _ hc))
      (ihs fun c hc => ha c (List.mem_append_right _ hc))

end Tools
/-! ## The ASCII orbits are a fold table -/

section Fold

theorem ascii_cases (P : Char → Prop) (h : ∀ n : Fin 128, P (Char.ofNat n.val)) (c : Char)
    (hc : c.toNat < 128) : P c := by
  have := h ⟨c.toNat, hc⟩
  simpa using this

theorem asciiFold_of_not_ascii (c : Char) (hc : 128 ≤ c.toNat) (hk : c ≠ kelvin)
    (hs : c ≠ longS) : asciiFold c = [c] := by
  have h1 : c ≠ 'k' := by rintro rfl; revert hc; decide
  have h2 : c ≠ 'K' := by rintro rfl; revert hc; decide
  have h3 : c ≠ 's' := by rintro rfl; revert hc; decide
  have h4 : c ≠ 'S' := by rintro rfl; revert hc; decide
  have hv : 128 ≤ c.val.toNat := hc
  have h5 : c.isLower = false := by
    simp only [Char.isLower, Bool.and_eq_false_imp, decide_eq_true_eq, decide_eq_false_iff_not]
    intro _ h
    have h' : c.val.toNat ≤ (122 : UInt32).toNat := h
    have : (122 : UInt32).toNat = 122 := rfl
    omega
  have h6 : c.isUpper = false := by
    simp only [Char.isUpper, Bool.and_eq_false_imp, decide_eq_true_eq, decide_eq_false_iff_not]
    intro _ h
    have h' : c.val.toNat ≤ (90 : UInt32).toNat := h
    have : (90 : UInt32).toNat = 90 := rfl
    omega
  simp [asciiFold, h1, h2, h3, h4, h5, h6, hk, hs]

theorem asciiFold_self_ascii : ∀ n : Fin 128, Char.ofNat n.val ∈ asciiFold (Char.ofNat n.val) := by
  decide!

theorem asciiFold_symm_ascii :
    ∀ n : Fin 128, ∀ d ∈ asciiFold (Char.ofNat n.val), Char.ofNat n.val ∈ asciiFold d := by
  decide!

theorem asciiFold_ok : FoldOK asciiFold where
  self := by
    intro c
    by_cases hc : c.toNat < 128
    · exact ascii_cases (fun c => c ∈ asciiFold c) asciiFold_self_ascii c hc
    · by_cases hk : c = kelvin
      · subst hk; decide
      · by_cases hs : c = longS
        · subst hs; decide
        · rw [asciiFold_of_not_ascii c (by omega) hk hs]
          exact List.mem_singleton_self c
  symm := by
    intro c d hd
    by_cases hc : c.toNat < 128
    · exact ascii_cases (fun c => ∀ d ∈ asciiFold c, c ∈ asciiFold d) asciiFold_symm_ascii c hc d hd
    · by_cases hk : c = kelvin
      · subst hk; revert d; decide
      · by_cases hs : c = longS
        · subst hs; revert d; decide
        · rw [asciiFold_of_not_ascii c (by omega) hk hs, List.mem_singleton] at hd
          subst hd
          rw [asciiFold_of_not_ascii d (by omega) hk hs]
          exact List.mem_singleton_self d
  ascii := fun _ _ _ => Iff.rfl

end Fold
/-! ## What the tree of the pattern matches -/

section Structure

set_option maxRecDepth 100000

variable {orbit : Char → List Char}

theorem letterOrDigit_plain (c : Char) (h : letterOrDigit c = true) : plainChar c = true := by
  by_contra hp
  simp only [plainChar, Bool.not_eq_true', decide_eq_false_iff_not, not_not] at hp
  rcases hp with h1 | h1 | h1 | h1 | h1 | h1 | h1 | h1 | h1 | h1 | h1 | h1 | h1 | h1 <;>
    (subst h1; revert h; decide)

theorem letter_letterOrDigit (c : Char) (h : letter c = true) : letterOrDigit c = true := by
  simp only [letter, Bool.or_eq_true, decide_eq_true_eq] at h
  simp only [letterOrDigit, Bool.or_eq_true, decide_eq_true_eq, Char.isAlphanum]
  rcases h with h | h
  · exact Or.inl (Or.inl h)
  · exact Or.inr h

theorem isAlpha_letter (c : Char) (h : c.isAlpha = true) : letter c = true := by
  simp [letter, h]

/-- For a configuration whose TLD entries consist of letters and digits the
pattern compiles, and it finds a match exactly where its tree matches. -/
theorem PatternMatches_iff (opt : option)
    (h : opt.strict = false → ∀ t ∈ opt.tlds, ∀ c ∈ t.data, plainChar c = true) (s : String) :
    PatternMatches orbit (pattern opt) s = true ↔
      ∃ pre m post, s.data = pre ++ m ++ post ∧ Matches orbit (patternRe opt) pre m post := by
  rw [PatternMatches, Compile_pattern opt h]
  exact MatchString_iff _ _

theorem PatternMatches_false_iff (opt : option)
    (h : opt.strict = false → ∀ t ∈ opt.tlds, ∀ c ∈ t.data, plainChar c = true) (s : String) :
    PatternMatches orbit (pattern opt) s = false ↔
      ∀ pre m post, s.data = pre ++ m ++ post → ¬ Matches orbit (patternRe opt) pre m post := by
  rw [← Bool.not_eq_true, PatternMatches_iff opt h]
  simp

theorem matches_lit_iff (hf : FoldOK orbit) (a : Char) {pre s post : List Char} :
    Matches orbit (.lit a true) pre s post ↔ ∃ c, s = [c] ∧ c ∈ orbit a := by
  rw [Regex.lit, matches_chr_iff]
  have key : ∀ c, CharClass.test orbit ⟨false, [(a, a)], true⟩ c = true ↔ c ∈ orbit a := by
    intro c
    simp only [CharClass.test, CharClass.hit, if_true, Bool.xor_false, List.any_eq_true,
      List.any_cons, List.any_nil, Bool.or_false, Bool.and_eq_true, decide_eq_true_eq]
    constructor
    · rintro ⟨d, hd, h1, h2⟩
      have : d = a := Char.le_antisymm h2 h1
      subst this
      exact hf.symm c d hd
    · intro hc
      exact ⟨a, hf.symm a c hc, Char.le_refl a, Char.le_refl a⟩
  constructor
  · rintro ⟨c, hs, hc⟩
    exact ⟨c, hs, (key c).1 hc⟩
  · rintro ⟨c, hs, hc⟩
    exact ⟨c, hs, (key c).2 hc⟩

theorem catList_cons_cons (r r' : Regex) (rs : List Regex) :
    catList (r :: r' :: rs) = .cat r (catList (r' :: rs)) := rfl

theorem altList_cons_cons (r r' : Regex) (rs : List Regex) :
    altList (r :: r' :: rs) = .alt r (altList (r' :: rs)) := rfl

theorem matches_altList_iff (rs : List Regex) (hne : rs ≠ []) {pre s post : List Char} :
    Matches orbit (altList rs) pre s post ↔ ∃ r ∈ rs, Matches orbit r pre s post := by
  induction rs with
  | nil => exact absurd rfl hne
  | cons r rs ih =>
    cases rs with
    | nil => simp [altList]
    | cons r' rs =>
      rw [altList_cons_cons, matches_alt_iff, ih (by simp)]
      simp

/-- A word of ordinary characters matches, character by character, the
members of the orbits of its characters. -/
theorem matches_wordRe_iff (hf : FoldOK orbit) (w : List Char) :
    ∀ {pre s post : List Char},
      Matches orbit (wordRe w) pre s post ↔ List.Forall₂ (fun a c => c ∈ orbit a) w s := by
  induction w with
  | nil =>
    intro pre s post
    simp [wordRe, catList, matches_empty_iff]
  | cons a w ih =>
    intro pre s post
    cases w with
    | nil =>
      simp only [wordRe, List.map, catList]
      rw [matches_lit_iff hf]
      constructor
      · rintro ⟨c, rfl, hc⟩
        exact List.Forall₂.cons hc List.Forall₂.nil
      · intro h
        cases h with
        | cons hc ht =>
          cases ht
          exact ⟨_, rfl, hc⟩
    | cons b w =>
      have e : wordRe (a :: b :: w) = .cat (.lit a true) (wordRe (b :: w)) := rfl
      rw [e, matches_cat_iff]
      constructor
      · rintro ⟨s1, s2, rfl, h1, h2⟩
        obtain ⟨c, rfl, hc⟩ := (matches_lit_iff hf a).1 h1
        exact List.Forall₂.cons hc (ih.1 h2)
      · intro h
        cases h with
        | cons hc ht =>
          rename_i c s'
          exact ⟨[c], s', rfl, (matches_lit_iff hf a).2 ⟨c, rfl, hc⟩, ih.2 ht⟩

theorem matches_tldAltRe_iff (hf : FoldOK orbit) (ts : List String) (hne : ts ≠ [])
    {pre s post : List Char} :
    Matches orbit (tldAltRe ts) pre s post ↔
      ∃ t ∈ ts, List.Forall₂ (fun a c => c ∈ orbit a) t.data s := by
  rw [tldAltRe, matches_altList_iff _ (by simpa using hne)]
  simp only [List.mem_map, exists_exists_and_eq_and, matches_wordRe_iff hf]

theorem anchorFree_wordRe (w : List Char) : anchorFree (wordRe w) = true := by
  induction w with
  | nil => rfl
  | cons a w ih =>
    cases w with
    | nil => rfl
    | cons b w =>
      have e : wordRe (a :: b :: w) = .cat (.lit a true) (wordRe (b :: w)) := rfl
      rw [e]
      show (anchorFree (.lit a true) && anchorFree (wordRe (b :: w))) = true
      rw [ih]
      rfl

theorem anchorFree_tldAltRe (ts : List String) : anchorFree (tldAltRe ts) = true := by
  induction ts with
  | nil => rfl
  | cons t ts ih =>
    cases ts with
    | nil => exact anchorFree_wordRe _
    | cons t' ts =>
      have e : tldAltRe (t :: t' :: ts) = .alt (wordRe t.data) (tldAltRe (t' :: ts)) := rfl
      rw [e]
      show (anchorFree (wordRe t.data) && anchorFree (tldAltRe (t' :: ts))) = true
      rw [ih, anchorFree_wordRe]
      rfl

theorem anchorFree_tldRe (opt : option) :
    anchorFree (if opt.strict then strictTldRe else tldAltRe (sortedTlds opt)) = true := by
  split
  · decide
  · exact anchorFree_tldAltRe _

theorem anchorFree_pieces :
    anchorFree hostRe = true ∧ anchorFree domainRe = true ∧ anchorFree v4Re = true ∧
      anchorFree v6Re = true ∧ anchorFree (wordRe "localhost".data) = true ∧
      anchorFree authRe = true ∧ anchorFree portRe = true ∧
      (∀ s : Bool, anchorFree (protoRe s) = true) ∧
      (∀ p a : Bool, anchorFree (pathRe p a) = true) := by
  decide!

theorem anchorFree_genericRe (t : Regex) (ht : anchorFree t = true) (tp : Bool) :
    anchorFree (genericRe t tp) = true := by
  cases tp <;>
    simp [genericRe, catList, anchorFree, ht, anchorFree_pieces.1, anchorFree_pieces.2.1,
      Regex.opt, Regex.lit]

theorem anchorFree_hostGroupRe (t : Regex) (ht : anchorFree t = true) (l i4 i6 tp : Bool) :
    anchorFree (hostGroupRe t l i4 i6 tp) = true := by
  have hg := anchorFree_genericRe t ht tp
  have h4 := anchorFree_pieces.2.2.1
  have h6 := anchorFree_pieces.2.2.2.1
  have hl := anchorFree_pieces.2.2.2.2.1
  unfold hostGroupRe
  generalize genericRe t tp = g at hg ⊢
  generalize v4Re = r4 at h4 ⊢
  generalize v6Re = r6 at h6 ⊢
  generalize wordRe "localhost".data = rl at hl ⊢
  cases l <;> cases i4 <;> cases i6 <;>
    simp only [Bool.false_eq_true, if_false, if_true, List.nil_append,
      List.cons_append, altList, anchorFree, hg, h4, h6, hl, Bool.and_self]

/-- The alternatives of the host group. -/
theorem matches_hostGroupRe_iff (t : Regex) (l i4 i6 tp : Bool) {pre s post : List Char} :
    Matches orbit (hostGroupRe t l i4 i6 tp) pre s post ↔
      (l = true ∧ Matches orbit (wordRe "localhost".data) pre s post) ∨
      (i4 = true ∧ Matches orbit v4Re pre s post) ∨
      (i6 = true ∧ Matches orbit v6Re pre s post) ∨
      Matches orbit (genericRe t tp) pre s post := by
  unfold hostGroupRe
  generalize genericRe t tp = g
  generalize v4Re = r4
  generalize v6Re = r6
  generalize wordRe "localhost".data = rl
  cases l <;> cases i4 <;> cases i6 <;>
    simp [altList, matches_alt_iff]

/-- The parts of a match of the generic alternative. -/
theorem matches_genericRe (hf : FoldOK orbit) (t : Regex) (ht : anchorFree t = true) (tp : Bool)
    {pre s post : List Char} (h : Matches orbit (genericRe t tp) pre s post) :
    ∃ x y z u, s = x ++ (y ++ ('.' :: (z ++ u))) ∧ Matches orbit hostRe [] x [] ∧
      Matches orbit domainRe [] y [] ∧ Matches orbit t [] z [] ∧
      (u = [] ∨ (tp = true ∧ u = ['.'])) := by
  have hdot : ∀ c, c ∈ orbit '.' → c = '.' := by
    intro c hc
    have e : asciiFold '.' = ['.'] := by decide
    have := (hf.ascii '.' (by decide) c).1 hc
    rw [e] at this
    simpa using this
  cases tp with
  | false =>
    simp only [genericRe, Bool.false_eq_true, if_false, List.append_nil, catList,
      matches_cat_iff] at h
    obtain ⟨x, r1, rfl, hx, y, r2, rfl, hy, d, z, rfl, hd, hz⟩ := h
    obtain ⟨c, rfl, hc⟩ := (matches_lit_iff hf '.').1 hd
    rw [hdot c hc]
    exact ⟨x, y, z, [], by simp, matches_context hx anchorFree_pieces.1 _ _,
      matches_context hy anchorFree_pieces.2.1 _ _, matches_context hz ht _ _, Or.inl rfl⟩
  | true =>
    simp only [genericRe, if_true, List.cons_append, List.nil_append, catList,
      matches_cat_iff, matches_opt_iff] at h
    obtain ⟨x, r1, rfl, hx, y, r2, rfl, hy, r3, u, rfl, ⟨d, z, rfl, hd, hz⟩, hu⟩ := h
    obtain ⟨c, rfl, hc⟩ := (matches_lit_iff hf '.').1 hd
    rw [hdot c hc]
    refine ⟨x, y, z, u, by simp, matches_context hx anchorFree_pieces.1 _ _,
      matches_context hy anchorFree_pieces.2.1 _ _, matches_context hz ht _ _, ?_⟩
    rcases hu with hu | hu
    · obtain ⟨c', rfl, hc'⟩ := (matches_lit_iff hf '.').1 hu
      rw [hdot c' hc']
      exact Or.inr ⟨rfl, rfl⟩
    · exact Or.inl hu

/-- A match of the generic alternative from its parts. -/
theorem genericRe_of_parts (hf : FoldOK orbit) (t : Regex) (ht : anchorFree t = true) (tp : Bool)
    (x y z u : List Char) (hx : Matches orbit hostRe [] x [])
    (hy : Matches orbit domainRe [] y []) (hz : Matches orbit t [] z [])
    (hu : u = [] ∨ (tp = true ∧ u = ['.'])) (pre post : List Char) :
    Matches orbit (genericRe t tp) pre (x ++ (y ++ ('.' :: (z ++ u)))) post := by
  have hd : ∀ pre post, Matches orbit (.lit '.' true) pre ['.'] post := fun pre post =>
    (matches_lit_iff hf '.').2 ⟨'.', rfl, hf.self '.'⟩
  cases tp with
  | false =>
    rcases hu with hu | hu
    · subst hu
      simp only [genericRe, Bool.false_eq_true, if_false, List.append_nil, catList,
        matches_cat_iff]
      exact ⟨x, _, rfl, matches_context hx anchorFree_pieces.1 _ _, y, _, rfl,
        matches_context hy anchorFree_pieces.2.1 _ _, ['.'], z, rfl, hd _ _,
        matches_context hz ht _ _⟩
    · cases hu.1
  | true =>
    simp only [genericRe, if_true, List.cons_append, List.nil_append, catList,
      matches_cat_iff, matches_opt_iff]
    refine ⟨x, _, rfl, matches_context hx anchorFree_pieces.1 _ _, y, _, rfl,
      matches_context hy anchorFree_pieces.2.1 _ _, '.' :: z, u, by simp,
      ⟨['.'], z, rfl, hd _ _, matches_context hz ht _ _⟩, ?_⟩
    rcases hu with hu | hu
    · exact Or.inr hu
    · rw [hu.2]
      exact Or.inl (hd _ _)

theorem cat_nil_left {a b : Regex} {pre s post : List Char}
    (ha : Matches orbit a pre [] (s ++ post)) (hb : Matches orbit b pre s post) :
    Matches orbit (.cat a b) pre s post :=
  Matches.cat a b pre [] s post ha (by simpa using hb)

theorem cat_nil_right {a b : Regex} {pre s post : List Char}
    (ha : Matches orbit a pre s post) (hb : Matches orbit b (pre ++ s) [] post) :
    Matches orbit (.cat a b) pre s post := by
  have := Matches.cat a b pre s [] post (by simpa using ha) hb
  simpa using this

/-- The parts of a match of the whole pattern. -/
theorem matches_patternTree (t : Regex) (ht : anchorFree t = true)
    (e s a l p ap tp i4 i6 : Bool) {pre m post : List Char}
    (h : Matches orbit (patternTree t e s a l p ap tp i4 i6) pre m post) :
    (e = true → pre = [] ∧ post = []) ∧
    ∃ x1 x2 x3 x4 x5, m = x1 ++ (x2 ++ (x3 ++ (x4 ++ x5))) ∧
      Matches orbit (protoRe s) [] x1 [] ∧
      (x2 = [] ∨ (a = true ∧ Matches orbit authRe [] x2 [])) ∧
      Matches orbit (hostGroupRe t l i4 i6 tp) [] x3 [] ∧
      Matches orbit portRe [] x4 [] ∧ Matches orbit (pathRe p ap) [] x5 [] := by
  have hP := anchorFree_pieces.2.2.2.2.2.2.2.1 s
  have hA := anchorFree_pieces.2.2.2.2.2.1
  have hH := anchorFree_hostGroupRe t ht l i4 i6 tp
  have hQ := anchorFree_pieces.2.2.2.2.2.2.1
  have hW := anchorFree_pieces.2.2.2.2.2.2.2.2 p ap
  cases e <;> cases a <;>
    simp only [patternTree, bodyRes, Bool.false_eq_true, if_false, if_true, List.cons_append,
      List.nil_append, List.append_nil, catList, matches_cat_iff, matches_bol_iff,
      matches_eol_iff] at h
  · obtain ⟨x1, r1, rfl, h1, x3, r3, rfl, h3, x4, x5, rfl, h4, h5⟩ := h
    exact ⟨by simp, x1, [], x3, x4, x5, by simp, matches_context h1 hP _ _, Or.inl rfl,
      matches_context h3 hH _ _, matches_context h4 hQ _ _, matches_context h5 hW _ _⟩
  · obtain ⟨x1, r1, rfl, h1, x2, r2, rfl, h2, x3, r3, rfl, h3, x4, x5, rfl, h4, h5⟩ := h
    exact ⟨by simp, x1, x2, x3, x4, x5, by simp, matches_context h1 hP _ _,
      Or.inr ⟨rfl, matches_context h2 hA _ _⟩,
      matches_context h3 hH _ _, matches_context h4 hQ _ _, matches_context h5 hW _ _⟩
  · obtain ⟨x0, r0, rfl, ⟨hpre, rfl⟩, x1, r1, rfl, h1, x3, r3, rfl, h3, x4, r4, rfl, h4, x5, x6,
      rfl, h5, rfl, hpost⟩ := h
    exact ⟨fun _ => ⟨hpre, hpost⟩, x1, [], x3, x4, x5, by simp, matches_context h1 hP _ _,
      Or.inl rfl, matches_context h3 hH _ _, matches_context h4 hQ _ _,
      matches_context h5 hW _ _⟩
  · obtain ⟨x0, r0, rfl, ⟨hpre, rfl⟩, x1, r1, rfl, h1, x2, r2, rfl, h2, x3, r3, rfl, h3, x4, r4,
      rfl, h4, x5, x6, rfl, h5, rfl, hpost⟩ := h
    exact ⟨fun _ => ⟨hpre, hpost⟩, x1, x2, x3, x4, x5, by simp, matches_context h1 hP _ _,
      Or.inr ⟨rfl, matches_context h2 hA _ _⟩, matches_context h3 hH _ _,
      matches_context h4 hQ _ _, matches_context h5 hW _ _⟩

/-- Without the strict mode a match of the host group alone is a match of the
whole pattern. -/
theorem patternTree_of_host (t : Regex) (ht : anchorFree t = true)
    (e a l p ap tp i4 i6 : Bool) (x : List Char)
    (h : Matches orbit (hostGroupRe t l i4 i6 tp) [] x []) :
    Matches orbit (patternTree t e false a l p ap tp i4 i6) [] x [] := by
  have hH := anchorFree_hostGroupRe t ht l i4 i6 tp
  have h1 : ∀ pre post, Matches orbit (protoRe false) pre [] post := fun pre post =>
    Matches.altL _ _ _ _ _ (Matches.altR _ _ _ _ _ (Matches.empty _ _))
  have h2 : ∀ pre post, Matches orbit authRe pre [] post := fun pre post =>
    Matches.altR _ _ _ _ _ (Matches.empty _ _)
  have h4 : ∀ pre post, Matches orbit portRe pre [] post := fun pre post =>
    Matches.altR _ _ _ _ _ (Matches.empty _ _)
  have h5 : ∀ pre post, Matches orbit (pathRe p ap) pre [] post := fun pre post =>
    Matches.altR _ _ _ _ _ (Matches.empty _ _)
  have hx : ∀ pre post, Matches orbit (hostGroupRe t l i4 i6 tp) pre x post := fun pre post =>
    matches_context h hH _ _
  cases e <;> cases a
  · exact cat_nil_left (h1 _ _) (cat_nil_right (hx _ _) (cat_nil_left (h4 _ _) (h5 _ _)))
  · exact cat_nil_left (h1 _ _) (cat_nil_left (h2 _ _)
      (cat_nil_right (hx _ _) (cat_nil_left (h4 _ _) (h5 _ _))))
  · exact cat_nil_left (Matches.bol _) (cat_nil_left (h1 _ _)
      (cat_nil_right (hx _ _) (cat_nil_left (h4 _ _) (cat_nil_left (h5 _ _) (Matches.eol _)))))
  · exact cat_nil_left (Matches.bol _) (cat_nil_left (h1 _ _) (cat_nil_left (h2 _ _)
      (cat_nil_right (hx _ _) (cat_nil_left (h4 _ _) (cat_nil_left (h5 _ _) (Matches.eol _))))))

end Structure
/-! ## What the parts of the pattern match -/

section Pieces

set_option maxRecDepth 100000

variable {orbit : Char → List Char}

/-- A decision of the matcher on an ASCII piece holds for every fold
table. -/
theorem matches_of_matchWhole (hf : FoldOK orbit) (r : Regex) (s : List Char)
    (hs : ∀ c ∈ s, c.toNat < 128) (h : matchWhole asciiFold r true s = true) :
    Matches orbit r [] s [] :=
  matches_transfer asciiFold_ok hf ((matchWhole_iff s r true [] (by simp)).1 h) hs

theorem not_matches_of_matchWhole (hf : FoldOK orbit) (r : Regex) (s : List Char)
    (hs : ∀ c ∈ s, c.toNat < 128) (h : matchWhole asciiFold r true s = false) :
    ¬ Matches orbit r [] s [] := by
  intro hm
  have := (@matchWhole_iff asciiFold s r true [] (by simp)).2
    (matches_transfer hf asciiFold_ok hm hs)
  rw [h] at this
  cases this

theorem forall₂_self (w : List Char) (hf : FoldOK orbit) :
    List.Forall₂ (fun a c => c ∈ orbit a) w w := by
  induction w with
  | nil => exact List.Forall₂.nil
  | cons a w ih => exact List.Forall₂.cons (hf.self a) ih

/-- The protocol group matches nothing, or something with a slash, or
something that starts with `w` or `W`. -/
theorem proto_cases (hf : FoldOK orbit) (s : Bool) {x : List Char}
    (h : Matches orbit (protoRe s) [] x []) :
    (s = false ∧ x = []) ∨ (∃ y, x = y ++ ['/', '/']) ∨
      (∃ c1 c2 c3, x = [c1, c2, c3, '.'] ∧ c1 ∈ ['w', 'W'] ∧ c2 ∈ ['w', 'W'] ∧
        c3 ∈ ['w', 'W']) := by
  have hsl : ∀ c, c ∈ orbit '/' → c = '/' := by
    intro c hc
    have e : asciiFold '/' = ['/'] := by decide
    have := (hf.ascii '/' (by decide) c).1 hc
    rw [e] at this
    simpa using this
  have hdot : ∀ c, c ∈ orbit '.' → c = '.' := by
    intro c hc
    have e : asciiFold '.' = ['.'] := by decide
    have := (hf.ascii '.' (by decide) c).1 hc
    rw [e] at this
    simpa using this
  have hw : ∀ c, c ∈ orbit 'w' → c ∈ ['w', 'W'] := by
    intro c hc
    have e : asciiFold 'w' = ['w', 'W'] := by decide
    have := (hf.ascii 'w' (by decide) c).1 hc
    rw [e] at this
    exact this
  have hscheme : ∀ {pre y post}, Matches orbit schemeRe pre y post → ∃ z, y = z ++ ['/', '/'] := by
    intro pre y post hy
    simp only [schemeRe, matches_cat_iff] at hy
    obtain ⟨z, r1, rfl, _, a, b, rfl, ha, hb⟩ := hy
    obtain ⟨c, rfl, hc⟩ := (matches_lit_iff hf '/').1 ha
    obtain ⟨d, rfl, hd⟩ := (matches_lit_iff hf '/').1 hb
    rw [hsl c hc, hsl d hd]
    exact ⟨z, rfl⟩
  rw [protoRe, matches_alt_iff] at h
  rcases h with h | h
  · cases s with
    | true =>
      simp only [if_true] at h
      exact Or.inr (Or.inl (hscheme h))
    | false =>
      simp only [Bool.false_eq_true, if_false, matches_opt_iff] at h
      rcases h with h | h
      · exact Or.inr (Or.inl (hscheme h))
      · exact Or.inl ⟨rfl, h⟩
  · rw [matches_wordRe_iff hf] at h
    right; right
    cases h with
    | cons h1 h =>
      cases h with
      | cons h2 h =>
        cases h with
        | cons h3 h =>
          cases h with
          | cons h4 h =>
            cases h
            rw [hdot _ h4]
            exact ⟨_, _, _, rfl, hw _ h1, hw _ h2, hw _ h3⟩

/-- The optional parts match nothing, or something that holds their
mark. -/
theorem auth_cases (hf : FoldOK orbit) {x : List Char} (h : Matches orbit authRe [] x []) :
    x = [] ∨ '@' ∈ x := by
  rw [authRe, matches_opt_iff] at h
  rcases h with h | h
  · right
    obtain ⟨c, hc, hm⟩ := mustHave_sound hf ['@'] h (by decide)
    simp only [List.mem_singleton] at hm
    exact hm ▸ hc
  · exact Or.inl h

theorem port_cases (hf : FoldOK orbit) {x : List Char} (h : Matches orbit portRe [] x []) :
    x = [] ∨ ∃ y, x = ':' :: y ∧ Matches orbit (.counted (.chr digitCls) 2 (some 5)) [':'] y [] := by
  rw [portRe, matches_opt_iff] at h
  rcases h with h | h
  · right
    rw [matches_cat_iff] at h
    obtain ⟨a, y, rfl, ha, hy⟩ := h
    obtain ⟨c, rfl, hc⟩ := (matches_lit_iff hf ':').1 ha
    have e : asciiFold ':' = [':'] := by decide
    have := (hf.ascii ':' (by decide) c).1 hc
    rw [e] at this
    simp only [List.mem_singleton] at this
    subst this
    exact ⟨y, rfl, by simpa using hy⟩
  · exact Or.inl h

theorem path_cases (hf : FoldOK orbit) (p ap : Bool) {x : List Char}
    (h : Matches orbit (pathRe p ap) [] x []) :
    x = [] ∨ ∃ c y, x = c :: y ∧ c ∈ ['/', '?', '#'] := by
  rw [pathRe, matches_opt_iff] at h
  rcases h with h | h
  · right
    rw [matches_cat_iff] at h
    obtain ⟨a, y, rfl, ha, _⟩ := h
    obtain ⟨c, rfl, hc⟩ := matches_chr_iff.1 ha
    exact ⟨c, y, rfl, within_sound hf _ _ c (by decide) hc⟩
  · exact Or.inl h

end Pieces
/-! ## Letters, digits and the characters that folding leaves alone -/

section Letters

set_option maxRecDepth 100000

variable {orbit : Char → List Char}

theorem isAlpha_lt (c : Char) (h : c.isAlpha = true) : c.toNat < 128 := by
  simp only [Char.isAlpha, Char.isUpper, Char.isLower, Bool.or_eq_true, Bool.and_eq_true,
    decide_eq_true_eq] at h
  rcases h with ⟨_, h⟩ | ⟨_, h⟩
  · have h' : c.val.toNat ≤ (90 : UInt32).toNat := h
    have : (90 : UInt32).toNat = 90 := rfl
    show c.val.toNat < 128
    omega
  · have h' : c.val.toNat ≤ (122 : UInt32).toNat := h
    have : (122 : UInt32).toNat = 122 := rfl
    show c.val.toNat < 128
    omega

theorem isDigit_lt (c : Char) (h : c.isDigit = true) : c.toNat < 128 := by
  simp only [Char.isDigit, Bool.and_eq_true, decide_eq_true_eq] at h
  have h' : c.val.toNat ≤ (57 : UInt32).toNat := h.2
  have : (57 : UInt32).toNat = 57 := rfl
  show c.val.toNat < 128
  omega

theorem asciiFold_nonLetter_table :
    ∀ n : Fin 128, (Char.ofNat n.val).isAlpha = false →
      asciiFold (Char.ofNat n.val) = [Char.ofNat n.val] := by
  decide!

theorem asciiFold_nonLetter (d : Char) (hd : nonLetterAscii d = true) : asciiFold d = [d] := by
  simp only [nonLetterAscii, Bool.and_eq_true, decide_eq_true_eq, Bool.not_eq_true'] at hd
  exact ascii_cases (fun c => c.isAlpha = false → asciiFold c = [c]) asciiFold_nonLetter_table d
    hd.1 hd.2

/-- An ASCII character that is no letter is alone in its orbit. -/
theorem eq_of_mem_orbit_nonLetter (hf : FoldOK orbit) (d : Char) (hd : nonLetterAscii d = true)
    (a : Char) (h : d ∈ orbit a) : a = d := by
  have hlt : d.toNat < 128 := by
    simp only [nonLetterAscii, Bool.and_eq_true, decide_eq_true_eq] at hd
    exact hd.1
  have h1 : a ∈ orbit d := hf.symm a d h
  have h2 := (hf.ascii d hlt a).1 h1
  rw [asciiFold_nonLetter d hd] at h2
  simpa using h2

theorem letter_not_nonLetter (a : Char) (h : letter a = true) : nonLetterAscii a = false := by
  simp only [letter, Bool.or_eq_true, decide_eq_true_eq] at h
  simp only [nonLetterAscii, Bool.and_eq_false_imp, decide_eq_true_eq, Bool.not_eq_false']
  intro hlt
  rcases h with h | h
  · exact h
  · omega

theorem toLower_table :
    ∀ n : Fin 128, (Char.ofNat n.val).isAlpha = true →
      ∀ c ∈ asciiFold (Char.ofNat n.val), c.isAlpha = true →
        c.toLower = (Char.ofNat n.val).toLower := by
  decide!

/-- An ASCII letter in the orbit of an ASCII letter is the same letter up to
case. -/
theorem toLower_eq_of_mem_orbit (hf : FoldOK orbit) (a c : Char) (ha : a.isAlpha = true)
    (hc : c.isAlpha = true) (h : c ∈ orbit a) : c.toLower = a.toLower := by
  have hlt := isAlpha_lt a ha
  have h2 := (hf.ascii a hlt c).1 h
  exact ascii_cases
    (fun a => a.isAlpha = true → ∀ c ∈ asciiFold a, c.isAlpha = true → c.toLower = a.toLower)
    toLower_table a hlt ha c h2 hc

theorem avoids_lit (d a : Char) (hd : nonLetterAscii d = true) (h : a ≠ d) :
    avoids d (.lit a true) = true := by
  simp only [avoids, Regex.lit, CharClass.test, if_true, asciiFold_nonLetter d hd,
    List.any_cons, List.any_nil, Bool.or_false, CharClass.hit, Bool.xor_false,
    Bool.not_eq_true', Bool.and_eq_false_imp, decide_eq_true_eq, decide_eq_false_iff_not]
  intro h1 h2
  exact h (Char.le_antisymm h1 h2)

theorem avoids_wordRe (d : Char) (hd : nonLetterAscii d = true) (w : List Char) (h : d ∉ w) :
    avoids d (wordRe w) = true := by
  induction w with
  | nil => rfl
  | cons a w ih =>
    simp only [List.mem_cons, not_or] at h
    cases w with
    | nil => exact avoids_lit d a hd (fun e => h.1 e.symm)
    | cons b w =>
      have e : wordRe (a :: b :: w) = .cat (.lit a true) (wordRe (b :: w)) := rfl
      rw [e]
      show (avoids d (.lit a true) && avoids d (wordRe (b :: w))) = true
      rw [avoids_lit d a hd (fun e => h.1 e.symm), ih h.2]
      rfl

theorem avoids_tldAltRe (d : Char) (hd : nonLetterAscii d = true) (ts : List String)
    (h : ∀ t ∈ ts, d ∉ t.data) : avoids d (tldAltRe ts) = true := by
  induction ts with
  | nil => rfl
  | cons t ts ih =>
    cases ts with
    | nil => exact avoids_wordRe d hd _ (h t (List.mem_cons_self _ _))
    | cons t' ts =>
      have e : tldAltRe (t :: t' :: ts) = .alt (wordRe t.data) (tldAltRe (t' :: ts)) := rfl
      rw [e]
      show (avoids d (wordRe t.data) && avoids d (tldAltRe (t' :: ts))) = true
      rw [avoids_wordRe d hd _ (h t (List.mem_cons_self _ _)),
        ih (fun u hu => h u (List.mem_cons_of_mem _ hu))]
      rfl

theorem avoids_genericRe (d : Char) (t : Regex) (ht : avoids d t = true)
    (hp : hostPartsAvoid d = true) (tp : Bool) : avoids d (genericRe t tp) = true := by
  simp only [hostPartsAvoid, Bool.and_eq_true] at hp
  obtain ⟨⟨⟨⟨⟨_, _⟩, _⟩, hh⟩, hd⟩, hdot⟩ := hp
  unfold genericRe
  generalize hostRe = rh at hh ⊢
  generalize domainRe = rd at hd ⊢
  generalize Regex.lit '.' true = dot at hdot ⊢
  cases tp <;>
    simp only [Bool.false_eq_true, if_false, if_true, List.append_nil, List.cons_append,
      List.nil_append, catList, avoids, Regex.opt, hh, hd, hdot, ht, Bool.and_self]

theorem avoids_hostGroupRe (d : Char) (t : Regex) (ht : avoids d t = true)
    (hp : hostPartsAvoid d = true) (l i4 i6 tp : Bool) :
    avoids d (hostGroupRe t l i4 i6 tp) = true := by
  have hg := avoids_genericRe d t ht hp tp
  simp only [hostPartsAvoid, Bool.and_eq_true] at hp
  obtain ⟨⟨⟨⟨⟨hl, h4⟩, h6⟩, _⟩, _⟩, _⟩ := hp
  unfold hostGroupRe
  generalize genericRe t tp = g at hg ⊢
  generalize v4Re = r4 at h4 ⊢
  generalize v6Re = r6 at h6 ⊢
  generalize wordRe "localhost".data = rl at hl ⊢
  cases l <;> cases i4 <;> cases i6 <;>
    simp only [Bool.false_eq_true, if_false, if_true, List.nil_append,
      List.cons_append, altList, avoids, hg, h4, h6, hl, Bool.and_self]

theorem avoids_tldRe (opt : option) (d : Char) (hd : nonLetterAscii d = true)
    (hds : avoids d strictTldRe = true) (h : ∀ t ∈ opt.tlds, d ∉ t.data) :
    avoids d (if opt.strict then strictTldRe else tldAltRe (sortedTlds opt)) = true := by
  split
  · exact hds
  · exact avoids_tldAltRe d hd _ (fun t ht => h t ((mem_sortedTlds opt t).1 ht))

theorem avoids_patternTree (d : Char) (t : Regex) (ht : avoids d t = true)
    (hp : hostPartsAvoid d = true) (ho : outerPartsAvoid d = true)
    (e s a l p ap tp i4 i6 : Bool) :
    avoids d (patternTree t e s a l p ap tp i4 i6) = true := by
  have hh := avoids_hostGroupRe d t ht hp l i4 i6 tp
  simp only [outerPartsAvoid, Bool.and_eq_true] at ho
  obtain ⟨⟨⟨⟨⟨⟨⟨p1, p2⟩, pa⟩, pq⟩, w1⟩, w2⟩, w3⟩, w4⟩ := ho
  have hproto : avoids d (protoRe s) = true := by cases s <;> assumption
  have hpath : avoids d (pathRe p ap) = true := by cases p <;> cases ap <;> assumption
  unfold patternTree bodyRes
  generalize hostGroupRe t l i4 i6 tp = g at hh ⊢
  generalize protoRe s = r1 at hproto ⊢
  generalize pathRe p ap = r5 at hpath ⊢
  generalize authRe = r2 at pa ⊢
  generalize portRe = r4 at pq ⊢
  cases e <;> cases a <;>
    simp only [Bool.false_eq_true, if_false, if_true, List.nil_append, List.append_nil,
      List.cons_append, catList, avoids, hh, hproto, hpath, pa, pq, Bool.and_self]

end Letters
/-! ## The claims -/

section Claims

set_option maxRecDepth 100000

variable {orbit : Char → List Char}

/-- C1: without the strict mode, the sequence that `New` joins with `|` into
the TLD alternation of the pattern is a permutation of the configured list
(same entries, same multiplicities), and it is in non-increasing order of
code-point count, so that a longer TLD stands before every shorter one. -/
theorem C1_joined_tlds_sorted_permutation (opt : option) (h : opt.strict = false) :
    tld opt = "(?:\\." ++ ("(?:" ++ Join (sortedTlds opt) "|" ++ ")") ++ ")" ++
        (if opt.trailingPeriod then "\\.?" else "") ∧
      (sortedTlds opt).Perm opt.tlds ∧
      (sortedTlds opt).Pairwise (fun a b => runeCount b ≤ runeCount a) := by
  refine ⟨?_, SliceStable_perm tldLess opt.tlds, ?_⟩
  · simp [tld, h]
  · exact SliceStable_pairwise runeCount opt.tlds

theorem C1_witness :
    testConfig.strict = false ∧
      (sortedTlds testConfig).Perm testConfig.tlds ∧
      (sortedTlds testConfig).Pairwise (fun a b => runeCount b ≤ runeCount a) :=
  ⟨rfl, (C1_joined_tlds_sorted_permutation testConfig rfl).2⟩

/-- Without the strict mode the pattern matches `example.`, a TLD of the list
and, when the configuration allows it, a trailing period. -/
theorem example_tld_matches (hf : FoldOK orbit) (opt : option)
    (hs : opt.strict = false)
    (hl : ∀ t ∈ opt.tlds, ∀ c ∈ t.data, letterOrDigit c = true)
    (t : String) (ht : t ∈ opt.tlds) (u : List Char)
    (hu : u = [] ∨ (opt.trailingPeriod = true ∧ u = ['.'])) (s : String)
    (hsd : s.data = "example.".data ++ (t.data ++ u)) :
    PatternMatches orbit (pattern opt) s = true := by
  rw [PatternMatches_iff opt (fun _ u hu c hc => letterOrDigit_plain c (hl u hu c hc))]
  refine ⟨[], s.data, [], by simp, ?_⟩
  rw [patternRe, hs]
  apply patternTree_of_host _ (by simpa [hs] using anchorFree_tldRe opt)
  rw [matches_hostGroupRe_iff]
  right; right; right
  have hne : sortedTlds opt ≠ [] := by
    intro e
    have := (mem_sortedTlds opt t).2 ht
    rw [e] at this
    cases this
  have hx : Matches orbit hostRe [] "example".data [] :=
    matches_of_matchWhole hf _ _ (by decide) (by decide!)
  have hz : Matches orbit (tldAltRe (sortedTlds opt)) [] t.data [] :=
    (matches_tldAltRe_iff hf _ hne).2 ⟨t, (mem_sortedTlds opt t).2 ht, forall₂_self _ hf⟩
  have := genericRe_of_parts hf (tldAltRe (sortedTlds opt)) (anchorFree_tldAltRe _)
    opt.trailingPeriod "example".data [] t.data u hx (Matches.starNil _ _ _)
    hz hu [] []
  rw [hsd]
  simpa using this

/-- C2: without the strict mode and whatever the other flags are, if the
entries of the TLD list consist of letters and digits, the pattern matches
`"example." + tld` for every `tld` of the list (a list with such a `tld` is
not empty). -/
theorem C2_example_dot_tld_matches (hf : FoldOK orbit) (opt : option)
    (hs : opt.strict = false)
    (hl : ∀ t ∈ opt.tlds, ∀ c ∈ t.data, letterOrDigit c = true)
    (t : String) (ht : t ∈ opt.tlds) :
    PatternMatches orbit (pattern opt) ("example." ++ t) = true :=
  example_tld_matches hf opt hs hl t ht [] (Or.inl rfl) _ (by simp [String.data_append])

theorem C2_witness :
    PatternMatches asciiFold (pattern testConfig) ("example." ++ "com") = true :=
  C2_example_dot_tld_matches asciiFold_ok testConfig rfl (by decide) "com" (by decide)

/-- C6: in the strict mode the pattern does not depend on the TLD list: two
configurations that agree on every flag produce the same pattern string, and
the TLD position is filled by the class of two or more characters. -/
theorem C6_strict_pattern_ignores_tlds (o1 o2 : option) (hs : o1.strict = true)
    (h1 : o1.exact = o2.exact) (h2 : o1.strict = o2.strict) (h3 : o1.auth = o2.auth)
    (h4 : o1.localhost = o2.localhost) (h5 : o1.parens = o2.parens)
    (h6 : o1.apostrophes = o2.apostrophes) (h7 : o1.trailingPeriod = o2.trailingPeriod)
    (h8 : o1.ipv4 = o2.ipv4) (h9 : o1.ipv6 = o2.ipv6) :
    pattern o1 = pattern o2 ∧
      tld o1 = "(?:\\." ++ "(?:[a-z\\u00a1-\\uffff]\x7b2,\x7d)" ++ ")" ++
        (if o1.trailingPeriod then "\\.?" else "") := by
  have hs2 : o2.strict = true := h2 ▸ hs
  constructor
  · simp only [pattern, regexRaw, regexBody, regexHead, tld, protocol, auth, path, hs, hs2,
      ← h1, ← h3, ← h4, ← h5, ← h6, ← h7, ← h8, ← h9, if_true]
  · simp [tld, hs]

theorem C6_witness :
    pattern { testConfig with strict := true } =
      pattern { testConfig with strict := true, tlds := ["org"] } :=
  (C6_strict_pattern_ignores_tlds { testConfig with strict := true }
    { testConfig with strict := true, tlds := ["org"] } rfl rfl rfl rfl rfl rfl rfl rfl rfl
    rfl).1

theorem space_facts :
    ∀ d ∈ [' ', Char.ofNat 9, Char.ofNat 10, Char.ofNat 12, Char.ofNat 13],
      nonLetterAscii d = true ∧ letterOrDigit d = false ∧ avoids d strictTldRe = true ∧
        hostPartsAvoid d = true ∧ outerPartsAvoid d = true := by
  decide!

/-- C4: in the exact mode, with TLD entries of letters and digits, no string
that contains an ASCII space, tab, newline, form feed or carriage return is
matched; in particular `"prefix " + u + " suffix"` is matched for no `u`. -/
theorem C4_exact_rejects_white_space (hf : FoldOK orbit) (opt : option)
    (he : opt.exact = true)
    (hl : ∀ t ∈ opt.tlds, ∀ c ∈ t.data, letterOrDigit c = true) :
    (∀ s : String, (∃ c ∈ s.data, asciiSpace c = true) →
        PatternMatches orbit (pattern opt) s = false) ∧
      (∀ u : String, PatternMatches orbit (pattern opt) ("prefix " ++ u ++ " suffix") = false) := by
  have main : ∀ s : String, (∃ c ∈ s.data, asciiSpace c = true) →
      PatternMatches orbit (pattern opt) s = false := by
    intro s ⟨d, hd, hsp⟩
    rw [PatternMatches_false_iff opt (fun _ u hu c hc => letterOrDigit_plain c (hl u hu c hc))]
    intro pre m post hs hm
    have hmem : d ∈ [' ', Char.ofNat 9, Char.ofNat 10, Char.ofNat 12, Char.ofNat 13] := by
      simpa [asciiSpace] using hsp
    obtain ⟨f1, f2, f3, f4, f5⟩ := space_facts d hmem
    have hctx := (matches_patternTree _ (anchorFree_tldRe opt) _ _ _ _ _ _ _ _ _ hm).1 he
    obtain ⟨rfl, rfl⟩ := hctx
    have hav : avoids d (patternRe opt) = true := by
      apply avoids_patternTree d _ _ f4 f5
      apply avoids_tldRe opt d f1 f3
      intro t ht hdt
      have := hl t ht d hdt
      rw [f2] at this
      cases this
    have hlt : d.toNat < 128 := by
      simp only [nonLetterAscii, Bool.and_eq_true, decide_eq_true_eq] at f1
      exact f1.1
    have := avoids_sound hf d hlt hm hav
    apply this
    simp only [List.nil_append, List.append_nil] at hs
    rw [← hs]
    exact hd
  refine ⟨main, fun u => main _ ⟨' ', ?_, by decide⟩⟩
  simp [String.data_append]

theorem C4_witness :
    PatternMatches asciiFold (pattern testConfig) ("prefix " ++ "example.com" ++ " suffix") =
      false :=
  (C4_exact_rejects_white_space asciiFold_ok testConfig rfl (by decide)).2 "example.com"

/-- C5: in the strict mode every text in which the pattern finds a match
contains `//`, or contains `www.` in some letter case; the bare domain
`foo.com` is not matched. -/
theorem C5_strict_needs_slashes_or_www (hf : FoldOK orbit) (opt : option)
    (hs : opt.strict = true) :
    (∀ s : String, PatternMatches orbit (pattern opt) s = true →
        "//".data <:+: s.data ∨ "www.".data <:+: s.data.map Char.toLower) ∧
      PatternMatches orbit (pattern opt) "foo.com" = false := by
  have hplain : opt.strict = false → ∀ t ∈ opt.tlds, ∀ c ∈ t.data, plainChar c = true := by
    intro h; rw [hs] at h; cases h
  have main : ∀ s : String, PatternMatches orbit (pattern opt) s = true →
      "//".data <:+: s.data ∨ "www.".data <:+: s.data.map Char.toLower := by
    intro s h
    rw [PatternMatches_iff opt hplain] at h
    obtain ⟨pre, m, post, hsd, hm⟩ := h
    obtain ⟨_, x1, x2, x3, x4, x5, rfl, h1, _⟩ :=
      matches_patternTree _ (anchorFree_tldRe opt) _ _ _ _ _ _ _ _ _ hm
    rw [hs] at h1
    rcases proto_cases hf true h1 with ⟨h, _⟩ | ⟨y, rfl⟩ | ⟨c1, c2, c3, rfl, m1, m2, m3⟩
    · cases h
    · left
      refine ⟨pre ++ y, x2 ++ (x3 ++ (x4 ++ x5)) ++ post, ?_⟩
      rw [hsd]
      simp [List.append_assoc]
    · right
      refine ⟨pre.map Char.toLower, (x2 ++ (x3 ++ (x4 ++ x5)) ++ post).map Char.toLower, ?_⟩
      rw [hsd]
      have e : ∀ c ∈ ['w', 'W'], c.toLower = 'w' := by decide
      have e1 := e c1 m1
      have e2 := e c2 m2
      have e3 := e c3 m3
      have e4 : Char.toLower '.' = '.' := by decide
      simp [List.map_append, e1, e2, e3, e4]
  refine ⟨main, ?_⟩
  rw [← Bool.not_eq_true]
  intro h
  rcases main "foo.com" h with h | h
  · revert h; decide
  · revert h; decide

theorem C5_witness :
    PatternMatches asciiFold (pattern { testConfig with strict := true }) "foo.com" = false :=
  (C5_strict_needs_slashes_or_www asciiFold_ok { testConfig with strict := true } rfl).2

end Claims
section Claims

set_option maxRecDepth 100000

variable {orbit : Char → List Char}

theorem v4_avoids_letters :
    ∀ n : Fin 128, (Char.ofNat n.val).isAlpha = true → avoids (Char.ofNat n.val) v4Re = true := by
  decide!

theorem mem_of_append_eq_append_singleton {a b z : List Char} {c : Char}
    (h : a ++ z = b ++ [c]) (hz : z ≠ []) : c ∈ z := by
  rcases List.append_eq_append_iff.1 h with ⟨a', _, h2⟩ | ⟨c', _, h2⟩
  · rw [h2]; simp
  · cases c' with
    | nil =>
      simp only [List.nil_append] at h2
      rw [← h2]; simp
    | cons d c' =>
      simp only [List.cons_append, List.cons.injEq] at h2
      have := h2.2
      have hz' : z = [] := (List.nil_eq_append_iff.1 this).2
      exact absurd hz' hz

/-- A character that is no letter does not occur in a match of a word of
letters. -/
theorem not_mem_of_forall₂ (hf : FoldOK orbit) (d : Char) (hd : nonLetterAscii d = true)
    {w z : List Char} (h : List.Forall₂ (fun a c => c ∈ orbit a) w z)
    (hw : ∀ a ∈ w, letter a = true) : d ∉ z := by
  induction h with
  | nil => simp
  | @cons a c w z hc _ ih =>
    simp only [List.mem_cons, not_or]
    constructor
    · intro e
      rw [← e] at hc
      have := eq_of_mem_orbit_nonLetter hf d hd a hc
      have h1 := hw a (List.mem_cons_self _ _)
      have h2 := letter_not_nonLetter a h1
      rw [this, hd] at h2
      cases h2
    · exact ih (fun b hb => hw b (List.mem_cons_of_mem _ hb))

theorem forall₂_length {w z : List Char} (h : List.Forall₂ (fun a c => c ∈ orbit a) w z) :
    z = [] → w = [] := by
  intro hz
  cases h with
  | nil => rfl
  | cons _ _ => cases hz

/-- A text of ASCII letters and periods that starts with a letter other than
`w` is matched in the exact mode only through the generic alternative. -/
theorem exact_word_generic (hf : FoldOK orbit) (t : Regex) (ht : anchorFree t = true)
    (s a l p ap tp i4 i6 : Bool) (c0 : Char) (rest pre post : List Char)
    (hc0 : c0.isAlpha = true) (hw : c0 ≠ 'w' ∧ c0 ≠ 'W')
    (hall : ∀ c ∈ c0 :: rest, c.isAlpha = true ∨ c = '.') (hdot : '.' ∈ c0 :: rest)
    (hm : Matches orbit (patternTree t true s a l p ap tp i4 i6) pre (c0 :: rest) post) :
    Matches orbit (genericRe t tp) [] (c0 :: rest) [] := by
  obtain ⟨_, x1, x2, x3, x4, x5, hs, h1, h2, h3, h4, h5⟩ :=
    matches_patternTree t ht _ _ _ _ _ _ _ _ _ hm
  have hno : ∀ c, c ∈ c0 :: rest → c.isAlpha = false → c ≠ '.' → False := by
    intro c hc h1 h2
    rcases hall c hc with h | h
    · rw [h1] at h; cases h
    · exact h2 h
  have e1 : x1 = [] := by
    rcases proto_cases hf s h1 with ⟨_, h⟩ | ⟨y, rfl⟩ | ⟨c1, c2, c3, rfl, m1, _, _⟩
    · exact h
    · exact (hno '/' (by rw [hs]; simp) (by decide) (by decide)).elim
    · exfalso
      simp only [List.cons_append, List.cons.injEq] at hs
      rw [← hs.1] at m1
      simp only [List.mem_cons, List.mem_singleton, List.not_mem_nil, or_false] at m1
      rcases m1 with m1 | m1
      · exact hw.1 m1
      · exact hw.2 m1
  have e2 : x2 = [] := by
    rcases h2 with h | ⟨_, h⟩
    · exact h
    · rcases auth_cases hf h with h | h
      · exact h
      · exact (hno '@' (by rw [hs]; simp [h]) (by decide) (by decide)).elim
  have e4 : x4 = [] := by
    rcases port_cases hf h4 with h | ⟨y, rfl, _⟩
    · exact h
    · exact (hno ':' (by rw [hs]; simp) (by decide) (by decide)).elim
  have e5 : x5 = [] := by
    rcases path_cases hf p ap h5 with h | ⟨c, y, rfl, hc⟩
    · exact h
    · exfalso
      have hmem : c ∈ c0 :: rest := by rw [hs]; simp
      simp only [List.mem_cons, List.mem_singleton, List.not_mem_nil, or_false] at hc
      rcases hc with rfl | rfl | rfl
      · exact hno _ hmem (by decide) (by decide)
      · exact hno _ hmem (by decide) (by decide)
      · exact hno _ hmem (by decide) (by decide)
  subst e1 e2 e4 e5
  simp only [List.nil_append, List.append_nil] at hs
  subst hs
  rcases (matches_hostGroupRe_iff t l i4 i6 tp).1 h3 with ⟨_, h⟩ | ⟨_, h⟩ | ⟨_, h⟩ | h
  · exact absurd hdot (avoids_sound hf '.' (by decide) h (by decide!))
  · have hlt := isAlpha_lt c0 hc0
    have hav : avoids c0 v4Re = true :=
      ascii_cases (fun c => c.isAlpha = true → avoids c v4Re = true) v4_avoids_letters c0 hlt hc0
    exact absurd (List.mem_cons_self _ _) (avoids_sound hf c0 hlt h hav)
  · obtain ⟨c, hc, hcm⟩ := mustHave_sound hf [':'] h (by decide!)
    simp only [List.mem_singleton] at hcm
    subst hcm
    exact (hno _ hc (by decide) (by decide)).elim
  · exact h

/-- Two words of ASCII letters, one matching the other, are equal up to
case. -/
theorem map_toLower_of_forall₂ (hf : FoldOK orbit) {w z : List Char}
    (h : List.Forall₂ (fun a c => c ∈ orbit a) w z) (hw : ∀ a ∈ w, a.isAlpha = true)
    (hz : ∀ c ∈ z, c.isAlpha = true) : w.map Char.toLower = z.map Char.toLower := by
  induction h with
  | nil => rfl
  | @cons a c w z hc _ ih =>
    simp only [List.map_cons, List.cons.injEq]
    exact ⟨(toLower_eq_of_mem_orbit hf a c (hw a (List.mem_cons_self _ _))
      (hz c (List.mem_cons_self _ _)) hc).symm,
      ih (fun b hb => hw b (List.mem_cons_of_mem _ hb))
        (fun b hb => hz b (List.mem_cons_of_mem _ hb))⟩

/-- A match of the TLD alternation is empty, or it matches an entry of the
list character by character. -/
theorem matches_tldAltRe_cases (hf : FoldOK orbit) (ts : List String) {pre z post : List Char}
    (h : Matches orbit (tldAltRe ts) pre z post) :
    z = [] ∨ ∃ t ∈ ts, List.Forall₂ (fun a c => c ∈ orbit a) t.data z := by
  cases ts with
  | nil =>
    left
    exact matches_empty_iff.1 h
  | cons t ts => exact Or.inr ((matches_tldAltRe_iff hf _ (by simp)).1 h)

theorem data_ne_nil (t : String) (h : t ≠ "") : t.data ≠ [] := by
  intro e
  apply h
  exact String.ext e

/-- The core of C3 and C10: in the exact mode a text `label.t` or `label.t.`
of ASCII letters is matched only if `t` is, up to case, an entry of the TLD
list and a trailing period is allowed by the configuration. -/
theorem exact_label_tld (hf : FoldOK orbit) (opt : option) (hs : opt.strict = false)
    (he : opt.exact = true)
    (hl : ∀ t ∈ opt.tlds, t ≠ "" ∧ ∀ c ∈ t.data, c.isAlpha = true)
    (c0 : Char) (label t u : List Char) (hc0 : c0.isAlpha = true) (hw : c0 ≠ 'w' ∧ c0 ≠ 'W')
    (hlab : ∀ c ∈ label, c.isAlpha = true) (ht : ∀ c ∈ t, c.isAlpha = true) (htne : t ≠ [])
    (hu : u = [] ∨ (u = ['.'] ∧ opt.tlds ≠ []))
    (pre post : List Char)
    (hm : Matches orbit (patternRe opt) pre (c0 :: label ++ '.' :: (t ++ u)) post) :
    (∃ e ∈ opt.tlds, e.data.map Char.toLower = t.map Char.toLower) ∧
      (u = ['.'] → opt.trailingPeriod = true) := by
  have hdotAlpha : ('.' : Char).isAlpha = false := by decide
  have hall : ∀ c ∈ c0 :: label ++ '.' :: (t ++ u), c.isAlpha = true ∨ c = '.' := by
    intro c hc
    simp only [List.cons_append, List.mem_cons, List.mem_append] at hc
    rcases hc with rfl | hc | rfl | hc | hc
    · exact Or.inl hc0
    · exact Or.inl (hlab c hc)
    · exact Or.inr rfl
    · exact Or.inl (ht c hc)
    · rcases hu with rfl | ⟨rfl, _⟩
      · cases hc
      · right; simpa using hc
  have hdott : '.' ∉ t := by
    intro h
    have := ht _ h
    rw [hdotAlpha] at this
    cases this
  have hdotl : '.' ∉ c0 :: label := by
    intro h
    rcases List.mem_cons.1 h with h | h
    · rw [← h, hdotAlpha] at hc0; cases hc0
    · have := hlab _ h
      rw [hdotAlpha] at this
      cases this
  rw [patternRe, hs, he] at hm
  simp only [Bool.false_eq_true, if_false] at hm
  have hg := exact_word_generic hf _ (anchorFree_tldAltRe _) _ _ _ _ _ _ _ _ c0 _ pre post hc0 hw
    hall (by simp) hm
  obtain ⟨x, y, z, v, hsplit, _, _, hz, hv⟩ :=
    matches_genericRe hf _ (anchorFree_tldAltRe _) _ hg
  rw [← List.append_assoc] at hsplit
  have hzcases := matches_tldAltRe_cases hf _ hz
  have hzdot : '.' ∉ z := by
    rcases hzcases with rfl | ⟨e, hemem, hfa⟩
    · simp
    · exact not_mem_of_forall₂ hf '.' (by decide) hfa
        (fun a ha => isAlpha_letter a ((hl e ((mem_sortedTlds opt e).1 hemem)).2 a ha))
  have core : c0 :: label ++ '.' :: t = x ++ y ++ '.' :: z →
      ∃ e ∈ opt.tlds, e.data.map Char.toLower = t.map Char.toLower := by
    intro h
    have hzt := ((List.append_cons_inj_of_not_mem hdotl hdott).1 h).2.2
    subst hzt
    rcases hzcases with rfl | ⟨e, hemem, hfa⟩
    · exact absurd rfl htne
    · exact ⟨e, (mem_sortedTlds opt e).1 hemem,
        map_toLower_of_forall₂ hf hfa (hl e ((mem_sortedTlds opt e).1 hemem)).2 ht⟩
  rcases hu with rfl | ⟨rfl, hne⟩
  · simp only [List.append_nil] at hsplit
    rcases hv with rfl | ⟨_, rfl⟩
    · simp only [List.append_nil] at hsplit
      exact ⟨core hsplit, fun h => by cases h⟩
    · exfalso
      have h2 := ((List.append_cons_inj_of_not_mem hdotl hdott).1 hsplit).2.2
      apply hdott
      rw [h2]
      simp
  · rcases hv with rfl | ⟨htp, rfl⟩
    · exfalso
      simp only [List.append_nil] at hsplit
      have hzne : z ≠ [] := by
        have hsne : sortedTlds opt ≠ [] := by
          intro e
          apply hne
          have := SliceStable_perm tldLess opt.tlds
          rw [show SliceStable tldLess opt.tlds = sortedTlds opt from rfl, e] at this
          exact (List.Perm.nil_eq this).symm
        obtain ⟨e, hemem, hfa⟩ := (matches_tldAltRe_iff hf _ hsne).1 hz
        intro hz0
        exact data_ne_nil e (hl e ((mem_sortedTlds opt e).1 hemem)).1 (forall₂_length hfa hz0)
      have h2 : (x ++ y ++ ['.']) ++ z = (c0 :: label ++ '.' :: t) ++ ['.'] := by
        simpa [List.append_assoc] using hsplit.symm
      exact hzdot (mem_of_append_eq_append_singleton h2 hzne)
    · have h2 : (c0 :: label ++ '.' :: t) ++ ['.'] = (x ++ y ++ '.' :: z) ++ ['.'] := by
        simpa [List.append_assoc] using hsplit
      exact ⟨core (List.append_cancel_right h2), fun _ => htp⟩

theorem isAlpha_plain (c : Char) (h : c.isAlpha = true) : letterOrDigit c = true :=
  letter_letterOrDigit c (isAlpha_letter c h)

/-- In the exact mode a match is the whole text. -/
theorem exact_whole (opt : option) (he : opt.exact = true) {pre m post : List Char}
    (hm : Matches orbit (patternRe opt) pre m post) : pre = [] ∧ post = [] :=
  (matches_patternTree _ (anchorFree_tldRe opt) _ _ _ _ _ _ _ _ _ hm).1 he

/-- C3: without the strict mode and in the exact mode, with TLD entries that
are non-empty strings of ASCII letters, the pattern matches neither
`"example." + t` nor `"foo." + t` when `t` is a non-empty string of ASCII
letters that equals no configured TLD, even with letter case ignored. -/
theorem C3_unlisted_tld_rejected (hf : FoldOK orbit) (opt : option)
    (hs : opt.strict = false) (he : opt.exact = true)
    (hl : ∀ e ∈ opt.tlds, e ≠ "" ∧ ∀ c ∈ e.data, c.isAlpha = true)
    (t : String) (htne : t ≠ "") (htl : ∀ c ∈ t.data, c.isAlpha = true)
    (hno : ∀ e ∈ opt.tlds, e.data.map Char.toLower ≠ t.data.map Char.toLower) :
    PatternMatches orbit (pattern opt) ("example." ++ t) = false ∧
      PatternMatches orbit (pattern opt) ("foo." ++ t) = false := by
  have hplain : opt.strict = false → ∀ e ∈ opt.tlds, ∀ c ∈ e.data, plainChar c = true :=
    fun _ e hemem c hc => letterOrDigit_plain c (isAlpha_plain c ((hl e hemem).2 c hc))
  have main : ∀ (c0 : Char) (label : List Char), c0.isAlpha = true → (c0 ≠ 'w' ∧ c0 ≠ 'W') →
      (∀ c ∈ label, c.isAlpha = true) → ∀ s : String,
      s.data = c0 :: label ++ '.' :: (t.data ++ []) →
      PatternMatches orbit (pattern opt) s = false := by
    intro c0 label h0 hw hlab s hsd
    rw [PatternMatches_false_iff opt hplain]
    intro pre m post hsplit hm
    obtain ⟨rfl, rfl⟩ := exact_whole opt he hm
    simp only [List.nil_append, List.append_nil] at hsplit
    rw [← hsplit, hsd] at hm
    obtain ⟨⟨e, hemem, heq⟩, _⟩ := exact_label_tld hf opt hs he hl c0 label t.data [] h0 hw hlab
      htl (data_ne_nil t htne) (Or.inl rfl) [] [] hm
    exact hno e hemem heq
  exact ⟨main 'e' "xample".data (by decide) (by decide) (by decide) _
      (by simp [String.data_append]),
    main 'f' "oo".data (by decide) (by decide) (by decide) _ (by simp [String.data_append])⟩

theorem C3_witness :
    PatternMatches asciiFold (pattern testConfig) ("example." ++ "jp") = false ∧
      PatternMatches asciiFold (pattern testConfig) ("foo." ++ "jp") = false :=
  C3_unlisted_tld_rejected asciiFold_ok testConfig rfl rfl (by decide) "jp" (by decide)
    (by decide) (by decide)

/-- C10: without the strict mode and in the exact mode, with TLD entries that
are non-empty strings of ASCII letters, and for a configured TLD `t`: the
text `"example." + t + "."` is matched exactly when `trailingPeriod` is set,
and `"example." + t` is matched whatever `trailingPeriod` is. -/
theorem C10_trailing_period (hf : FoldOK orbit) (opt : option)
    (hs : opt.strict = false) (he : opt.exact = true)
    (hl : ∀ e ∈ opt.tlds, e ≠ "" ∧ ∀ c ∈ e.data, c.isAlpha = true)
    (t : String) (ht : t ∈ opt.tlds) :
    PatternMatches orbit (pattern opt) ("example." ++ t ++ ".") = opt.trailingPeriod ∧
      PatternMatches orbit (pattern opt) ("example." ++ t) = true := by
  have hld : ∀ e ∈ opt.tlds, ∀ c ∈ e.data, letterOrDigit c = true :=
    fun e hemem c hc => isAlpha_plain c ((hl e hemem).2 c hc)
  have hplain : opt.strict = false → ∀ e ∈ opt.tlds, ∀ c ∈ e.data, plainChar c = true :=
    fun _ e hemem c hc => letterOrDigit_plain c (hld e hemem c hc)
  refine ⟨?_, example_tld_matches hf opt hs hld t ht [] (Or.inl rfl) _
    (by simp [String.data_append])⟩
  cases htp : opt.trailingPeriod with
  | true =>
    exact example_tld_matches hf opt hs hld t ht ['.'] (Or.inr ⟨htp, rfl⟩) _
      (by simp [String.data_append])
  | false =>
    rw [PatternMatches_false_iff opt hplain]
    intro pre m post hsplit hm
    obtain ⟨rfl, rfl⟩ := exact_whole opt he hm
    simp only [List.nil_append, List.append_nil] at hsplit
    have hsd : ("example." ++ t ++ ".").data = 'e' :: "xample".data ++ '.' :: (t.data ++ ['.']) := by
      simp [String.data_append]
    rw [← hsplit, hsd] at hm
    have hne : opt.tlds ≠ [] := by
      intro e
      rw [e] at ht
      cases ht
    obtain ⟨_, h2⟩ := exact_label_tld hf opt hs he hl 'e' "xample".data t.data ['.'] (by decide)
      (by decide) (by decide) (hl t ht).2 (data_ne_nil t (hl t ht).1) (Or.inr ⟨rfl, hne⟩) [] [] hm
    have := h2 rfl
    rw [htp] at this
    cases this

theorem C10_witness :
    PatternMatches asciiFold (pattern testConfig) ("example." ++ "com" ++ ".") =
        testConfig.trailingPeriod ∧
      PatternMatches asciiFold (pattern testConfig) ("example." ++ "com") = true :=
  C10_trailing_period asciiFold_ok testConfig rfl rfl (by decide) "com" (by decide)

end Claims
section Claims

set_option maxRecDepth 100000

variable {orbit : Char → List Char}

/-- Every match of the pattern holds a match of the host group. -/
theorem host_piece_of_match (opt : option)
    (hplain : opt.strict = false → ∀ t ∈ opt.tlds, ∀ c ∈ t.data, plainChar c = true)
    (s : String) (h : PatternMatches orbit (pattern opt) s = true) :
    ∃ x, (∀ c ∈ x, c ∈ s.data) ∧
      Matches orbit
        (hostGroupRe (if opt.strict then strictTldRe else tldAltRe (sortedTlds opt))
          opt.localhost opt.ipv4 opt.ipv6 opt.trailingPeriod) [] x [] := by
  rw [PatternMatches_iff opt hplain] at h
  obtain ⟨pre, m, post, hsd, hm⟩ := h
  obtain ⟨_, x1, x2, x3, x4, x5, rfl, _, _, h3, _⟩ :=
    matches_patternTree _ (anchorFree_tldRe opt) _ _ _ _ _ _ _ _ _ hm
  refine ⟨x3, ?_, h3⟩
  intro c hc
  rw [hsd]
  simp [hc]

/-- Without the strict mode a text that the host group matches is matched by
the pattern. -/
theorem match_of_host (opt : option) (hs : opt.strict = false)
    (hplain : ∀ t ∈ opt.tlds, ∀ c ∈ t.data, plainChar c = true) (s : String)
    (h : Matches orbit
      (hostGroupRe (tldAltRe (sortedTlds opt)) opt.localhost opt.ipv4 opt.ipv6
        opt.trailingPeriod) [] s.data []) :
    PatternMatches orbit (pattern opt) s = true := by
  rw [PatternMatches_iff opt (fun _ => hplain)]
  refine ⟨[], s.data, [], by simp, ?_⟩
  rw [patternRe, hs]
  exact patternTree_of_host _ (anchorFree_tldAltRe _) _ _ _ _ _ _ _ _ _ h

/-- C9: without the strict mode, with TLD entries that are strings of
letters, the pattern finds a match in `2606:4700:4700::1111` if and only if
`ipv6` is set. -/
theorem C9_ipv6_literal (hf : FoldOK orbit) (opt : option) (hs : opt.strict = false)
    (hl : ∀ t ∈ opt.tlds, ∀ c ∈ t.data, letter c = true) :
    PatternMatches orbit (pattern opt) "2606:4700:4700::1111" = opt.ipv6 := by
  have hplain : ∀ t ∈ opt.tlds, ∀ c ∈ t.data, plainChar c = true :=
    fun t ht c hc => letterOrDigit_plain c (letter_letterOrDigit c (hl t ht c hc))
  cases h6 : opt.ipv6 with
  | true =>
    apply match_of_host opt hs hplain
    rw [matches_hostGroupRe_iff]
    right; right; left
    exact ⟨h6, matches_of_matchWhole hf _ _ (by decide) (by decide!)⟩
  | false =>
    rw [← Bool.not_eq_true]
    intro h
    obtain ⟨x, hx, hm⟩ := host_piece_of_match opt (fun _ => hplain) _ h
    rw [hs, h6] at hm
    simp only [Bool.false_eq_true, if_false] at hm
    have hchars : ∀ c ∈ "2606:4700:4700::1111".data, c ≠ 'l' ∧ c ≠ 'L' ∧ c ≠ '.' := by decide
    rcases (matches_hostGroupRe_iff _ _ _ _ _).1 hm with ⟨_, h⟩ | ⟨_, h⟩ | ⟨h, _⟩ | h
    · obtain ⟨c, hc, hcm⟩ := mustHave_sound hf ['l', 'L'] h (by decide!)
      have := hchars c (hx c hc)
      simp only [List.mem_cons, List.mem_singleton, List.not_mem_nil, or_false] at hcm
      rcases hcm with rfl | rfl
      · exact this.1 rfl
      · exact this.2.1 rfl
    · obtain ⟨c, hc, hcm⟩ := mustHave_sound hf ['.'] h (by decide!)
      have := hchars c (hx c hc)
      simp only [List.mem_singleton] at hcm
      exact this.2.2 hcm
    · cases h
    · obtain ⟨a, b, z, u, rfl, _⟩ := matches_genericRe hf _ (anchorFree_tldAltRe _) _ h
      exact (hchars '.' (hx '.' (by simp))).2.2 rfl

theorem C9_witness :
    PatternMatches asciiFold (pattern testConfig) "2606:4700:4700::1111" = testConfig.ipv6 :=
  C9_ipv6_literal asciiFold_ok testConfig rfl (by decide)

theorem octet_table :
    ∀ n : Fin 256, matchWhole asciiFold octetRe true (decimal n.val) = true ∧
      ∀ c ∈ decimal n.val, c.isDigit = true := by
  decide!

/-- The octet part matches the decimal numerals of 0 to 255. -/
theorem octet_matches (hf : FoldOK orbit) (n : Nat) (hn : n ≤ 255) (pre post : List Char) :
    Matches orbit octetRe pre (decimal n) post := by
  have h := octet_table ⟨n, by omega⟩
  exact matches_context
    (matches_of_matchWhole hf octetRe _ (fun c hc => isDigit_lt c (h.2 c hc)) h.1)
    (by decide) _ _

theorem v4_matches_quad (hf : FoldOK orbit) (a b c d : Nat) (ha : a ≤ 255) (hb : b ≤ 255)
    (hc : c ≤ 255) (hd : d ≤ 255) : Matches orbit v4Re [] (dottedQuad a b c d).data [] := by
  have hdot : ∀ pre post, Matches orbit (.lit '.' true) pre ['.'] post := fun pre post =>
    (matches_lit_iff hf '.').2 ⟨'.', rfl, hf.self '.'⟩
  have hx : ∀ n, n ≤ 255 → ∀ pre post,
      Matches orbit (.cat (.lit '.' true) octetRe) pre ('.' :: decimal n) post := by
    intro n hn pre post
    exact Matches.cat _ _ pre ['.'] (decimal n) post (hdot _ _) (octet_matches hf n hn _ _)
  have h3 : ∀ pre post, Matches orbit (.cat (.cat (.lit '.' true) octetRe) .empty) pre
      ('.' :: decimal d) post := fun pre post =>
    cat_nil_right (hx d hd _ _) (Matches.empty _ _)
  have h2 : ∀ pre post, Matches orbit
      (.cat (.cat (.lit '.' true) octetRe) (.cat (.cat (.lit '.' true) octetRe) .empty)) pre
      (('.' :: decimal c) ++ ('.' :: decimal d)) post := fun pre post =>
    Matches.cat _ _ _ _ _ _ (hx c hc _ _) (h3 _ _)
  have h1 : ∀ pre post, Matches orbit v4TailRe pre
      (('.' :: decimal b) ++ (('.' :: decimal c) ++ ('.' :: decimal d))) post := fun pre post =>
    cat_nil_right (Matches.cat _ _ _ _ _ _ (hx b hb _ _) (h2 _ _)) (Matches.empty _ _)
  have := Matches.cat octetRe v4TailRe [] (decimal a) _ [] (octet_matches hf a ha _ _) (h1 _ _)
  simpa [v4Re, dottedQuad, List.append_assoc] using this

theorem forall₂_head {w z : List Char} (h : List.Forall₂ (fun a c => c ∈ orbit a) w z)
    (hw : w ≠ []) : ∃ a c w' z', w = a :: w' ∧ z = c :: z' ∧ c ∈ orbit a := by
  cases h with
  | nil => exact absurd rfl hw
  | @cons a c w' z' h0 _ => exact ⟨a, c, w', z', rfl, rfl, h0⟩

theorem digit_table :
    ∀ n : Fin 128, (Char.ofNat n.val).isDigit = true → (Char.ofNat n.val).isAlpha = false := by
  decide!

theorem nonLetter_of_digit_or_dot (c : Char) (h : c.isDigit = true ∨ c = '.') :
    nonLetterAscii c = true ∧ c ≠ 'l' ∧ c ≠ 'L' ∧ c ≠ ':' := by
  rcases h with h | rfl
  · have hlt := isDigit_lt c h
    have ha : c.isAlpha = false :=
      ascii_cases (fun c => c.isDigit = true → c.isAlpha = false) digit_table c hlt h
    refine ⟨by simp [nonLetterAscii, hlt, ha], ?_, ?_, ?_⟩ <;>
      (rintro rfl; revert h; decide)
  · decide

theorem quad_chars (a b c d : Nat) (ha : a ≤ 255) (hb : b ≤ 255) (hc : c ≤ 255) (hd : d ≤ 255) :
    ∀ x ∈ (dottedQuad a b c d).data, x.isDigit = true ∨ x = '.' := by
  have h : ∀ n, n ≤ 255 → ∀ x ∈ decimal n, x.isDigit = true := fun n hn =>
    (octet_table ⟨n, by omega⟩).2
  intro x hx
  simp only [dottedQuad, List.mem_append, List.mem_cons] at hx
  rcases hx with ((hx | rfl | hx) | rfl | hx) | rfl | hx
  · exact Or.inl (h a ha x hx)
  · exact Or.inr rfl
  · exact Or.inl (h b hb x hx)
  · exact Or.inr rfl
  · exact Or.inl (h c hc x hx)
  · exact Or.inr rfl
  · exact Or.inl (h d hd x hx)

/-- C8 as the code has it: without the strict mode, with TLD entries that are
non-empty strings of letters, the pattern matches every dotted quad of four
decimal octets in 0..255 without leading zeros when `ipv4` is set; when
`ipv4` is not set and the TLD list is not empty, it finds no match anywhere
in such a quad. -/
theorem C8_ipv4_literal (hf : FoldOK orbit) (opt : option) (hs : opt.strict = false)
    (hl : ∀ t ∈ opt.tlds, t ≠ "" ∧ ∀ c ∈ t.data, letter c = true)
    (a b c d : Nat) (ha : a ≤ 255) (hb : b ≤ 255) (hc : c ≤ 255) (hd : d ≤ 255) :
    (opt.ipv4 = true → PatternMatches orbit (pattern opt) (dottedQuad a b c d) = true) ∧
      (opt.ipv4 = false → opt.tlds ≠ [] →
        PatternMatches orbit (pattern opt) (dottedQuad a b c d) = false) := by
  have hplain : ∀ t ∈ opt.tlds, ∀ c ∈ t.data, plainChar c = true :=
    fun t ht c hc => letterOrDigit_plain c (letter_letterOrDigit c ((hl t ht).2 c hc))
  constructor
  · intro h4
    apply match_of_host opt hs hplain
    rw [matches_hostGroupRe_iff]
    right; left
    exact ⟨h4, v4_matches_quad hf a b c d ha hb hc hd⟩
  · intro h4 hne
    rw [← Bool.not_eq_true]
    intro h
    obtain ⟨x, hx, hm⟩ := host_piece_of_match opt (fun _ => hplain) _ h
    rw [hs, h4] at hm
    simp only [Bool.false_eq_true, if_false] at hm
    have hq := quad_chars a b c d ha hb hc hd
    have hchars : ∀ y ∈ x, nonLetterAscii y = true ∧ y ≠ 'l' ∧ y ≠ 'L' ∧ y ≠ ':' :=
      fun y hy => nonLetter_of_digit_or_dot y (hq y (hx y hy))
    rcases (matches_hostGroupRe_iff _ _ _ _ _).1 hm with ⟨_, h⟩ | ⟨h, _⟩ | ⟨_, h⟩ | h
    · obtain ⟨y, hy, hym⟩ := mustHave_sound hf ['l', 'L'] h (by decide!)
      have := hchars y hy
      simp only [List.mem_cons, List.mem_singleton, List.not_mem_nil, or_false] at hym
      rcases hym with rfl | rfl
      · exact this.2.1 rfl
      · exact this.2.2.1 rfl
    · cases h
    · obtain ⟨y, hy, hym⟩ := mustHave_sound hf [':'] h (by decide!)
      have := hchars y hy
      simp only [List.mem_singleton] at hym
      exact this.2.2.2 hym
    · obtain ⟨p, q, z, u, rfl, _, _, hz, _⟩ := matches_genericRe hf _ (anchorFree_tldAltRe _) _ h
      have hsne : sortedTlds opt ≠ [] := by
        intro e
        apply hne
        have := SliceStable_perm tldLess opt.tlds
        rw [show SliceStable tldLess opt.tlds = sortedTlds opt from rfl, e] at this
        exact (List.Perm.nil_eq this).symm
      obtain ⟨e, hemem, hfa⟩ := (matches_tldAltRe_iff hf _ hsne).1 hz
      have he := hl e ((mem_sortedTlds opt e).1 hemem)
      obtain ⟨a0, z0, w, z', hcons, rfl, h0⟩ := forall₂_head hfa (data_ne_nil e he.1)
      have hz0 : nonLetterAscii z0 = true := (hchars z0 (by simp)).1
      have := eq_of_mem_orbit_nonLetter hf z0 hz0 a0 h0
      have hlet : letter a0 = true := he.2 a0 (by rw [hcons]; simp)
      have h2 := letter_not_nonLetter a0 hlet
      rw [this, hz0] at h2
      cases h2

theorem C8_witness :
    PatternMatches asciiFold (pattern testConfig) (dottedQuad 142 42 1 1) = true ∧
      PatternMatches asciiFold (pattern ipv4OffConfig) (dottedQuad 142 42 1 1) = false :=
  ⟨(C8_ipv4_literal asciiFold_ok testConfig rfl (by decide) 142 42 1 1 (by decide) (by decide)
      (by decide) (by decide)).1 rfl,
    (C8_ipv4_literal asciiFold_ok ipv4OffConfig rfl (by decide) 142 42 1 1 (by decide)
      (by decide) (by decide) (by decide)).2 rfl (by decide)⟩

/-- C8 as it is stated fails for the empty TLD list: its hypotheses hold, `ipv4`
is not set, and the pattern finds a match in `1.1.1.1` (the host `1`, the
period, and the empty TLD group). -/
theorem C8_counterexample :
    emptyTldConfig.strict = false ∧
      (∀ t ∈ emptyTldConfig.tlds, t ≠ "" ∧ ∀ c ∈ t.data, letter c = true) ∧
      emptyTldConfig.ipv4 = false ∧
      PatternMatches asciiFold (pattern emptyTldConfig) (dottedQuad 1 1 1 1) = true := by
  refine ⟨rfl, by decide, rfl, by decide!⟩

end Claims
section Claims

set_option maxRecDepth 100000

variable {orbit : Char → List Char}

theorem at_facts :
    nonLetterAscii '@' = true ∧ letterOrDigit '@' = false ∧ avoids '@' strictTldRe = true ∧
      hostPartsAvoid '@' = true ∧ avoids '@' portRe = true ∧
      (∀ s : Bool, avoids '@' (protoRe s) = true) := by
  decide!

theorem prefix_table :
    ∀ s : Bool, ∀ a ∈ [":".data, ":/".data, "http:".data, "http:/".data],
      matchWhole asciiFold (prefixRe s) true a = false ∧ (∀ c ∈ a, c.toNat < 128) ∧ '.' ∉ a := by
  decide!

/-- The splits of the three prefixes of C7 before a character that starts a
path. -/
theorem prefix_splits (p a rest : List Char) (c : Char)
    (hp : p = "".data ∨ p = "://".data ∨ p = "http://".data) (hc : c ∈ ['/', '?', '#'])
    (h : p = a ++ c :: rest) :
    a ∈ [":".data, ":/".data, "http:".data, "http:/".data] := by
  have hlen : a.length < p.length := by rw [h]; simp
  have ha : a = p.take a.length := by rw [h]; simp
  have hcq : p[a.length]? = some c := by
    rw [h, List.getElem?_append_right (le_refl _)]
    simp
  generalize a.length = k at hlen ha hcq
  rcases hp with rfl | rfl | rfl
  · simp at hlen
  · have hk : k < 3 := hlen
    interval_cases k
    · exfalso; revert hc; simp at hcq; subst hcq; decide
    · rw [ha]; decide
    · rw [ha]; decide
  · have hk : k < 7 := hlen
    interval_cases k
    · exfalso; revert hc; simp at hcq; subst hcq; decide
    · exfalso; revert hc; simp at hcq; subst hcq; decide
    · exfalso; revert hc; simp at hcq; subst hcq; decide
    · exfalso; revert hc; simp at hcq; subst hcq; decide
    · exfalso; revert hc; simp at hcq; subst hcq; decide
    · rw [ha]; decide
    · rw [ha]; decide

/-- C7: with `auth` not set and in the exact mode (strict or not), with TLD
entries of letters and digits, no text `P + U + "@" + R` is matched where `P`
is empty, `://` or `http://` and `U` contains none of `/`, `?`, `#`. -/
theorem C7_no_auth_rejects_userinfo (hf : FoldOK orbit) (opt : option)
    (ha : opt.auth = false) (he : opt.exact = true)
    (hl : ∀ t ∈ opt.tlds, ∀ c ∈ t.data, letterOrDigit c = true)
    (P U R : String) (hP : P = "" ∨ P = "://" ∨ P = "http://")
    (hU : ∀ c ∈ U.data, c ≠ '/' ∧ c ≠ '?' ∧ c ≠ '#') :
    PatternMatches orbit (pattern opt) (P ++ U ++ "@" ++ R) = false := by
  have hplain : opt.strict = false → ∀ t ∈ opt.tlds, ∀ c ∈ t.data, plainChar c = true :=
    fun _ t ht c hc => letterOrDigit_plain c (hl t ht c hc)
  obtain ⟨f1, f2, f3, f4, f5, f6⟩ := at_facts
  rw [PatternMatches_false_iff opt hplain]
  intro pre m post hsplit hm
  obtain ⟨rfl, rfl⟩ := exact_whole opt he hm
  simp only [List.nil_append, List.append_nil] at hsplit
  have hT := anchorFree_tldRe opt
  have hTav : avoids '@' (if opt.strict then strictTldRe else tldAltRe (sortedTlds opt)) = true := by
    apply avoids_tldRe opt '@' f1 f3
    intro t ht hdt
    have := hl t ht '@' hdt
    rw [f2] at this
    cases this
  rw [patternRe] at hm
  generalize (if opt.strict then strictTldRe else tldAltRe (sortedTlds opt)) = T at hT hTav hm
  obtain ⟨_, x1, x2, x3, x4, x5, rfl, h1, h2, h3, h4, h5⟩ :=
    matches_patternTree T hT _ _ _ _ _ _ _ _ _ hm
  have e2 : x2 = [] := by
    rcases h2 with h | ⟨h, _⟩
    · exact h
    · rw [ha] at h; cases h
  subst e2
  have n1 : '@' ∉ x1 := avoids_sound hf '@' (by decide) h1 (f6 _)
  have n3 : '@' ∉ x3 :=
    avoids_sound hf '@' (by decide) h3 (avoids_hostGroupRe '@' T hTav f4 _ _ _ _)
  have n4 : '@' ∉ x4 := avoids_sound hf '@' (by decide) h4 f5
  have hS : (x1 ++ (x3 ++ x4)) ++ x5 = (P.data ++ U.data) ++ '@' :: R.data := by
    rw [← List.append_assoc] at hsplit
    simpa [String.data_append, List.append_assoc] using hsplit.symm
  have nA : '@' ∉ x1 ++ (x3 ++ x4) := by
    simp only [List.mem_append, not_or]
    exact ⟨n1, n3, n4⟩
  rcases path_cases hf _ _ h5 with rfl | ⟨c, y, rfl, hc⟩
  · apply nA
    simp only [List.append_nil] at hS
    rw [hS]
    simp
  have hcat : c ≠ '@' := by
    rintro rfl
    revert hc
    decide
  have hPU : ∃ rest, P.data ++ U.data = (x1 ++ (x3 ++ x4)) ++ c :: rest := by
    rcases List.append_eq_append_iff.1 hS with ⟨a', h1', h2'⟩ | ⟨c', h1', h2'⟩
    · cases a' with
      | nil =>
        simp only [List.nil_append, List.cons.injEq] at h2'
        exact absurd h2'.1 hcat
      | cons d a' =>
        simp only [List.cons_append, List.cons.injEq] at h2'
        rw [h2'.1]
        exact ⟨a', h1'⟩
    · cases c' with
      | nil =>
        simp only [List.nil_append, List.cons.injEq] at h2'
        exact absurd h2'.1.symm hcat
      | cons d c' =>
        simp only [List.cons_append, List.cons.injEq] at h2'
        exfalso
        apply nA
        rw [h1', ← h2'.1]
        simp
  obtain ⟨rest, hPU⟩ := hPU
  have hcU : c ∉ U.data := by
    intro hmem
    have := hU c hmem
    simp only [List.mem_cons, List.mem_singleton, List.not_mem_nil, or_false] at hc
    rcases hc with rfl | rfl | rfl
    · exact this.1 rfl
    · exact this.2.1 rfl
    · exact this.2.2 rfl
  have hPA : ∃ rest', P.data = (x1 ++ (x3 ++ x4)) ++ c :: rest' := by
    rcases List.append_eq_append_iff.1 hPU with ⟨a', _, h2'⟩ | ⟨c', h1', h2'⟩
    · exfalso
      apply hcU
      rw [h2']
      simp
    · cases c' with
      | nil =>
        simp only [List.nil_append] at h2'
        exact absurd (by rw [← h2']; simp) hcU
      | cons d c' =>
        simp only [List.cons_append, List.cons.injEq] at h2'
        rw [h2'.1]
        exact ⟨c', h1'⟩
  obtain ⟨rest', hPA⟩ := hPA
  have hPd : P.data = "".data ∨ P.data = "://".data ∨ P.data = "http://".data := by
    rcases hP with rfl | rfl | rfl
    · exact Or.inl rfl
    · exact Or.inr (Or.inl rfl)
    · exact Or.inr (Or.inr rfl)
  have hAmem := prefix_splits P.data _ rest' c hPd hc hPA
  obtain ⟨t1, t2, t3⟩ := prefix_table opt.strict _ hAmem
  apply not_matches_of_matchWhole hf (prefixRe opt.strict) _ t2 t1
  have hx3 : Matches orbit (altList [wordRe "localhost".data, v4Re, v6Re]) [] x3 [] := by
    rcases (matches_hostGroupRe_iff _ _ _ _ _).1 h3 with ⟨_, h⟩ | ⟨_, h⟩ | ⟨_, h⟩ | h
    · exact Matches.altL _ _ _ _ _ h
    · exact Matches.altR _ _ _ _ _ (Matches.altL _ _ _ _ _ h)
    · exact Matches.altR _ _ _ _ _ (Matches.altR _ _ _ _ _ h)
    · exfalso
      obtain ⟨a, b, z, u, rfl, _⟩ := matches_genericRe hf T hT _ h
      apply t3
      simp
  have hP1 := anchorFree_pieces.2.2.2.2.2.2.2.1 opt.strict
  have hQ := anchorFree_pieces.2.2.2.2.2.2.1
  exact Matches.cat _ _ _ _ _ _ (matches_context h1 hP1 _ _)
    (Matches.cat _ _ _ _ _ _ (matches_context hx3 (by decide!) _ _) (matches_context h4 hQ _ _))

theorem C7_witness :
    PatternMatches asciiFold (pattern testConfig)
      ("http://" ++ "userid:password" ++ "@" ++ "example.com:8080") = false :=
  C7_no_auth_rejects_userinfo asciiFold_ok testConfig rfl rfl (by decide) "http://"
    "userid:password" "example.com:8080" (by decide) (by decide)

end Claims

/-! ## The options, and the state after a build -/

section Options

theorem lastSet_cons {α : Type} (sel : OptionCall → Option α) (c : OptionCall)
    (cs : List OptionCall) (d : α) :
    (lastSet sel (c :: cs)).getD d = (lastSet sel cs).getD ((sel c).getD d) := by
  simp only [lastSet, List.reverse_cons, List.findSome?_append]
  cases h : List.findSome? sel cs.reverse with
  | some v => simp
  | none => cases hc : sel c <;> simp [List.findSome?, hc]

/-- A field that every call either sets or leaves alone ends up with the
value of the last call that sets it. -/
theorem foldl_field {α : Type} (proj : option → α) (sel : OptionCall → Option α)
    (h : ∀ c u, proj (OptionCall.toOption c u) = (sel c).getD (proj u)) :
    ∀ (calls : List OptionCall) (init : option),
      proj ((calls.map OptionCall.toOption).foldl (fun o f => f o) init) =
        (lastSet sel calls).getD (proj init) := by
  intro calls
  induction calls with
  | nil => intro init; rfl
  | cons c cs ih =>
    intro init
    rw [lastSet_cons, ← h c init]
    exact ih _

/-- C13: each field of the configuration that `New` works with has the value
given by the last option naming it, and otherwise its default (`localhost`,
`ipv4`, `ipv6` set, the other flags unset, `tlds` the package-level list);
and one option changes no field but its own. -/
theorem C13_last_option_wins (tlds : List String) (calls : List OptionCall) :
    ((applyOptions tlds (calls.map OptionCall.toOption)).exact =
        (lastSet OptionCall.getExact calls).getD false ∧
      (applyOptions tlds (calls.map OptionCall.toOption)).strict =
        (lastSet OptionCall.getStrict calls).getD false ∧
      (applyOptions tlds (calls.map OptionCall.toOption)).auth =
        (lastSet OptionCall.getAuth calls).getD false ∧
      (applyOptions tlds (calls.map OptionCall.toOption)).localhost =
        (lastSet OptionCall.getLocalhost calls).getD true ∧
      (applyOptions tlds (calls.map OptionCall.toOption)).parens =
        (lastSet OptionCall.getParens calls).getD false ∧
      (applyOptions tlds (calls.map OptionCall.toOption)).apostrophes =
        (lastSet OptionCall.getApostrophes calls).getD false ∧
      (applyOptions tlds (calls.map OptionCall.toOption)).trailingPeriod =
        (lastSet OptionCall.getTrailingPeriod calls).getD false ∧
      (applyOptions tlds (calls.map OptionCall.toOption)).ipv4 =
        (lastSet OptionCall.getIPv4 calls).getD true ∧
      (applyOptions tlds (calls.map OptionCall.toOption)).ipv6 =
        (lastSet OptionCall.getIPv6 calls).getD true ∧
      (applyOptions tlds (calls.map OptionCall.toOption)).tlds =
        (lastSet OptionCall.getTlds calls).getD tlds) ∧
    ∀ (c : OptionCall) (u : option),
      (c.toOption u).exact = c.getExact.getD u.exact ∧
      (c.toOption u).strict = c.getStrict.getD u.strict ∧
      (c.toOption u).auth = c.getAuth.getD u.auth ∧
      (c.toOption u).localhost = c.getLocalhost.getD u.localhost ∧
      (c.toOption u).parens = c.getParens.getD u.parens ∧
      (c.toOption u).apostrophes = c.getApostrophes.getD u.apostrophes ∧
      (c.toOption u).trailingPeriod = c.getTrailingPeriod.getD u.trailingPeriod ∧
      (c.toOption u).ipv4 = c.getIPv4.getD u.ipv4 ∧
      (c.toOption u).ipv6 = c.getIPv6.getD u.ipv6 ∧
      (c.toOption u).tlds = c.getTlds.getD u.tlds := by
  have one : ∀ (c : OptionCall) (u : option),
      (c.toOption u).exact = c.getExact.getD u.exact ∧
      (c.toOption u).strict = c.getStrict.getD u.strict ∧
      (c.toOption u).auth = c.getAuth.getD u.auth ∧
      (c.toOption u).localhost = c.getLocalhost.getD u.localhost ∧
      (c.toOption u).parens = c.getParens.getD u.parens ∧
      (c.toOption u).apostrophes = c.getApostrophes.getD u.apostrophes ∧
      (c.toOption u).trailingPeriod = c.getTrailingPeriod.getD u.trailingPeriod ∧
      (c.toOption u).ipv4 = c.getIPv4.getD u.ipv4 ∧
      (c.toOption u).ipv6 = c.getIPv6.getD u.ipv6 ∧
      (c.toOption u).tlds = c.getTlds.getD u.tlds := by
    intro c u
    cases c <;> exact ⟨rfl, rfl, rfl, rfl, rfl, rfl, rfl, rfl, rfl, rfl⟩
  refine ⟨⟨?_, ?_, ?_, ?_, ?_, ?_, ?_, ?_, ?_, ?_⟩, one⟩
  · exact foldl_field (fun o => o.exact) _ (fun c u => (one c u).1) calls (defaults tlds)
  · exact foldl_field (fun o => o.strict) _ (fun c u => (one c u).2.1) calls (defaults tlds)
  · exact foldl_field (fun o => o.auth) _ (fun c u => (one c u).2.2.1) calls (defaults tlds)
  · exact foldl_field (fun o => o.localhost) _ (fun c u => (one c u).2.2.2.1) calls
      (defaults tlds)
  · exact foldl_field (fun o => o.parens) _ (fun c u => (one c u).2.2.2.2.1) calls
      (defaults tlds)
  · exact foldl_field (fun o => o.apostrophes) _ (fun c u => (one c u).2.2.2.2.2.1) calls
      (defaults tlds)
  · exact foldl_field (fun o => o.trailingPeriod) _ (fun c u => (one c u).2.2.2.2.2.2.1) calls
      (defaults tlds)
  · exact foldl_field (fun o => o.ipv4) _ (fun c u => (one c u).2.2.2.2.2.2.2.1) calls
      (defaults tlds)
  · exact foldl_field (fun o => o.ipv6) _ (fun c u => (one c u).2.2.2.2.2.2.2.2.1) calls
      (defaults tlds)
  · exact foldl_field (fun o => o.tlds) _ (fun c u => (one c u).2.2.2.2.2.2.2.2.2) calls
      (defaults tlds)

end Options

section Rebuild

/-- The stable sort leaves a sequence alone that is in order already. -/
theorem SliceStable_of_pairwise {α : Type} (key : α → Nat) :
    ∀ l : List α, l.Pairwise (fun x y => key y ≤ key x) →
      SliceStable (fun x y => decide (key y < key x)) l = l := by
  intro l
  induction l with
  | nil => intro _; rfl
  | cons a l ih =>
    intro h
    rw [List.pairwise_cons] at h
    simp only [SliceStable]
    rw [ih h.2]
    cases l with
    | nil => rfl
    | cons b l =>
      have hb : key b ≤ key a := h.1 b (by simp)
      simp only [insertStable, decide_eq_true_eq]
      rw [if_neg (by omega)]

theorem SliceStable_idem (l : List String) :
    SliceStable tldLess (SliceStable tldLess l) = SliceStable tldLess l :=
  SliceStable_of_pairwise runeCount _ (SliceStable_pairwise runeCount l)

theorem tldsAfterNew_idem (opt : option) :
    tldsAfterNew { opt with tlds := tldsAfterNew opt } = tldsAfterNew opt := by
  cases hs : opt.strict
  · simp only [tldsAfterNew, hs, Bool.false_eq_true, if_false]
    exact SliceStable_idem _
  · simp only [tldsAfterNew, hs, if_true]

/-- The pattern depends on the TLD sequence through its sorted form only. -/
theorem pattern_congr (o1 o2 : option)
    (h1 : o1.exact = o2.exact) (h2 : o1.strict = o2.strict) (h3 : o1.auth = o2.auth)
    (h4 : o1.localhost = o2.localhost) (h5 : o1.parens = o2.parens)
    (h6 : o1.apostrophes = o2.apostrophes) (h7 : o1.trailingPeriod = o2.trailingPeriod)
    (h8 : o1.ipv4 = o2.ipv4) (h9 : o1.ipv6 = o2.ipv6)
    (ht : o1.strict = false → sortedTlds o1 = sortedTlds o2) : pattern o1 = pattern o2 := by
  cases hs : o1.strict
  · simp only [pattern, regexRaw, regexBody, regexHead, tld, protocol, auth, path,
      ← h1, ← h2, ← h3, ← h4, ← h5, ← h6, ← h7, ← h8, ← h9, ← ht hs]
  · simp only [pattern, regexRaw, regexBody, regexHead, tld, protocol, auth, path,
      ← h1, ← h2, ← h3, ← h4, ← h5, ← h6, ← h7, ← h8, ← h9, hs, if_true]

/-- C14: a second call of `New` with the same flags and with the TLD sequence
as the first call left it builds the same pattern string, hence a pattern
with the same match results, and leaves the sequence as it is. -/
theorem C14_second_build_same_pattern (opt : option) :
    pattern { opt with tlds := tldsAfterNew opt } = pattern opt ∧
      tldsAfterNew { opt with tlds := tldsAfterNew opt } = tldsAfterNew opt ∧
      ∀ (orbit : Char → List Char) (s : String),
        PatternMatches orbit (pattern { opt with tlds := tldsAfterNew opt }) s =
          PatternMatches orbit (pattern opt) s := by
  have hp : pattern { opt with tlds := tldsAfterNew opt } = pattern opt := by
    refine pattern_congr { opt with tlds := tldsAfterNew opt } opt rfl rfl rfl rfl rfl rfl rfl
      rfl rfl ?_
    intro hs
    have hs' : opt.strict = false := hs
    simp only [sortedTlds, tldsAfterNew, hs', Bool.false_eq_true, if_false]
    exact SliceStable_idem _
  refine ⟨hp, tldsAfterNew_idem opt, ?_⟩
  intro orbit s
  rw [hp]

/-- C15, as the code has it: `New` keeps the entries of the TLD sequence with
their multiplicities; without the strict mode it leaves them in non-increasing
order of code-point count; the sequence is as before the call in the strict
mode and when it was in that order already. -/
theorem C15_tlds_reordered_in_place (opt : option) :
    (tldsAfterNew opt).Perm opt.tlds ∧
      (opt.strict = false →
        (tldsAfterNew opt).Pairwise (fun a b => runeCount b ≤ runeCount a)) ∧
      (opt.strict = true → tldsAfterNew opt = opt.tlds) ∧
      (opt.tlds.Pairwise (fun a b => runeCount b ≤ runeCount a) →
        tldsAfterNew opt = opt.tlds) := by
  refine ⟨?_, ?_, ?_, ?_⟩
  · cases hs : opt.strict
    · simp only [tldsAfterNew, hs, Bool.false_eq_true, if_false]
      exact SliceStable_perm tldLess opt.tlds
    · simp only [tldsAfterNew, hs, if_true]
      exact List.Perm.refl _
  · intro hs
    simp only [tldsAfterNew, hs, Bool.false_eq_true, if_false]
    exact SliceStable_pairwise runeCount opt.tlds
  · intro hs
    simp only [tldsAfterNew, hs, if_true]
  · intro h
    cases hs : opt.strict
    · simp only [tldsAfterNew, hs, Bool.false_eq_true, if_false]
      exact SliceStable_of_pairwise runeCount opt.tlds h
    · simp only [tldsAfterNew, hs, if_true]

theorem C15_witness :
    (tldsAfterNew testConfig).Perm testConfig.tlds ∧
      (tldsAfterNew testConfig).Pairwise (fun a b => runeCount b ≤ runeCount a) ∧
      tldsAfterNew { testConfig with strict := true } = testConfig.tlds ∧
      tldsAfterNew { testConfig with tlds := ["net", "com", "de"] } = ["net", "com", "de"] :=
  ⟨(C15_tlds_reordered_in_place testConfig).1,
    (C15_tlds_reordered_in_place testConfig).2.1 rfl,
    (C15_tlds_reordered_in_place { testConfig with strict := true }).2.2.1 rfl,
    (C15_tlds_reordered_in_place { testConfig with tlds := ["net", "com", "de"] }).2.2.2
      (by decide)⟩

/-- C15 as it is stated fails: after `New` has run on the list `com`, `ws`,
`de`, `net`, `mp`, `bar` of the tests, the sequence of the caller starts with
`com`, `net`, `bar`. -/
theorem C15_counterexample :
    tldsAfterNew testConfig = ["com", "net", "bar", "ws", "de", "mp"] ∧
      tldsAfterNew testConfig ≠ testConfig.tlds := by
  decide

end Rebuild

/-! ## The replacements next to a character that they cannot touch -/

section Anchors

theorem isPrefixOf_append_cons (old xs : List Char) (y : Char) (ys : List Char) (hy : y ∉ old) :
    old.isPrefixOf (xs ++ y :: ys) = old.isPrefixOf xs := by
  rw [Bool.eq_iff_iff, List.isPrefixOf_iff_prefix, List.isPrefixOf_iff_prefix]
  constructor
  · intro hp
    by_cases hl : old.length ≤ xs.length
    · exact List.prefix_of_prefix_length_le hp (List.prefix_append xs _) hl
    · exfalso
      apply hy
      have h1 : xs ++ [y] <+: xs ++ y :: ys := by
        refine ⟨ys, ?_⟩
        simp
      have h2 : xs ++ [y] <+: old :=
        List.prefix_of_prefix_length_le h1 hp (by simp; omega)
      obtain ⟨t, ht⟩ := h2
      rw [← ht]
      simp
  · intro hp
    exact hp.trans (List.prefix_append xs _)

/-- An occurrence of `old` cannot reach over a character that is not in
`old`: the scan of what stands before it and the scan from it on are
independent. -/
theorem replaceGo_append_cons (old new : List Char) (y : Char) (ys : List Char) (hy : y ∉ old) :
    ∀ (xs : List Char) (k : Nat), k ≤ xs.length →
      replaceGo old new k (xs ++ y :: ys) =
        replaceGo old new k xs ++ replaceGo old new 0 (y :: ys) := by
  obtain ⟨R, hR⟩ : ∃ R, R = replaceGo old new 0 (y :: ys) := ⟨_, rfl⟩
  rw [← hR]
  intro xs
  induction xs with
  | nil =>
    intro k hk
    have : k = 0 := by simpa using hk
    subst this
    rw [hR]
    simp [replaceGo]
  | cons c cs ih =>
    intro k hk
    cases k with
    | succ k =>
      simp only [List.cons_append, replaceGo]
      exact ih k (by simpa using hk)
    | zero =>
      have hp : old.isPrefixOf (c :: (cs ++ y :: ys)) = old.isPrefixOf (c :: cs) :=
        isPrefixOf_append_cons old (c :: cs) y ys hy
      show replaceGo old new 0 (c :: (cs ++ y :: ys)) = _
      simp only [replaceGo]
      rw [hp]
      by_cases hm : old.isPrefixOf (c :: cs) = true
      · simp only [hm, if_true]
        have hlen : old.length ≤ cs.length + 1 := by
          have := (List.isPrefixOf_iff_prefix.1 hm).length_le
          simpa using this
        rw [ih (old.length - 1) (by omega), List.append_assoc]
      · simp only [hm, Bool.false_eq_true, if_false, List.cons_append]
        rw [ih 0 (by omega)]

theorem replaceGo_cons_of_not_mem (old new : List Char) (hne : old ≠ []) (y : Char)
    (ys : List Char) (hy : y ∉ old) :
    replaceGo old new 0 (y :: ys) = y :: replaceGo old new 0 ys := by
  cases old with
  | nil => exact absurd rfl hne
  | cons h t =>
    simp only [List.mem_cons, not_or] at hy
    have hc : (h == y) = false := by
      simpa using fun e => hy.1 e.symm
    simp only [replaceGo, List.isPrefixOf, hc, Bool.false_and, Bool.false_eq_true, if_false]

/-- The four replacements on the two sides of a character that is in none of
the replaced words. -/
theorem sub4_append_cons (xs ys : List Char) (y : Char) (h1 : y ∉ "\\u00a1".data)
    (h2 : y ∉ "\\uffff".data) (h3 : y ∉ "$\x7bv4\x7d".data) (h4 : y ∉ "$\x7bv6seg\x7d".data) :
    sub4 (xs ++ y :: ys) = sub4 xs ++ y :: sub4 ys := by
  unfold sub4
  rw [replaceGo_append_cons _ _ y _ h1 _ 0 (Nat.zero_le _),
    replaceGo_cons_of_not_mem _ _ (by decide) y _ h1,
    replaceGo_append_cons _ _ y _ h2 _ 0 (Nat.zero_le _),
    replaceGo_cons_of_not_mem _ _ (by decide) y _ h2,
    replaceGo_append_cons _ _ y _ h3 _ 0 (Nat.zero_le _),
    replaceGo_cons_of_not_mem _ _ (by decide) y _ h3,
    replaceGo_append_cons _ _ y _ h4 _ 0 (Nat.zero_le _),
    replaceGo_cons_of_not_mem _ _ (by decide) y _ h4]

/-- The assembled pattern ends with the question mark of the path group. -/
theorem regexBody_last (opt : option) : ∃ X, (regexBody opt).data = X ++ ['?'] := by
  have hp : ∃ q, (path opt).data = q ++ ['?'] := by
    unfold path
    cases opt.parens <;> cases opt.apostrophes
    · exact ⟨"(?:[/?#][^\\s\"\\)\x27]*)".data, by decide⟩
    · exact ⟨"(?:[/?#][^\\s\"\\)]*)".data, by decide⟩
    · exact ⟨"(?:[/?#][^\\s\"\x27]*)".data, by decide⟩
    · exact ⟨"(?:[/?#][^\\s\"]*)".data, by decide⟩
  obtain ⟨q, hq⟩ := hp
  refine ⟨(regexHead opt ++ (host ++ domain ++ tld opt ++ ")" ++ port)).data ++ q, ?_⟩
  simp only [regexBody, String.data_append, hq, List.append_assoc]

/-- C18: every pattern begins with the marker `(?i)`, and the pattern of the
exact mode is `"(?i)(?:^" + B + "$)"` where `"(?i)" + B` is the pattern of the
same configuration without the exact mode. -/
theorem C18_exact_only_adds_anchors (opt : option) :
    (∃ t : String, pattern opt = "(?i)" ++ t) ∧
      ∃ B : String, pattern { opt with exact := false } = "(?i)" ++ B ∧
        pattern { opt with exact := true } = "(?i)(?:^" ++ B ++ "$)" := by
  obtain ⟨X, hX⟩ := regexBody_last opt
  have hB : sub4 (regexBody opt).data = sub4 X ++ ['?'] := by
    rw [hX, sub4_append_cons X [] '?' (by decide) (by decide) (by decide) (by decide)]
    rfl
  have hF : pattern { opt with exact := false } = "(?i)" ++ (⟨sub4 (regexBody opt).data⟩ : String) := by
    apply String.ext
    rw [pattern_data]
    have e : (regexRaw { opt with exact := false }).data = "(?i)".data ++ (regexBody opt).data := by
      simp only [regexRaw, Bool.false_eq_true, if_false, String.data_append]
      rfl
    rw [e, sub4_append _ _ (by decide), String.data_append]
    rfl
  have hT : pattern { opt with exact := true } =
      "(?i)(?:^" ++ (⟨sub4 (regexBody opt).data⟩ : String) ++ "$)" := by
    apply String.ext
    rw [pattern_data]
    have e : (regexRaw { opt with exact := true }).data =
        "(?i)(?:^".data ++ (X ++ '?' :: "$)".data) := by
      simp only [regexRaw, if_true, String.data_append]
      have : (regexBody { opt with exact := true }).data = X ++ ['?'] := hX
      rw [this]
      simp
    rw [e, sub4_append _ _ (by decide),
      sub4_append_cons X _ '?' (by decide) (by decide) (by decide) (by decide),
      String.data_append, String.data_append, hB]
    have e1 : sub4 "(?i)(?:^".data = "(?i)(?:^".data := by decide
    have e2 : sub4 "$)".data = "$)".data := by decide
    rw [e1, e2]
    simp
  refine ⟨?_, _, hF, hT⟩
  cases he : opt.exact
  · refine ⟨(⟨sub4 (regexBody opt).data⟩ : String), ?_⟩
    have : opt = { opt with exact := false } := by
      cases opt
      simp only at he
      subst he
      rfl
    rw [this]
    exact hF
  · refine ⟨"(?:^" ++ (⟨sub4 (regexBody opt).data⟩ : String) ++ "$)", ?_⟩
    have : opt = { opt with exact := true } := by
      cases opt
      simp only at he
      subst he
      rfl
    rw [this, hT]
    apply String.ext
    simp only [String.data_append, List.append_assoc]
    rfl

end Anchors

/-! ## Classes of ASCII characters that are no letters -/

section Classes

variable {orbit : Char → List Char}

theorem hit_nonLetter (cls : CharClass) (h : cls.plainAscii = true) (d : Char)
    (hd : cls.hit d = true) : nonLetterAscii d = true := by
  simp only [CharClass.plainAscii, Bool.and_eq_true, List.all_eq_true, decide_eq_true_eq,
    List.mem_range, Bool.not_eq_true', Bool.and_eq_false_imp] at h
  obtain ⟨hb, hn⟩ := h
  have hlt : d.toNat < 128 := by
    simp only [CharClass.hit, List.any_eq_true, Bool.and_eq_true, decide_eq_true_eq] at hd
    obtain ⟨r, hr, _, h2⟩ := hd
    have h3 := hb r hr
    have h4 : d.val.toNat ≤ r.2.val.toNat := h2
    show d.val.toNat < 128
    have h5 : r.2.val.toNat < 128 := h3
    omega
  have := hn d.toNat hlt
  rw [Char.ofNat_toNat] at this
  simp only [nonLetterAscii, Bool.and_eq_true, decide_eq_true_eq, Bool.not_eq_true']
  exact ⟨hlt, this hd⟩

/-- Case folding does not change what such a class accepts. -/
theorem test_plain (hf : FoldOK orbit) (cls : CharClass) (h : cls.plainAscii = true) (c : Char) :
    cls.test orbit c = xor (cls.hit c) cls.neg := by
  have key : (orbit c).any cls.hit = cls.hit c := by
    rw [Bool.eq_iff_iff, List.any_eq_true]
    constructor
    · rintro ⟨d, hd, hh⟩
      have := eq_of_mem_orbit_nonLetter hf d (hit_nonLetter cls h d hh) c hd
      rw [this]
      exact hh
    · intro hh
      exact ⟨c, hf.self c, hh⟩
  simp only [CharClass.test, key, ite_self]

theorem onlyIn_sound (hf : FoldOK orbit) (cs : List Char)
    {r : Regex} {pre s post : List Char} (h : Matches orbit r pre s post) :
    onlyIn cs r = true → ∀ c ∈ s, c ∈ cs := by
  induction h with
  | empty pre post => intro _ c hc; cases hc
  | chr cls pre post d hd =>
    intro ho c hc
    simp only [List.mem_singleton] at hc
    subst hc
    simp only [onlyIn, Bool.and_eq_true, Bool.not_eq_true', List.all_eq_true, List.mem_range,
      Bool.or_eq_true, List.contains_iff_exists_mem_beq, beq_iff_eq, exists_eq_right'] at ho
    obtain ⟨⟨hneg, hp⟩, ht⟩ := ho
    rw [test_plain hf cls hp, hneg, Bool.xor_false] at hd
    have hnl := hit_nonLetter cls hp c hd
    simp only [nonLetterAscii, Bool.and_eq_true, decide_eq_true_eq] at hnl
    have := ht c.toNat hnl.1
    rw [Char.ofNat_toNat] at this
    rcases this with h1 | h1
    · rw [hd] at h1; cases h1
    · simpa using h1
  | bol post => intro _ c hc; cases hc
  | eol pre => intro _ c hc; cases hc
  | cat a b pre s t post _ _ iha ihb =>
    intro ho c hc
    simp only [onlyIn, Bool.and_eq_true] at ho
    rcases List.mem_append.1 hc with h1 | h1
    · exact iha ho.1 c h1
    · exact ihb ho.2 c h1
  | altL a b pre s post _ ih =>
    intro ho
    simp only [onlyIn, Bool.and_eq_true] at ho
    exact ih ho.1
  | altR a b pre s post _ ih =>
    intro ho
    simp only [onlyIn, Bool.and_eq_true] at ho
    exact ih ho.2
  | starNil a pre post => intro _ c hc; cases hc
  | starCons a pre s t post _ _ iha ihb =>
    intro ho c hc
    rcases List.mem_append.1 hc with h1 | h1
    · exact iha (by simpa [onlyIn] using ho) c h1
    · exact ihb ho c h1

theorem bounded_sound {r : Regex} {pre s post : List Char} (h : Matches orbit r pre s post) :
    ∀ n, bounded r = some n → s.length ≤ n := by
  induction h with
  | empty pre post => intro n _; simp
  | chr cls pre post d hd =>
    intro n hn
    simp only [bounded, Option.some.injEq] at hn
    subst hn
    simp
  | bol post => intro n _; simp
  | eol pre => intro n _; simp
  | cat a b pre s t post _ _ iha ihb =>
    intro n hn
    simp only [bounded, Option.bind_eq_some, Option.map_eq_some'] at hn
    obtain ⟨m, hm, k, hk, rfl⟩ := hn
    have := iha m hm
    have := ihb k hk
    simp only [List.length_append]
    omega
  | altL a b pre s post _ ih =>
    intro n hn
    simp only [bounded, Option.bind_eq_some, Option.map_eq_some'] at hn
    obtain ⟨m, hm, k, _, rfl⟩ := hn
    have := ih m hm
    omega
  | altR a b pre s post _ ih =>
    intro n hn
    simp only [bounded, Option.bind_eq_some, Option.map_eq_some'] at hn
    obtain ⟨m, _, k, hk, rfl⟩ := hn
    have := ih k hk
    omega
  | starNil a pre post => intro n hn; cases hn
  | starCons a pre s t post _ _ _ _ => intro n hn; cases hn

/-- A star of a class matches the pieces whose characters the class
accepts. -/
theorem matches_star_chr_iff (cls : CharClass) :
    ∀ (s pre post : List Char),
      Matches orbit (.star (.chr cls)) pre s post ↔ ∀ c ∈ s, cls.test orbit c = true := by
  intro s
  induction s with
  | nil =>
    intro pre post
    simp only [List.not_mem_nil, false_implies, implies_true, iff_true]
    exact Matches.starNil _ _ _
  | cons c s ih =>
    intro pre post
    rw [matches_star_cons_iff]
    constructor
    · rintro ⟨s1, s2, rfl, h1, h2⟩
      rw [matches_chr_iff] at h1
      obtain ⟨d, hd, ht⟩ := h1
      simp only [List.cons.injEq] at hd
      obtain ⟨rfl, rfl⟩ := hd
      intro x hx
      simp only [List.nil_append, List.mem_cons] at hx
      rcases hx with rfl | hx
      · exact ht
      · exact (ih _ _).1 h2 x hx
    · intro h
      refine ⟨[], s, rfl, ?_, ?_⟩
      · exact Matches.chr _ _ _ _ (h c (by simp))
      · exact (ih _ _).2 (fun x hx => h x (by simp [hx]))

/-- A fixed number of copies of a class. -/
theorem matches_rpow_chr_iff (cls : CharClass) :
    ∀ (n : Nat) (s pre post : List Char),
      Matches orbit (Regex.rpow (.chr cls) n) pre s post ↔
        s.length = n ∧ ∀ c ∈ s, cls.test orbit c = true := by
  intro n
  induction n with
  | zero =>
    intro s pre post
    simp only [Regex.rpow, matches_empty_iff]
    constructor
    · rintro rfl
      simp
    · rintro ⟨h, _⟩
      exact List.length_eq_zero.1 h
  | succ n ih =>
    intro s pre post
    simp only [Regex.rpow, matches_cat_iff, matches_chr_iff, ih]
    constructor
    · rintro ⟨s1, s2, rfl, ⟨c, rfl, hc⟩, hl, ha⟩
      refine ⟨by simp [hl], ?_⟩
      intro x hx
      simp only [List.singleton_append, List.mem_cons] at hx
      rcases hx with rfl | hx
      · exact hc
      · exact ha x hx
    · rintro ⟨hl, ha⟩
      cases s with
      | nil => simp at hl
      | cons c s =>
        refine ⟨[c], s, rfl, ⟨c, rfl, ha c (by simp)⟩, by simpa using hl, ?_⟩
        exact fun x hx => ha x (by simp [hx])

/-- Up to `n` copies of a class. -/
theorem matches_rpow_opt_chr_iff (cls : CharClass) :
    ∀ (n : Nat) (s pre post : List Char),
      Matches orbit (Regex.rpow (.opt (.chr cls)) n) pre s post ↔
        s.length ≤ n ∧ ∀ c ∈ s, cls.test orbit c = true := by
  intro n
  induction n with
  | zero =>
    intro s pre post
    simp only [Regex.rpow, matches_empty_iff]
    constructor
    · rintro rfl
      simp
    · rintro ⟨h, _⟩
      exact List.length_eq_zero.1 (Nat.le_zero.1 h)
  | succ n ih =>
    intro s pre post
    simp only [Regex.rpow, matches_cat_iff, matches_opt_iff, matches_chr_iff, ih]
    constructor
    · rintro ⟨s1, s2, rfl, h1, hl, ha⟩
      rcases h1 with ⟨c, rfl, hc⟩ | rfl
      · refine ⟨by simp; omega, ?_⟩
        intro x hx
        simp only [List.singleton_append, List.mem_cons] at hx
        rcases hx with rfl | hx
        · exact hc
        · exact ha x hx
      · exact ⟨by simp; omega, by simpa using ha⟩
    · rintro ⟨hl, ha⟩
      cases s with
      | nil => exact ⟨[], [], rfl, Or.inr rfl, by simp, by simp⟩
      | cons c s =>
        refine ⟨[c], s, rfl, Or.inl ⟨c, rfl, ha c (by simp)⟩, by simpa using hl, ?_⟩
        exact fun x hx => ha x (by simp [hx])

/-- Between `m` and `n` copies of a class. -/
theorem matches_counted_chr_iff (cls : CharClass) (m n : Nat) (hmn : m ≤ n)
    (s pre post : List Char) :
    Matches orbit (Regex.counted (.chr cls) m (some n)) pre s post ↔
      (m ≤ s.length ∧ s.length ≤ n) ∧ ∀ c ∈ s, cls.test orbit c = true := by
  simp only [Regex.counted, matches_cat_iff, matches_rpow_chr_iff, matches_rpow_opt_chr_iff]
  constructor
  · rintro ⟨s1, s2, rfl, ⟨h1, a1⟩, h2, a2⟩
    refine ⟨by simp; omega, ?_⟩
    intro x hx
    rcases List.mem_append.1 hx with h | h
    · exact a1 x h
    · exact a2 x h
  · rintro ⟨⟨h1, h2⟩, ha⟩
    refine ⟨s.take m, s.drop m, (List.take_append_drop m s).symm, ⟨?_, ?_⟩, ?_, ?_⟩
    · simp; omega
    · exact fun x hx => ha x (List.mem_of_mem_take hx)
    · simp; omega
    · exact fun x hx => ha x (List.mem_of_mem_drop hx)

/-- What the class `\d` accepts under any fold table. -/
theorem test_digitCls (hf : FoldOK orbit) (c : Char) :
    digitCls.test orbit c = c.isDigit := by
  rw [test_plain hf digitCls (by decide!)]
  simp only [digitCls, digitRanges, CharClass.hit, List.any_cons, List.any_nil, Bool.or_false,
    Bool.xor_false, Char.isDigit]
  rw [Bool.eq_iff_iff]
  simp only [Bool.and_eq_true, decide_eq_true_eq]
  exact Iff.rfl

end Classes

/-! ## The path tail -/

section PathTail

variable {orbit : Char → List Char}

theorem pathCls_table :
    ∀ n : Fin 128, ∀ p a : Bool,
      (pathCls p a).hit (Char.ofNat n.val) =
        (asciiSpace (Char.ofNat n.val) || decide (Char.ofNat n.val = '"') ||
          (!p && decide (Char.ofNat n.val = ')')) ||
          (!a && decide (Char.ofNat n.val = Char.ofNat 39))) := by
  decide!

theorem pathCls_plain : ∀ p a : Bool, (pathCls p a).plainAscii = true := by
  decide!

/-- The characters that the class of the path tail excludes. -/
theorem hit_pathCls (p a : Bool) (c : Char) :
    (pathCls p a).hit c =
      (asciiSpace c || decide (c = '"') || (!p && decide (c = ')')) ||
        (!a && decide (c = Char.ofNat 39))) := by
  by_cases hc : c.toNat < 128
  · exact ascii_cases
      (fun c => (pathCls p a).hit c =
        (asciiSpace c || decide (c = '"') || (!p && decide (c = ')')) ||
          (!a && decide (c = Char.ofNat 39))))
      (fun n => pathCls_table n p a) c hc
  · have h1 : (pathCls p a).hit c = false := by
      rw [← Bool.not_eq_true]
      intro h
      have := hit_nonLetter _ (pathCls_plain p a) c h
      simp only [nonLetterAscii, Bool.and_eq_true, decide_eq_true_eq] at this
      exact hc this.1
    have h2 : ∀ d : Char, d.toNat < 128 → c ≠ d := by
      rintro d hd rfl
      exact hc hd
    rw [h1]
    symm
    simp only [asciiSpace, Bool.or_eq_false_iff, decide_eq_false_iff_not, Bool.and_eq_false_imp,
      Bool.not_eq_true', not_or]
    exact ⟨⟨⟨⟨h2 _ (by decide), h2 _ (by decide), h2 _ (by decide), h2 _ (by decide),
      h2 _ (by decide)⟩, h2 _ (by decide)⟩, fun _ => h2 _ (by decide)⟩, fun _ => h2 _ (by decide)⟩

/-- What the tree of the path tail matches. -/
theorem matches_pathRe_iff (hf : FoldOK orbit) (p a : Bool) (x : List Char) :
    Matches orbit (pathRe p a) [] x [] ↔
      x = [] ∨ ∃ c y, x = c :: y ∧ (c = '/' ∨ c = '?' ∨ c = '#') ∧
        ∀ d ∈ y, asciiSpace d = false ∧ d ≠ '"' ∧ (d = ')' → p = true) ∧
          (d = Char.ofNat 39 → a = true) := by
  have hfirst : ∀ c, CharClass.test orbit ⟨false, [('/', '/'), ('?', '?'), ('#', '#')], true⟩ c
      = true ↔ (c = '/' ∨ c = '?' ∨ c = '#') := by
    intro c
    rw [test_plain hf _ (by decide!)]
    simp only [CharClass.hit, List.any_cons, List.any_nil, Bool.or_false, Bool.xor_false,
      Bool.or_eq_true, Bool.and_eq_true, decide_eq_true_eq]
    constructor
    · rintro (⟨h1, h2⟩ | ⟨h1, h2⟩ | ⟨h1, h2⟩)
      · exact Or.inl (Char.le_antisymm h2 h1)
      · exact Or.inr (Or.inl (Char.le_antisymm h2 h1))
      · exact Or.inr (Or.inr (Char.le_antisymm h2 h1))
    · rintro (rfl | rfl | rfl)
      · exact Or.inl ⟨by decide, by decide⟩
      · exact Or.inr (Or.inl ⟨by decide, by decide⟩)
      · exact Or.inr (Or.inr ⟨by decide, by decide⟩)
  have hrest : ∀ d, (pathCls p a).test orbit d = true ↔
      (asciiSpace d = false ∧ d ≠ '"' ∧ (d = ')' → p = true) ∧
        (d = Char.ofNat 39 → a = true)) := by
    intro d
    rw [test_plain hf _ (pathCls_plain p a), hit_pathCls]
    have hneg : (pathCls p a).neg = true := rfl
    rw [hneg]
    cases p <;> cases a <;> cases asciiSpace d <;>
      simp [and_assoc]
  rw [pathRe, matches_opt_iff, matches_cat_iff]
  constructor
  · rintro (⟨s1, s2, rfl, h1, h2⟩ | rfl)
    · right
      rw [matches_chr_iff] at h1
      obtain ⟨c, rfl, hc⟩ := h1
      refine ⟨c, s2, rfl, (hfirst c).1 hc, ?_⟩
      intro d hd
      exact (hrest d).1 ((matches_star_chr_iff _ _ _ _).1 h2 d hd)
    · exact Or.inl rfl
  · rintro (rfl | ⟨c, y, rfl, hc, hy⟩)
    · exact Or.inr rfl
    · left
      refine ⟨[c], y, rfl, Matches.chr _ _ _ _ ((hfirst c).2 hc), ?_⟩
      exact (matches_star_chr_iff _ _ _ _).2 fun d hd => (hrest d).2 (hy d hd)

/-- The string of the path tail after the four replacements, with the end of
the pattern. -/
theorem path_closed :
    ∀ p a e : Bool, ∃ rest : List Char,
      (path { defaults [] with parens := p, apostrophes := a }).data = '(' :: rest ∧
        sub4 (rest ++ (if e then "$)" else "").data) = rest ++ (if e then "$)" else "").data := by
  intro p a e
  cases p <;> cases a <;> cases e <;> exact ⟨_, rfl, by decide!⟩

/-- C11: the path tail is one optional group that starts with `/`, `?` or `#`
and goes on with a negated class; the class excludes white space and the
double quote, the closing parenthesis exactly when `parens` is unset and the
apostrophe exactly when `apostrophes` is unset; and `parens` and
`apostrophes` change nothing else in the pattern. -/
theorem C11_path_tail (hf : FoldOK orbit) (opt : option) :
    path opt = "(?:[/?#][^\\s\"" ++ (if opt.parens then "" else "\\)") ++
        (if opt.apostrophes then "" else "\x27") ++ "]*)?" ∧
      (∃ A : String, ∀ p a : Bool,
        pattern { opt with parens := p, apostrophes := a } =
          A ++ path { opt with parens := p, apostrophes := a } ++
            (if opt.exact then "$)" else "")) ∧
      Compile ("(?i)" ++ path opt) = some (pathRe opt.parens opt.apostrophes) ∧
      ∀ x : List Char, Matches orbit (pathRe opt.parens opt.apostrophes) [] x [] ↔
        x = [] ∨ ∃ c y, x = c :: y ∧ (c = '/' ∨ c = '?' ∨ c = '#') ∧
          ∀ d ∈ y, asciiSpace d = false ∧ d ≠ '"' ∧ (d = ')' → opt.parens = true) ∧
            (d = Char.ofNat 39 → opt.apostrophes = true) := by
  refine ⟨?_, ?_, ?_, fun x => matches_pathRe_iff hf _ _ x⟩
  · unfold path
    cases opt.parens <;> cases opt.apostrophes <;> decide
  · refine ⟨⟨sub4 ((if opt.exact then "(?i)(?:^" else "(?i)") ++ regexHead opt ++ host ++ domain ++
      tld opt ++ ")" ++ port).data⟩, ?_⟩
    intro p a
    obtain ⟨rest, h1, h2⟩ := path_closed p a opt.exact
    have hp : (path { opt with parens := p, apostrophes := a }).data = '(' :: rest := h1
    apply String.ext
    rw [pattern_data]
    have e : (regexRaw { opt with parens := p, apostrophes := a }).data =
        ((if opt.exact then "(?i)(?:^" else "(?i)") ++ regexHead opt ++ host ++ domain ++
          tld opt ++ ")" ++ port).data ++ '(' :: (rest ++ (if opt.exact then "$)" else "").data) := by
      have e0 : regexRaw { opt with parens := p, apostrophes := a } =
          if opt.exact then
            "(?i)(?:^" ++ (regexHead opt ++ (host ++ domain ++ tld opt ++ ")" ++ port ++
              path { opt with parens := p, apostrophes := a })) ++ "$)"
          else
            "(?i)" ++ (regexHead opt ++ (host ++ domain ++ tld opt ++ ")" ++ port ++
              path { opt with parens := p, apostrophes := a })) := rfl
      rw [e0]
      simp only [apply_ite String.data, String.data_append, hp]
      cases opt.exact <;> simp
    rw [e, sub4_append_cons _ _ '(' (by decide) (by decide) (by decide) (by decide), h2]
    simp only [String.data_append, hp, List.append_assoc, List.cons_append]
  · unfold path
    cases opt.parens <;> cases opt.apostrophes <;> decide!

theorem C11_witness :
    path parensConfig = "(?:[/?#][^\\s\"" ++ "" ++ "\x27" ++ "]*)?" ∧
      Compile ("(?i)" ++ path parensConfig) = some (pathRe true false) ∧
      Matches asciiFold (pathRe true false) [] "/(its)".data [] ∧
      ¬ Matches asciiFold (pathRe true false) [] "/(it\x27s)".data [] := by
  have h := C11_path_tail asciiFold_ok parensConfig
  refine ⟨h.1, h.2.2.1, ?_, ?_⟩
  · exact (h.2.2.2 _).2 (Or.inr ⟨'/', "(its)".data, rfl, Or.inl rfl, by decide⟩)
  · intro hm
    rcases (h.2.2.2 _).1 hm with h0 | ⟨c, y, hxy, _, hy⟩
    · cases h0
    · have hy' : y = "(it\x27s)".data := (List.cons.inj hxy).2.symm
      have := (hy (Char.ofNat 39) (by rw [hy']; decide)).2.2.2 rfl
      cases this

end PathTail

/-! ## The host group -/

section HostGroup

set_option maxRecDepth 100000

theorem sub4_head_split : ∀ e s a l : Bool,
    sub4 (chunkHead e s a l) =
      ((if e then "(?i)(?:^" else "(?i)") ++ "(?:" ++
        ("(?:(?:[a-z]+:)?//)" ++ (if !s then "?" else "")) ++ "|www\\.)" ++
        (if a then "(?:\\S+(?::\\S*)?@)?" else "") ++ "(?:").data ++
      (if l then "localhost|" else "").data := by
  decide!

theorem sub4_v4 : ∀ b : Bool, sub4 (chunkV4 b) = (if b then v4 ++ "|" else "").data := by
  decide!

theorem sub4_v6 : ∀ b : Bool,
    sub4 (chunkV6 b) =
      (if b then
        ReplaceAll (ReplaceAll v6reg "$\x7bv4\x7d" v4) "$\x7bv6seg\x7d" v6seg ++ "|"
       else "").data := by
  decide!

/-- C12: the host group lists the `localhost` literal, the IPv4 literal, the
IPv6 literal and the generic alternative in this order, each of the first
three exactly when its flag is set and the generic one always, last; and
the three flags change nothing else, in the pattern string and in the tree
that it compiles to. -/
theorem C12_host_group_order (opt : option) :
    (∃ G : String, ∀ l i4 i6 : Bool,
      pattern { opt with localhost := l, ipv4 := i4, ipv6 := i6 } =
        (if opt.exact then "(?i)(?:^" else "(?i)") ++ "(?:" ++ protocol opt ++ "|www\\.)" ++
          auth opt ++ "(?:" ++
          (if l then "localhost|" else "") ++
          (if i4 then v4 ++ "|" else "") ++
          (if i6 then
            ReplaceAll (ReplaceAll v6reg "$\x7bv4\x7d" v4) "$\x7bv6seg\x7d" v6seg ++ "|"
           else "") ++ G) ∧
      ((opt.strict = false → ∀ t ∈ opt.tlds, ∀ c ∈ t.data, plainChar c = true) →
        ∀ l i4 i6 : Bool,
          Compile (pattern { opt with localhost := l, ipv4 := i4, ipv6 := i6 }) =
            some (catList ((if opt.exact then [Regex.bol] else []) ++
              ([protoRe opt.strict] ++ (if opt.auth then [authRe] else []) ++
                [altList ((if l then [wordRe "localhost".data] else []) ++
                    (if i4 then [v4Re] else []) ++ (if i6 then [v6Re] else []) ++
                    [genericRe (if opt.strict then strictTldRe else tldAltRe (sortedTlds opt))
                      opt.trailingPeriod]),
                  portRe, pathRe opt.parens opt.apostrophes]) ++
              (if opt.exact then [Regex.eol] else [])))) := by
  constructor
  · refine ⟨⟨sub4 (chunkHost ++
      ((if opt.strict then chunkStrictTld
        else "(?:".data ++ ((Join (sortedTlds opt) "|").data ++ ")".data)) ++
       (")".data ++ (chunkPeriod opt.trailingPeriod ++ (")".data ++
        (chunkPortPath opt.parens opt.apostrophes ++ chunkEnd opt.exact))))))⟩, ?_⟩
    intro l i4 i6
    apply String.ext
    have hr : (regexRaw { opt with localhost := l, ipv4 := i4, ipv6 := i6 }).data =
        rawPieces
          (if opt.strict then chunkStrictTld
           else "(?:".data ++ ((Join (sortedTlds opt) "|").data ++ ")".data))
          opt.exact opt.strict opt.auth l opt.parens opt.apostrophes opt.trailingPeriod i4 i6 :=
      regexRaw_data { opt with localhost := l, ipv4 := i4, ipv6 := i6 }
    rw [pattern_data, hr, rawPieces, sub4_append _ _ (clean_head _ _ _ _),
      sub4_append _ _ (clean_v4 _), sub4_append _ _ (clean_v6 _), sub4_head_split, sub4_v4,
      sub4_v6]
    simp only [String.data_append, protocol, auth, apply_ite String.data, List.append_assoc]
  · intro hplain l i4 i6
    have h := Compile_pattern { opt with localhost := l, ipv4 := i4, ipv6 := i6 } hplain
    rw [h]
    show some (patternTree (if opt.strict then strictTldRe else tldAltRe (sortedTlds opt))
      opt.exact opt.strict opt.auth l opt.parens opt.apostrophes opt.trailingPeriod i4 i6) = _
    unfold patternTree bodyRes hostGroupRe
    cases opt.exact <;> simp

theorem C12_witness :
    ∀ l i4 i6 : Bool,
      Compile (pattern { testConfig with localhost := l, ipv4 := i4, ipv6 := i6 }) =
        some (catList ((if testConfig.exact then [Regex.bol] else []) ++
          ([protoRe testConfig.strict] ++ (if testConfig.auth then [authRe] else []) ++
            [altList ((if l then [wordRe "localhost".data] else []) ++
                (if i4 then [v4Re] else []) ++ (if i6 then [v6Re] else []) ++
                [genericRe
                  (if testConfig.strict then strictTldRe else tldAltRe (sortedTlds testConfig))
                  testConfig.trailingPeriod]),
              portRe, pathRe testConfig.parens testConfig.apostrophes]) ++
          (if testConfig.exact then [Regex.eol] else []))) :=
  (C12_host_group_order testConfig).2 (by decide)

end HostGroup

/-! ## An empty TLD list; `parens` and the apostrophe -/

section Misuse

set_option maxRecDepth 100000

variable {orbit : Char → List Char}

/-- A match of the whole pattern from matches of its parts, the part `auth`
matching nothing. -/
theorem patternTree_of_parts (t : Regex) (ht : anchorFree t = true)
    (e s a l p ap tp i4 i6 : Bool) (x1 x3 x4 x5 : List Char)
    (h1 : Matches orbit (protoRe s) [] x1 [])
    (h3 : Matches orbit (hostGroupRe t l i4 i6 tp) [] x3 [])
    (h4 : Matches orbit portRe [] x4 []) (h5 : Matches orbit (pathRe p ap) [] x5 []) :
    Matches orbit (patternTree t e s a l p ap tp i4 i6) [] (x1 ++ (x3 ++ (x4 ++ x5))) [] := by
  have hP := anchorFree_pieces.2.2.2.2.2.2.2.1 s
  have hH := anchorFree_hostGroupRe t ht l i4 i6 tp
  have hQ := anchorFree_pieces.2.2.2.2.2.2.1
  have hW := anchorFree_pieces.2.2.2.2.2.2.2.2 p ap
  have h2 : ∀ pre post, Matches orbit authRe pre [] post := fun pre post =>
    Matches.altR _ _ _ _ _ (Matches.empty _ _)
  have core : ∀ pre, Matches orbit (.cat (hostGroupRe t l i4 i6 tp) (.cat portRe (pathRe p ap)))
      pre (x3 ++ (x4 ++ x5)) [] := fun pre =>
    Matches.cat _ _ _ x3 (x4 ++ x5) [] (matches_context h3 hH _ _)
      (Matches.cat _ _ _ x4 x5 [] (matches_context h4 hQ _ _) (matches_context h5 hW _ _))
  have coreE : ∀ pre, Matches orbit
      (.cat (hostGroupRe t l i4 i6 tp) (.cat portRe (.cat (pathRe p ap) .eol)))
      pre (x3 ++ (x4 ++ x5)) [] := fun pre =>
    Matches.cat _ _ _ x3 (x4 ++ x5) [] (matches_context h3 hH _ _)
      (Matches.cat _ _ _ x4 x5 [] (matches_context h4 hQ _ _)
        (cat_nil_right (matches_context h5 hW _ _) (Matches.eol _)))
  cases e <;> cases a
  · exact Matches.cat _ _ [] x1 _ [] (matches_context h1 hP _ _) (core _)
  · exact Matches.cat _ _ [] x1 _ [] (matches_context h1 hP _ _) (cat_nil_left (h2 _ _) (core _))
  · exact cat_nil_left (Matches.bol _)
      (Matches.cat _ _ [] x1 _ [] (matches_context h1 hP _ _) (coreE _))
  · exact cat_nil_left (Matches.bol _)
      (Matches.cat _ _ [] x1 _ [] (matches_context h1 hP _ _)
        (cat_nil_left (h2 _ _) (coreE _)))

/-- C16, as the code has it: without the strict mode and with an empty TLD
list, building does not fail, and the TLD alternation is the empty group: it
matches the empty piece and nothing else.  So `a.` and `example.` are matched
(in the exact mode too, and whatever `localhost`, `ipv4` and `ipv6` are), and
with these three flags unset a text without a period is not matched. -/
theorem C16_empty_tld_list (hf : FoldOK orbit) (opt : option) (hs : opt.strict = false)
    (ht : opt.tlds = []) :
    Compile (pattern opt) = some (patternRe opt) ∧
      (∀ pre s post : List Char,
        Matches orbit (tldAltRe (sortedTlds opt)) pre s post ↔ s = []) ∧
      PatternMatches orbit (pattern opt) "a." = true ∧
      PatternMatches orbit (pattern opt) "example." = true ∧
      (opt.localhost = false → opt.ipv4 = false → opt.ipv6 = false →
        ∀ s : String, '.' ∉ s.data → PatternMatches orbit (pattern opt) s = false) := by
  have hplain : ∀ t ∈ opt.tlds, ∀ c ∈ t.data, plainChar c = true := by
    intro t h
    rw [ht] at h
    cases h
  have hsorted : sortedTlds opt = [] := by
    simp only [sortedTlds, ht, SliceStable]
  have hT : ∀ pre s post : List Char,
      Matches orbit (tldAltRe (sortedTlds opt)) pre s post ↔ s = [] := by
    intro pre s post
    rw [hsorted]
    exact matches_empty_iff
  have hgen : ∀ x : List Char, Matches orbit hostRe [] x [] →
      ∀ s : String, s.data = x ++ ['.'] → PatternMatches orbit (pattern opt) s = true := by
    intro x hx s hsd
    apply match_of_host opt hs hplain
    rw [matches_hostGroupRe_iff]
    right; right; right
    have := genericRe_of_parts hf (tldAltRe (sortedTlds opt)) (anchorFree_tldAltRe _)
      opt.trailingPeriod x [] [] [] hx (Matches.starNil _ _ _) ((hT _ _ _).2 rfl) (Or.inl rfl)
      [] []
    rw [hsd]
    simpa using this
  refine ⟨Compile_pattern opt (fun _ => hplain), hT, ?_, ?_, ?_⟩
  · exact hgen "a".data (matches_of_matchWhole hf _ _ (by decide) (by decide!)) _ rfl
  · exact hgen "example".data (matches_of_matchWhole hf _ _ (by decide) (by decide!)) _ rfl
  · intro hl h4 h6 s hdot
    rw [← Bool.not_eq_true]
    intro h
    obtain ⟨x, hx, hm⟩ := host_piece_of_match opt (fun _ => hplain) s h
    rw [hs, hl, h4, h6] at hm
    simp only [Bool.false_eq_true, if_false] at hm
    rcases (matches_hostGroupRe_iff _ _ _ _ _).1 hm with ⟨h, _⟩ | ⟨h, _⟩ | ⟨h, _⟩ | h
    · cases h
    · cases h
    · cases h
    · obtain ⟨p, q, z, u, rfl, _⟩ := matches_genericRe hf _ (anchorFree_tldAltRe _) _ h
      exact hdot (hx '.' (by simp))

theorem C16_witness :
    Compile (pattern noHostConfig) = some (patternRe noHostConfig) ∧
      PatternMatches asciiFold (pattern noHostConfig) "a." = true ∧
      PatternMatches asciiFold (pattern noHostConfig) "example." = true ∧
      PatternMatches asciiFold (pattern noHostConfig) "example" = false :=
  ⟨(C16_empty_tld_list asciiFold_ok noHostConfig rfl rfl).1,
    (C16_empty_tld_list asciiFold_ok noHostConfig rfl rfl).2.2.1,
    (C16_empty_tld_list asciiFold_ok noHostConfig rfl rfl).2.2.2.1,
    (C16_empty_tld_list asciiFold_ok noHostConfig rfl rfl).2.2.2.2 rfl rfl rfl "example"
      (by decide)⟩

/-- C16 as it is stated fails: with an empty TLD list and `localhost`, `ipv4`
and `ipv6` unset, the pattern of the exact mode matches `a.` and
`example.`. -/
theorem C16_counterexample :
    noHostConfig.strict = false ∧ noHostConfig.tlds = [] ∧ noHostConfig.exact = true ∧
      noHostConfig.localhost = false ∧ noHostConfig.ipv4 = false ∧ noHostConfig.ipv6 = false ∧
      PatternMatches asciiFold (pattern noHostConfig) "a." = true ∧
      PatternMatches asciiFold (pattern noHostConfig) "example." = true := by
  refine ⟨rfl, rfl, rfl, rfl, rfl, rfl, by decide!, by decide!⟩

theorem apostrophe_facts :
    nonLetterAscii (Char.ofNat 39) = true ∧ letterOrDigit (Char.ofNat 39) = false ∧
      hostPartsAvoid (Char.ofNat 39) = true ∧ avoids (Char.ofNat 39) portRe = true ∧
      avoids (Char.ofNat 39) (protoRe false) = true ∧
      avoids (Char.ofNat 39) (pathRe true false) = true := by
  decide!

/-- C17, as the code has it: `parens` lets the closing parenthesis into the
path and does nothing for the apostrophe.  Without the strict mode, in the
exact mode, with `parens` set, `com` among the TLDs and TLD entries of letters
and digits, the text `http://foo.com/(it's)` is matched exactly when
`apostrophes` is set, and `http://foo.com/(its)` is matched either way. -/
theorem C17_parens_keeps_apostrophe_out (hf : FoldOK orbit) (opt : option)
    (hs : opt.strict = false) (he : opt.exact = true) (hp : opt.parens = true)
    (hcom : "com" ∈ opt.tlds)
    (hl : ∀ t ∈ opt.tlds, ∀ c ∈ t.data, letterOrDigit c = true) :
    PatternMatches orbit (pattern opt) "http://foo.com/(it\x27s)" = opt.apostrophes ∧
      PatternMatches orbit (pattern opt) "http://foo.com/(its)" = true := by
  have hplain : opt.strict = false → ∀ t ∈ opt.tlds, ∀ c ∈ t.data, plainChar c = true :=
    fun _ t ht c hc => letterOrDigit_plain c (hl t ht c hc)
  have hne : sortedTlds opt ≠ [] := by
    intro e
    have := (mem_sortedTlds opt "com").2 hcom
    rw [e] at this
    cases this
  have hbuild : ∀ (s : String) (tail : List Char),
      s.data = "http://".data ++ ("foo.com".data ++ ([] ++ tail)) →
      Matches orbit (pathRe opt.parens opt.apostrophes) [] tail [] →
      PatternMatches orbit (pattern opt) s = true := by
    intro s tail hsd htail
    rw [PatternMatches_iff opt hplain]
    refine ⟨[], s.data, [], by simp, ?_⟩
    rw [patternRe, hs, hsd]
    apply patternTree_of_parts _ (anchorFree_tldAltRe _)
    · exact matches_of_matchWhole hf _ _ (by decide) (by decide!)
    · rw [matches_hostGroupRe_iff]
      right; right; right
      have hx : Matches orbit hostRe [] "foo".data [] :=
        matches_of_matchWhole hf _ _ (by decide) (by decide!)
      have hz : Matches orbit (tldAltRe (sortedTlds opt)) [] "com".data [] :=
        (matches_tldAltRe_iff hf _ hne).2
          ⟨"com", (mem_sortedTlds opt "com").2 hcom, forall₂_self _ hf⟩
      have := genericRe_of_parts hf (tldAltRe (sortedTlds opt)) (anchorFree_tldAltRe _)
        opt.trailingPeriod "foo".data [] "com".data [] hx (Matches.starNil _ _ _) hz
        (Or.inl rfl) [] []
      simpa using this
    · exact Matches.altR _ _ _ _ _ (Matches.empty _ _)
    · exact htail
  constructor
  · cases ha : opt.apostrophes
    · obtain ⟨f1, f2, f3, f4, f5, f6⟩ := apostrophe_facts
      rw [PatternMatches_false_iff opt hplain]
      intro pre m post hsplit hm
      obtain ⟨rfl, rfl⟩ := exact_whole opt he hm
      simp only [List.nil_append, List.append_nil] at hsplit
      have hTav : avoids (Char.ofNat 39)
          (if opt.strict then strictTldRe else tldAltRe (sortedTlds opt)) = true := by
        rw [hs]
        simp only [Bool.false_eq_true, if_false]
        apply avoids_tldAltRe _ f1
        intro t ht hdt
        have := hl t ((mem_sortedTlds opt t).1 ht) _ hdt
        rw [f2] at this
        cases this
      have hT := anchorFree_tldRe opt
      rw [patternRe, hs, hp, ha] at hm
      rw [hs] at hTav hT
      generalize (if false = true then strictTldRe else tldAltRe (sortedTlds opt)) = T
        at hT hTav hm
      obtain ⟨_, x1, x2, x3, x4, x5, rfl, h1, h2, h3, h4, h5⟩ :=
        matches_patternTree T hT _ _ _ _ _ _ _ _ _ hm
      have e2 : x2 = [] := by
        rcases h2 with h | ⟨_, h⟩
        · exact h
        · rcases auth_cases hf h with h | h
          · exact h
          · exfalso
            have : '@' ∈ x1 ++ (x2 ++ (x3 ++ (x4 ++ x5))) := by
              simp [h]
            rw [← hsplit] at this
            revert this
            decide
      subst e2
      have n1 : Char.ofNat 39 ∉ x1 := avoids_sound hf _ (by decide) h1 f5
      have n3 : Char.ofNat 39 ∉ x3 :=
        avoids_sound hf _ (by decide) h3 (avoids_hostGroupRe _ T hTav f3 _ _ _ _)
      have n4 : Char.ofNat 39 ∉ x4 := avoids_sound hf _ (by decide) h4 f4
      have n5 : Char.ofNat 39 ∉ x5 := avoids_sound hf _ (by decide) h5 f6
      have : Char.ofNat 39 ∈ x1 ++ ([] ++ (x3 ++ (x4 ++ x5))) := by
        rw [← hsplit]
        decide
      simp only [List.mem_append, List.nil_append] at this
      rcases this with h | h | h | h
      · exact n1 h
      · exact n3 h
      · exact n4 h
      · exact n5 h
    · apply hbuild _ "/(it\x27s)".data rfl
      rw [matches_pathRe_iff hf]
      right
      refine ⟨'/', "(it\x27s)".data, rfl, Or.inl rfl, ?_⟩
      intro d hd
      rw [hp, ha]
      have : d ∈ "(it\x27s)".data := hd
      revert this d
      decide
  · apply hbuild _ "/(its)".data rfl
    rw [matches_pathRe_iff hf]
    right
    refine ⟨'/', "(its)".data, rfl, Or.inl rfl, ?_⟩
    intro d hd
    rw [hp]
    have : d ∈ "(its)".data := hd
    revert this d
    cases opt.apostrophes <;> decide

theorem C17_witness :
    PatternMatches asciiFold (pattern parensConfig) "http://foo.com/(it\x27s)" =
        parensConfig.apostrophes ∧
      PatternMatches asciiFold (pattern parensConfig) "http://foo.com/(its)" = true :=
  C17_parens_keeps_apostrophe_out asciiFold_ok parensConfig rfl rfl rfl (by decide) (by decide)

/-- C17 as it is stated fails: the configuration of the tests with `parens`
set is not strict, is exact, has `apostrophes` unset and `com` among its
TLDs, and its pattern does not match `http://foo.com/(it's)`. -/
theorem C17_counterexample :
    parensConfig.strict = false ∧ parensConfig.exact = true ∧ parensConfig.parens = true ∧
      parensConfig.apostrophes = false ∧ "com" ∈ parensConfig.tlds ∧
      PatternMatches asciiFold (pattern parensConfig) "http://foo.com/(it\x27s)" = false := by
  refine ⟨rfl, rfl, rfl, rfl, by decide, by decide!⟩

end Misuse

/-! ## The port after `localhost` -/

section Port

set_option maxRecDepth 100000

variable {orbit : Char → List Char}

theorem localhost_facts :
    mustHave ['.'] v4Re = true ∧ mustHave [':'] v6MainRe = true ∧
      avoids 'l' v6MainRe = true ∧
      (∀ c ∈ "localhost:".data,
        c ≠ '/' ∧ c ≠ '.' ∧ c ≠ '@' ∧ c ≠ '?' ∧ c ≠ '#' ∧ c.isDigit = false) := by
  decide!

/-- C20: without the strict mode, in the exact mode, with `localhost` set and
TLD entries of letters, and for a string `d` of ASCII digits: the text
`"localhost:" + d` is matched exactly when `d` has between 2 and 5 digits. -/
theorem C20_localhost_port (hf : FoldOK orbit) (opt : option) (hs : opt.strict = false)
    (he : opt.exact = true) (hlh : opt.localhost = true)
    (hl : ∀ t ∈ opt.tlds, ∀ c ∈ t.data, letter c = true)
    (d : String) (hd : ∀ c ∈ d.data, c.isDigit = true) :
    PatternMatches orbit (pattern opt) ("localhost:" ++ d) =
      decide (2 ≤ d.length ∧ d.length ≤ 5) := by
  have hplain : opt.strict = false → ∀ t ∈ opt.tlds, ∀ c ∈ t.data, plainChar c = true :=
    fun _ t ht c hc => letterOrDigit_plain c (letter_letterOrDigit c (hl t ht c hc))
  obtain ⟨g1, g2, g3, g4⟩ := localhost_facts
  have hlen : d.length = d.data.length := rfl
  have htext : ("localhost:" ++ d).data = "localhost".data ++ (':' :: d.data) := by
    rw [String.data_append]
    rfl
  have hchars : ∀ c ∈ "localhost".data ++ (':' :: d.data),
      c ≠ '/' ∧ c ≠ '.' ∧ c ≠ '@' ∧ c ≠ '?' ∧ c ≠ '#' := by
    intro c hc
    have hc' : c ∈ "localhost:".data ∨ c ∈ d.data := by
      rcases List.mem_append.1 hc with h | h
      · left
        show c ∈ "localhost".data ++ [':']
        exact List.mem_append_left _ h
      · rcases List.mem_cons.1 h with rfl | h
        · left; decide
        · exact Or.inr h
    rcases hc' with h | h
    · obtain ⟨a1, a2, a3, a4, a5, _⟩ := g4 c h
      exact ⟨a1, a2, a3, a4, a5⟩
    · have hdig := hd c h
      refine ⟨?_, ?_, ?_, ?_, ?_⟩ <;> (rintro rfl; revert hdig; decide)
  rw [Bool.eq_iff_iff, decide_eq_true_eq, hlen]
  constructor
  · intro h
    rw [PatternMatches_iff opt hplain] at h
    obtain ⟨pre, m, post, hsplit, hm⟩ := h
    obtain ⟨rfl, rfl⟩ := exact_whole opt he hm
    simp only [List.nil_append, List.append_nil] at hsplit
    rw [htext] at hsplit
    have hT := anchorFree_tldRe opt
    rw [patternRe, hs] at hm
    rw [hs] at hT
    generalize (if false = true then strictTldRe else tldAltRe (sortedTlds opt)) = T at hT hm
    obtain ⟨_, x1, x2, x3, x4, x5, rfl, h1, h2, h3, h4, h5⟩ :=
      matches_patternTree T hT _ _ _ _ _ _ _ _ _ hm
    have hsub : ∀ c, c ∈ x1 ++ (x2 ++ (x3 ++ (x4 ++ x5))) →
        c ≠ '/' ∧ c ≠ '.' ∧ c ≠ '@' ∧ c ≠ '?' ∧ c ≠ '#' := by
      intro c hc
      rw [← hsplit] at hc
      exact hchars c hc
    have e1 : x1 = [] := by
      rcases proto_cases hf false h1 with ⟨_, h⟩ | ⟨y, rfl⟩ | ⟨c1, c2, c3, rfl, _⟩
      · exact h
      · exact absurd rfl (hsub '/' (by simp)).1
      · exact absurd rfl (hsub '.' (by simp)).2.1
    subst e1
    have e2 : x2 = [] := by
      rcases h2 with h | ⟨_, h⟩
      · exact h
      · rcases auth_cases hf h with h | h
        · exact h
        · exact absurd rfl (hsub '@' (by simp [h])).2.2.1
    subst e2
    have e5 : x5 = [] := by
      rcases path_cases hf _ _ h5 with h | ⟨c, y, rfl, hc⟩
      · exact h
      · exfalso
        have := hsub c (by simp)
        simp only [List.mem_cons, List.mem_singleton, List.not_mem_nil, or_false] at hc
        rcases hc with rfl | rfl | rfl
        · exact this.1 rfl
        · exact this.2.2.2.1 rfl
        · exact this.2.2.2.2 rfl
    subst e5
    simp only [List.nil_append, List.append_nil] at hsplit hsub
    have e3 : x3 = "localhost".data := by
      rcases (matches_hostGroupRe_iff _ _ _ _ _).1 h3 with ⟨_, h⟩ | ⟨_, h⟩ | ⟨_, h⟩ | h
      · have hL := List.Forall₂.length_eq ((matches_wordRe_iff hf _).1 h)
        exact ((List.append_inj hsplit hL).1).symm
      · exfalso
        obtain ⟨c, hc, hcm⟩ := mustHave_sound hf ['.'] h g1
        simp only [List.mem_singleton] at hcm
        subst hcm
        exact (hsub '.' (by simp [hc])).2.1 rfl
      · exfalso
        rw [v6Re, matches_cat_iff] at h
        obtain ⟨m6, z6, rfl, hm6, _⟩ := h
        obtain ⟨c, hc, hcm⟩ := mustHave_sound hf [':'] hm6 g2
        have hno : 'l' ∉ m6 := avoids_sound hf 'l' (by decide) hm6 g3
        cases m6 with
        | nil => cases hc
        | cons c0 m6 =>
          simp only [List.cons_append] at hsplit
          have : 'l' = c0 := (List.cons.inj hsplit).1
          subst this
          exact hno (by simp)
      · exfalso
        obtain ⟨p, q, z, u, rfl, _⟩ := matches_genericRe hf T hT _ h
        exact (hsub '.' (by simp)).2.1 rfl
    subst e3
    have e4 : x4 = ':' :: d.data := (List.append_cancel_left hsplit).symm
    rcases port_cases hf h4 with h | ⟨y, hy, hc⟩
    · rw [h] at e4
      cases e4
    · rw [e4] at hy
      have : y = d.data := (List.cons.inj hy).2.symm
      subst this
      exact ((matches_counted_chr_iff digitCls 2 5 (by decide) _ _ _).1 hc).1
  · intro hle
    rw [PatternMatches_iff opt hplain]
    refine ⟨[], ("localhost:" ++ d).data, [], by simp, ?_⟩
    rw [patternRe, hs]
    have hx1 : Matches orbit (protoRe false) [] [] [] :=
      Matches.altL _ _ _ _ _ (Matches.altR _ _ _ _ _ (Matches.empty _ _))
    have hx3 : Matches orbit
        (hostGroupRe (tldAltRe (sortedTlds opt)) opt.localhost opt.ipv4 opt.ipv6
          opt.trailingPeriod) [] "localhost".data [] := by
      rw [matches_hostGroupRe_iff]
      exact Or.inl ⟨hlh, (matches_wordRe_iff hf _).2 (forall₂_self _ hf)⟩
    have hx4 : Matches orbit portRe [] (':' :: d.data) [] := by
      refine Matches.altL _ _ _ _ _ (Matches.cat _ _ [] [':'] d.data [] ?_ ?_)
      · exact (matches_lit_iff hf ':').2 ⟨':', rfl, hf.self ':'⟩
      · refine (matches_counted_chr_iff digitCls 2 5 (by decide) _ _ _).2 ⟨hle, ?_⟩
        intro c hc
        rw [test_digitCls hf]
        exact hd c hc
    have hx5 : Matches orbit (pathRe opt.parens opt.apostrophes) [] [] [] :=
      Matches.altR _ _ _ _ _ (Matches.empty _ _)
    have := patternTree_of_parts (tldAltRe (sortedTlds opt)) (anchorFree_tldAltRe _)
      opt.exact false opt.auth opt.localhost opt.parens opt.apostrophes opt.trailingPeriod
      opt.ipv4 opt.ipv6 [] "localhost".data (':' :: d.data) [] hx1 hx3 hx4 hx5
    rw [htext]
    simpa using this

theorem C20_witness :
    PatternMatches asciiFold (pattern testConfig) ("localhost:" ++ "8080") = true ∧
      PatternMatches asciiFold (pattern testConfig) ("localhost:" ++ "8") = false ∧
      PatternMatches asciiFold (pattern testConfig) ("localhost:" ++ "123456") = false :=
  ⟨(C20_localhost_port asciiFold_ok testConfig rfl rfl rfl (by decide) "8080" (by decide)).trans
      (by decide),
    (C20_localhost_port asciiFold_ok testConfig rfl rfl rfl (by decide) "8" (by decide)).trans
      (by decide),
    (C20_localhost_port asciiFold_ok testConfig rfl rfl rfl (by decide) "123456"
      (by decide)).trans (by decide)⟩

end Port

/-! ## The IPv4 part against a whole string -/

section IPv4

set_option maxRecDepth 100000

variable {orbit : Char → List Char}

theorem octet_facts :
    bounded octetRe = some 3 ∧ onlyIn asciiDigits octetRe = true ∧
      anchorFree octetRe = true ∧ (∀ c ∈ asciiDigits, c.toNat < 128) ∧
      matchWhole asciiFold octetRe true [] = false := by
  decide!

theorem octet_table1 :
    ∀ a ∈ asciiDigits, matchWhole asciiFold octetRe true [a] = true →
      (a.toNat - 48 ≤ 255 ∧ [a] = decimal (a.toNat - 48)) := by
  decide!

theorem octet_table2 :
    ∀ a ∈ asciiDigits, ∀ b ∈ asciiDigits, matchWhole asciiFold octetRe true [a, b] = true →
      ((a.toNat - 48) * 10 + (b.toNat - 48) ≤ 255 ∧
        [a, b] = decimal ((a.toNat - 48) * 10 + (b.toNat - 48))) := by
  decide!

theorem octet_table3 :
    ∀ a ∈ asciiDigits, ∀ b ∈ asciiDigits, ∀ c ∈ asciiDigits,
      matchWhole asciiFold octetRe true [a, b, c] = true →
        ((a.toNat - 48) * 100 + (b.toNat - 48) * 10 + (c.toNat - 48) ≤ 255 ∧
          [a, b, c] = decimal ((a.toNat - 48) * 100 + (b.toNat - 48) * 10 + (c.toNat - 48))) := by
  decide!

/-- What the octet part matches is the decimal numeral of a number up to
255. -/
theorem octet_decimal (hf : FoldOK orbit) {x pre post : List Char}
    (h : Matches orbit octetRe pre x post) : ∃ n, n ≤ 255 ∧ x = decimal n := by
  obtain ⟨f1, f2, f3, f4, f5⟩ := octet_facts
  have h0 : Matches orbit octetRe [] x [] := matches_context h f3 _ _
  have hdig : ∀ c ∈ x, c ∈ asciiDigits := onlyIn_sound hf asciiDigits h0 f2
  have hlen : x.length ≤ 3 := bounded_sound h0 3 f1
  have hmw : matchWhole asciiFold octetRe true x = true :=
    (@matchWhole_iff asciiFold x octetRe true [] (by simp)).2
      (matches_transfer hf asciiFold_ok h0 (fun c hc => f4 c (hdig c hc)))
  match x, hdig, hlen, hmw with
  | [], _, _, hmw =>
    rw [f5] at hmw
    cases hmw
  | [a], hdig, _, hmw =>
    exact ⟨_, octet_table1 a (hdig a (by simp)) hmw⟩
  | [a, b], hdig, _, hmw =>
    exact ⟨_, octet_table2 a (hdig a (by simp)) b (hdig b (by simp)) hmw⟩
  | [a, b, c], hdig, _, hmw =>
    exact ⟨_, octet_table3 a (hdig a (by simp)) b (hdig b (by simp)) c (hdig c (by simp)) hmw⟩
  | _ :: _ :: _ :: _ :: _, _, hlen, _ =>
    simp at hlen

/-- What the tree of the part `v4` matches, as a whole piece. -/
theorem matches_v4Re_iff (hf : FoldOK orbit) (m : List Char) :
    Matches orbit v4Re [] m [] ↔
      ∃ a b c d, a ≤ 255 ∧ b ≤ 255 ∧ c ≤ 255 ∧ d ≤ 255 ∧ m = (dottedQuad a b c d).data := by
  constructor
  · intro h
    have hdot : ∀ c, c ∈ orbit '.' → c = '.' := by
      intro c hc
      have e : asciiFold '.' = ['.'] := by decide
      have := (hf.ascii '.' (by decide) c).1 hc
      rw [e] at this
      simpa using this
    simp only [v4Re, v4TailRe, Regex.counted, Regex.rpow, matches_cat_iff, matches_empty_iff,
      matches_lit_iff hf] at h
    obtain ⟨o1, r1, rfl, h1, r2, r3, rfl, ⟨q2, r4, rfl, ⟨p2, o2, rfl, ⟨c2, rfl, hc2⟩, h2⟩,
      q3, r5, rfl, ⟨p3, o3, rfl, ⟨c3, rfl, hc3⟩, h3⟩,
      q4, r6, rfl, ⟨p4, o4, rfl, ⟨c4, rfl, hc4⟩, h4⟩, rfl⟩, rfl⟩ := h
    obtain ⟨a, ha, rfl⟩ := octet_decimal hf h1
    obtain ⟨b, hb, rfl⟩ := octet_decimal hf h2
    obtain ⟨c, hc, rfl⟩ := octet_decimal hf h3
    obtain ⟨d, hd, rfl⟩ := octet_decimal hf h4
    refine ⟨a, b, c, d, ha, hb, hc, hd, ?_⟩
    rw [hdot c2 hc2, hdot c3 hc3, hdot c4 hc4]
    simp [dottedQuad]
  · rintro ⟨a, b, c, d, ha, hb, hc, hd, rfl⟩
    exact v4_matches_quad hf a b c d ha hb hc hd

theorem compile_v4 :
    Compile ("(?i)^(?:" ++ v4 ++ ")$") = some (.cat .bol (.cat v4Re .eol)) := by
  decide!

/-- C19: the part `v4`, between `^` and `$` and under the flag `i` as `New`
uses it, matches exactly the strings `a.b.c.d` of four decimal numerals of
numbers from 0 to 255, written without leading zeros. -/
theorem C19_v4_whole_string (hf : FoldOK orbit) (s : String) :
    PatternMatches orbit ("(?i)^(?:" ++ v4 ++ ")$") s = true ↔
      ∃ a b c d, a ≤ 255 ∧ b ≤ 255 ∧ c ≤ 255 ∧ d ≤ 255 ∧ s = dottedQuad a b c d := by
  have hA : anchorFree v4Re = true := anchorFree_pieces.2.2.1
  rw [PatternMatches, compile_v4]
  show MatchString orbit _ s = true ↔ _
  rw [MatchString_iff]
  constructor
  · rintro ⟨pre, m, post, hsd, hm⟩
    simp only [matches_cat_iff, matches_bol_iff, matches_eol_iff] at hm
    obtain ⟨x0, r0, rfl, ⟨hpre, rfl⟩, x1, x2, rfl, h1, rfl, hpost⟩ := hm
    subst hpre
    have hpost' : post = [] := by simpa using hpost
    subst hpost'
    simp only [List.nil_append, List.append_nil] at hsd h1
    obtain ⟨a, b, c, d, ha, hb, hc, hd, he⟩ :=
      (matches_v4Re_iff hf x1).1 (matches_context h1 hA _ _)
    refine ⟨a, b, c, d, ha, hb, hc, hd, ?_⟩
    apply String.ext
    rw [hsd, he]
  · rintro ⟨a, b, c, d, ha, hb, hc, hd, rfl⟩
    refine ⟨[], (dottedQuad a b c d).data, [], by simp, ?_⟩
    have h := (matches_v4Re_iff hf _).2 ⟨a, b, c, d, ha, hb, hc, hd, rfl⟩
    exact cat_nil_left (Matches.bol _) (cat_nil_right (matches_context h hA _ _) (Matches.eol _))

theorem C19_witness :
    PatternMatches asciiFold ("(?i)^(?:" ++ v4 ++ ")$") "223.255.255.254" = true ∧
      PatternMatches asciiFold ("(?i)^(?:" ++ v4 ++ ")$") "256.1.1.1" = false ∧
      PatternMatches asciiFold ("(?i)^(?:" ++ v4 ++ ")$") "01.1.1.1" = false ∧
      PatternMatches asciiFold ("(?i)^(?:" ++ v4 ++ ")$") "123.123.123" = false :=
  ⟨(C19_v4_whole_string asciiFold_ok "223.255.255.254").2
      ⟨223, 255, 255, 254, by decide, by decide, by decide, by decide, by decide⟩,
    by decide!, by decide!, by decide!⟩

end IPv4

/-! ## Stability of the TLD order -/

section Stability

/-- Inserting `a` does not move it past an element that it is to stay in
front of: on the elements picked by `p`, none of which `less` puts before
another, the result is `a` in front of the rest. -/
theorem insertStable_filter {α : Type} (less : α → α → Bool) (p : α → Bool)
    (hp : ∀ x y, p x = true → p y = true → less x y = false) (a : α) (l : List α) :
    (insertStable less a l).filter p = (a :: l).filter p := by
  induction l with
  | nil => rfl
  | cons b l ih =>
    simp only [insertStable]
    by_cases hb : less b a = true
    · rw [if_pos hb, List.filter_cons, ih]
      by_cases hpa : p a = true
      · have hpb : p b = false := by
          rw [← Bool.not_eq_true]
          intro hpb
          have := hp b a hpb hpa
          rw [hb] at this
          cases this
        simp [List.filter_cons, hpa, hpb]
      · simp [List.filter_cons, hpa]
    · rw [if_neg hb]

/-- The stable sort keeps the order of the elements picked by `p` when `less`
puts none of them before another. -/
theorem SliceStable_filter {α : Type} (less : α → α → Bool) (p : α → Bool)
    (hp : ∀ x y, p x = true → p y = true → less x y = false) (l : List α) :
    (SliceStable less l).filter p = l.filter p := by
  induction l with
  | nil => rfl
  | cons a l ih =>
    simp only [SliceStable]
    rw [insertStable_filter less p hp, List.filter_cons, List.filter_cons, ih]

theorem sortedTlds_filter (opt : option) (n : Nat) :
    (sortedTlds opt).filter (fun t => decide (runeCount t = n)) =
      opt.tlds.filter (fun t => decide (runeCount t = n)) := by
  apply SliceStable_filter
  intro x y hx hy
  simp only [decide_eq_true_eq] at hx hy
  simp only [tldLess, decide_eq_false_iff_not]
  omega

/-- C21: without the strict mode the TLDs are joined in a stable order: the
entries of each code-point count stand in the joined sequence as in the
configured list, so two entries of the same count keep their relative order,
and a list that is in non-increasing order of count already is joined as it
is. -/
theorem C21_tld_order_stable (opt : option) (hs : opt.strict = false) :
    tld opt = "(?:\\." ++ ("(?:" ++ Join (sortedTlds opt) "|" ++ ")") ++ ")" ++
        (if opt.trailingPeriod then "\\.?" else "") ∧
      (∀ n : Nat, (sortedTlds opt).filter (fun t => decide (runeCount t = n)) =
        opt.tlds.filter (fun t => decide (runeCount t = n))) ∧
      (∀ x y : String, runeCount x = runeCount y → List.Sublist [x, y] opt.tlds →
        List.Sublist [x, y] (sortedTlds opt)) ∧
      (opt.tlds.Pairwise (fun a b => runeCount b ≤ runeCount a) →
        sortedTlds opt = opt.tlds) := by
  refine ⟨by simp [tld, hs], sortedTlds_filter opt, ?_, ?_⟩
  · intro x y hxy hsub
    have h1 := hsub.filter (fun t => decide (runeCount t = runeCount y))
    have h2 : [x, y].filter (fun t => decide (runeCount t = runeCount y)) = [x, y] := by
      simp [List.filter_cons, hxy]
    rw [h2, ← sortedTlds_filter opt] at h1
    exact h1.trans (List.filter_sublist _)
  · intro h
    exact SliceStable_of_pairwise runeCount opt.tlds h

theorem C21_witness :
    (sortedTlds testConfig).filter (fun t => decide (runeCount t = 2)) = ["ws", "de", "mp"] ∧
      List.Sublist ["ws", "mp"] (sortedTlds testConfig) ∧
      sortedTlds { testConfig with tlds := ["net", "com", "de"] } = ["net", "com", "de"] :=
  ⟨((C21_tld_order_stable testConfig rfl).2.1 2).trans (by decide),
    (C21_tld_order_stable testConfig rfl).2.2.1 "ws" "mp" (by decide) (by decide),
    (C21_tld_order_stable { testConfig with tlds := ["net", "com", "de"] } rfl).2.2.2
      (by decide)⟩

end Stability
end ursgo
